import Mathlib

/-!
# go-compare: logical equality of JSON documents

A shallow embedding of `compare/compare.go` (`IsEquivalent`, `IsEquivalentArray`,
`compareMaps`, `FormatJSON`, `FormatArrayJSON`, `IsEquivalentTest`) together with the two
functions of Go's `encoding/json` the package is built on (`json.Unmarshal` into
`map[string]interface{}` and `[]map[string]interface{}`, and
`json.MarshalIndent(v, "", "\t")`).

Conventions of the embedding.

* `[]byte` and `string` are `List Char` (`Bytes`): the documents are taken to be UTF-8 text,
  so a byte string is the list of its code points.
* `interface{}` values produced by decoding are the closed union `JVal`; a Go map is an
  association list whose list order is the order in which `range` visits it.  The order that
  the Go runtime picks for the maps of a decoded document is a parameter (`MapOrder`), one for
  each of the two documents of a comparison.
* `float64` is a parameter (`Float64Model`): the embedding only uses how a number literal is
  converted (`strconv.ParseFloat`) and how a number is printed by the encoder.
* a nil map and a nil slice are `none`.

Behaviour of `encoding/json` that the embedding reproduces: the JSON value `null` decoded into
a map or a slice sets it to nil without an error; of a repeated member name the last value is
kept; nesting deeper than 10000 is an error; invalid escapes, raw control characters and
trailing text are errors; unpaired surrogate escapes become U+FFFD; the encoder lists the
members of a map by ascending key, indents with tabs, and escapes `<`, `>`, `&`, U+2028 and
U+2029.
-/

namespace GoCompare

/-- Text of a document or of a rendering: Go `[]byte` and `string`. -/
abbrev Bytes := List Char

/-- The two operations on `float64` that decoding and encoding use. `parseFloat` is applied
to a literal that matches the JSON number grammar and fails when it is out of range. -/
class Float64Model (F : Type) where
  parseFloat : Bytes → Option F
  formatFloat : F → Bytes

/-- A value stored in an `interface{}` by `json.Unmarshal`. -/
inductive JVal (F : Type) where
  | null : JVal F
  | bool (b : Bool) : JVal F
  | num (x : F) : JVal F
  | str (s : Bytes) : JVal F
  | arr (xs : List (JVal F)) : JVal F
  | obj (kvs : List (Bytes × JVal F)) : JVal F

/-- Entries of a non-nil `map[string]interface{}`, in iteration order. -/
abbrev Fields (F : Type) := List (Bytes × JVal F)

/-- Go `map[string]interface{}`: `none` is the nil map. -/
abbrev Record (F : Type) := Option (Fields F)

/-- Go `[]map[string]interface{}`: `none` is the nil slice. -/
abbrev RecordSeq (F : Type) := Option (List (Record F))

/-- Failures of `json.Unmarshal`. `exhausted` is the step budget of the embedded parser running
out; it is not an error of the Go decoder, and `decodeJSON` never returns it
(`decodeJSON_not_exhausted`). -/
inductive DecodeError where
  | malformed
  | outOfRange
  | tooDeep
  | wrongType
  | exhausted
  deriving DecidableEq, Repr

/-- The error values that `IsEquivalent` and `IsEquivalentArray` build with `fmt.Errorf`. -/
inductive CompareError where
  | formattingExpected (cause : DecodeError)
  | formattingActual (cause : DecodeError)
  | formattingArrayExpected (cause : DecodeError)
  | formattingArrayActual (cause : DecodeError)
  deriving DecidableEq, Repr

/-- The four named results of `IsEquivalent` and of `IsEquivalentArray`. -/
structure Outcome where
  expectedVersion : Bytes
  actualVersion : Bytes
  same : Bool
  err : Option CompareError
  deriving DecidableEq, Repr

section Encoding

variable {F : Type} [Float64Model F]

/-- View of a `map[string]interface{}` as an `interface{}` value: a nil map encodes as null. -/
def Record.toJVal : Record F → JVal F
  | none => JVal.null
  | some kvs => JVal.obj kvs

/-- View of a `[]map[string]interface{}` as an `interface{}` value: a nil slice encodes as null. -/
def RecordSeq.toJVal : RecordSeq F → JVal F
  | none => JVal.null
  | some rs => JVal.arr (rs.map Record.toJVal)

/-- Lower-case hexadecimal digit. -/
def hexDigit (n : Nat) : Char :=
  if n < 10 then Char.ofNat (48 + n) else Char.ofNat (87 + n)

/-- Encoding of one character inside a JSON string, as `json.Marshal` does it (HTML escaping
on). -/
def escapeChar (c : Char) : Bytes :=
  if c = '"' then ['\\', '"']
  else if c = '\\' then ['\\', '\\']
  else if c = '\n' then ['\\', 'n']
  else if c = '\r' then ['\\', 'r']
  else if c = '\t' then ['\\', 't']
  else if c.toNat = 8 then ['\\', 'b']
  else if c.toNat = 12 then ['\\', 'f']
  else if c.toNat < 32 ∨ c = '<' ∨ c = '>' ∨ c = '&' then
    ['\\', 'u', '0', '0', hexDigit (c.toNat / 16), hexDigit (c.toNat % 16)]
  else if c.toNat = 8232 ∨ c.toNat = 8233 then
    ['\\', 'u', '2', '0', '2', hexDigit (c.toNat % 16)]
  else [c]

/-- Body of an encoded string, without the surrounding quotes. -/
def escapeString : Bytes → Bytes
  | [] => []
  | c :: cs => escapeChar c ++ escapeString cs

/-- An encoded JSON string. -/
def quote (s : Bytes) : Bytes := '"' :: (escapeString s ++ ['"'])

/-- Order of map keys in the encoder: byte-wise comparison of the UTF-8 strings, which is the
lexicographic order of the code points. -/
def keyLe : Bytes → Bytes → Bool
  | [], _ => true
  | _ :: _, [] => false
  | a :: as, b :: bs =>
    if a.toNat < b.toNat then true
    else if b.toNat < a.toNat then false
    else keyLe as bs

/-- Line break followed by `depth` tabs. -/
def newline (depth : Nat) : Bytes := '\n' :: List.replicate depth '\t'

/-- Items of a non-empty array or object, one per line. -/
def joinItems (depth : Nat) : List Bytes → Bytes
  | [] => []
  | [x] => x
  | x :: y :: rest => x ++ (',' :: newline depth) ++ joinItems depth (y :: rest)

/-- An array or object with the given delimiters and already rendered items. -/
def bracket (opening closing : Char) (depth : Nat) (items : List Bytes) : Bytes :=
  match items with
  | [] => [opening, closing]
  | _ :: _ => opening :: (newline (depth + 1) ++ joinItems (depth + 1) items
      ++ newline depth ++ [closing])

/-- One rendered member of an object. -/
def memberText (m : Bytes × Bytes) : Bytes := quote m.1 ++ (':' :: ' ' :: m.2)

/-- Order on the entries of a map and on their renderings: by key. -/
def byKey {α : Type} (a b : Bytes × α) : Prop := keyLe a.1 b.1 = true

instance {α : Type} : DecidableRel (@byKey α) := fun a b =>
  inferInstanceAs (Decidable (keyLe a.1 b.1 = true))

/-- Sorting of the rendered members of an object by key. -/
def sortMembers (ms : List (Bytes × Bytes)) : List (Bytes × Bytes) :=
  ms.insertionSort byKey

mutual
/-- Text of `json.MarshalIndent(v, "", "\t")` for a value nested `depth` levels deep. -/
def marshalVal (depth : Nat) : JVal F → Bytes
  | JVal.null => ['n', 'u', 'l', 'l']
  | JVal.bool true => ['t', 'r', 'u', 'e']
  | JVal.bool false => ['f', 'a', 'l', 's', 'e']
  | JVal.num x => Float64Model.formatFloat x
  | JVal.str s => quote s
  | JVal.arr xs => bracket '[' ']' depth (marshalElems (depth + 1) xs)
  | JVal.obj kvs =>
    bracket '{' '}' depth ((sortMembers (marshalMembers (depth + 1) kvs)).map memberText)
/-- Rendered elements of an array. -/
def marshalElems (depth : Nat) : List (JVal F) → List Bytes
  | [] => []
  | x :: xs => marshalVal depth x :: marshalElems depth xs
/-- Keys and rendered values of the entries of a map. -/
def marshalMembers (depth : Nat) : List (Bytes × JVal F) → List (Bytes × Bytes)
  | [] => []
  | (k, v) :: kvs => (k, marshalVal depth v) :: marshalMembers depth kvs
end

/-- The call `json.MarshalIndent(v, "", "\t")`. -/
def MarshalIndent (v : JVal F) : Bytes := marshalVal 0 v

end Encoding

section Decoding

variable {F : Type} [Float64Model F]

/-- White space between JSON tokens. -/
def isSpace (c : Char) : Bool := c = ' ' || c = '\t' || c = '\r' || c = '\n'

/-- Input after leading white space. -/
def skipSpace : Bytes → Bytes
  | [] => []
  | c :: cs => if isSpace c then skipSpace cs else c :: cs

/-- States of the scanner inside a number literal. -/
inductive NumState where
  | start
  | neg
  | zero
  | int
  | dot
  | frac
  | exp
  | expSign
  | expDigits
  deriving DecidableEq, Repr

/-- Decimal digit. -/
def isDigit (c : Char) : Bool := 48 ≤ c.toNat && c.toNat ≤ 57

/-- Transition of the number scanner; `none` when the character cannot continue the literal. -/
def numStep (st : NumState) (c : Char) : Option NumState :=
  match st with
  | NumState.start =>
    if c = '-' then some NumState.neg
    else if c = '0' then some NumState.zero
    else if isDigit c then some NumState.int
    else none
  | NumState.neg =>
    if c = '0' then some NumState.zero
    else if isDigit c then some NumState.int
    else none
  | NumState.zero =>
    if c = '.' then some NumState.dot
    else if c = 'e' || c = 'E' then some NumState.exp
    else none
  | NumState.int =>
    if isDigit c then some NumState.int
    else if c = '.' then some NumState.dot
    else if c = 'e' || c = 'E' then some NumState.exp
    else none
  | NumState.dot => if isDigit c then some NumState.frac else none
  | NumState.frac =>
    if isDigit c then some NumState.frac
    else if c = 'e' || c = 'E' then some NumState.exp
    else none
  | NumState.exp =>
    if c = '+' || c = '-' then some NumState.expSign
    else if isDigit c then some NumState.expDigits
    else none
  | NumState.expSign => if isDigit c then some NumState.expDigits else none
  | NumState.expDigits => if isDigit c then some NumState.expDigits else none

/-- States in which a number literal may end. -/
def numFinal : NumState → Bool
  | NumState.zero => true
  | NumState.int => true
  | NumState.frac => true
  | NumState.expDigits => true
  | _ => false

/-- Longest number literal at the head of the input, with the input that follows it. -/
def scanNumber (st : NumState) : Bytes → Option (Bytes × Bytes)
  | [] => if numFinal st then some ([], []) else none
  | c :: cs =>
    match numStep st c with
    | some st1 =>
      match scanNumber st1 cs with
      | some (lit, rest) => some (c :: lit, rest)
      | none => none
    | none => if numFinal st then some ([], c :: cs) else none

/-- Value of a hexadecimal digit. -/
def hexVal (c : Char) : Option Nat :=
  if 48 ≤ c.toNat ∧ c.toNat ≤ 57 then some (c.toNat - 48)
  else if 97 ≤ c.toNat ∧ c.toNat ≤ 102 then some (c.toNat - 87)
  else if 65 ≤ c.toNat ∧ c.toNat ≤ 70 then some (c.toNat - 55)
  else none

/-- Value of the four hexadecimal digits of a `\u` escape. -/
def hex4 (a b c d : Char) : Option Nat :=
  match hexVal a, hexVal b, hexVal c, hexVal d with
  | some x, some y, some z, some w => some (((x * 16 + y) * 16 + z) * 16 + w)
  | _, _, _, _ => none

/-- Character named by a single-letter escape. -/
def simpleEscape (c : Char) : Option Char :=
  if c = '"' then some '"'
  else if c = '\\' then some '\\'
  else if c = '/' then some '/'
  else if c = 'b' then some (Char.ofNat 8)
  else if c = 'f' then some (Char.ofNat 12)
  else if c = 'n' then some '\n'
  else if c = 'r' then some '\r'
  else if c = 't' then some '\t'
  else none

/-- The Unicode replacement character. -/
def replacementChar : Char := Char.ofNat 65533

/-- Code unit in the UTF-16 surrogate range. -/
def isSurrogate (n : Nat) : Bool := 55296 ≤ n && n < 57344

/-- Code point of a surrogate pair, when `hi` is a high and `lo` a low surrogate. -/
def decodePair (hi lo : Nat) : Option Char :=
  if 55296 ≤ hi ∧ hi < 56320 ∧ 56320 ≤ lo ∧ lo < 57344 then
    some (Char.ofNat ((hi - 55296) * 1024 + (lo - 56320) + 65536))
  else none

/-- Decoded text with one more character in front. -/
def consChar (c : Char) : Option (Bytes × Bytes) → Option (Bytes × Bytes)
  | some (s, out) => some (c :: s, out)
  | none => none

/-- Character denoted by a `\u` escape of value `r` followed by `rest`, and the input after what
the escape uses: a surrogate that is not the first half of a valid pair becomes the replacement
character. -/
def unescapeU (r : Nat) (rest : Bytes) : Char × Bytes :=
  if isSurrogate r then
    match rest with
    | bs :: u :: a :: b :: c :: d :: rest1 =>
      if bs = '\\' ∧ u = 'u' then
        match hex4 a b c d with
        | some r1 =>
          match decodePair r r1 with
          | some ch => (ch, rest1)
          | none => (replacementChar, rest)
        | none => (replacementChar, rest)
      else (replacementChar, rest)
    | _ => (replacementChar, rest)
  else (Char.ofNat r, rest)

/-- One step inside a string literal: `none` when the input is not a string, `(none, rest)` at
the closing quote, `(some ch, rest)` for a decoded character. Control characters and unknown
escapes are rejected. -/
def stringStep : Bytes → Option (Option Char × Bytes)
  | [] => none
  | c :: rest =>
    if c = '"' then some (none, rest)
    else if c = '\\' then
      match rest with
      | [] => none
      | e :: rest1 =>
        if e = 'u' then
          match rest1 with
          | a :: b :: c1 :: d :: rest2 =>
            match hex4 a b c1 d with
            | none => none
            | some r => some (some (unescapeU r rest2).1, (unescapeU r rest2).2)
          | _ => none
        else
          match simpleEscape e with
          | none => none
          | some ch => some (some ch, rest1)
    else if c.toNat < 32 then none
    else some (some c, rest)

/-- Decoding of a string literal after its opening quote, in at most the given number of steps:
the decoded text and the input after the closing quote. -/
def parseStringBody : Nat → Bytes → Option (Bytes × Bytes)
  | 0, _ => none
  | fuel + 1, s =>
    match stringStep s with
    | none => none
    | some (none, rest) => some ([], rest)
    | some (some ch, rest) => consChar ch (parseStringBody fuel rest)

/-- Decoding of a string literal after its opening quote. Every step uses at least one
character, so the length of the input bounds the number of steps. -/
def parseString (s : Bytes) : Option (Bytes × Bytes) := parseStringBody s.length s

/-- Input after the given keyword tail, if the input starts with it. -/
def expectText : Bytes → Bytes → Option Bytes
  | [], s => some s
  | _ :: _, [] => none
  | k :: ks, c :: cs => if k = c then expectText ks cs else none

/-- Assignment `m[k] = v` on the entries of a map. -/
def setKey (k : Bytes) (v : JVal F) : Fields F → Fields F
  | [] => [(k, v)]
  | (k1, v1) :: rest => if k1 = k then (k1, v) :: rest else (k1, v1) :: setKey k v rest

/-- Map built from the members of an object in source order: a repeated name keeps its last
value. -/
def buildMap (members : List (Bytes × JVal F)) : Fields F :=
  members.foldl (fun m kv => setKey kv.1 kv.2 m) []

/-- Greatest nesting of arrays and objects that the decoder accepts. -/
def maxNestingDepth : Nat := 10000

mutual
/-- A JSON value at the head of the input (no leading white space), with the input that follows
it. `depth` is the nesting still allowed; the first argument is the step budget. -/
def parseValue : Nat → Nat → Bytes → Except DecodeError (JVal F × Bytes)
  | 0, _, _ => Except.error DecodeError.exhausted
  | fuel + 1, depth, s =>
    match s with
    | [] => Except.error DecodeError.malformed
    | c :: rest =>
      if c = '{' then
        match depth with
        | 0 => Except.error DecodeError.tooDeep
        | d + 1 =>
          match skipSpace rest with
          | [] => Except.error DecodeError.malformed
          | c1 :: rest1 =>
            if c1 = '}' then Except.ok (JVal.obj [], rest1)
            else
              match parseMembers fuel d (c1 :: rest1) with
              | Except.ok (ms, out) => Except.ok (JVal.obj (buildMap ms), out)
              | Except.error e => Except.error e
      else if c = '[' then
        match depth with
        | 0 => Except.error DecodeError.tooDeep
        | d + 1 =>
          match skipSpace rest with
          | [] => Except.error DecodeError.malformed
          | c1 :: rest1 =>
            if c1 = ']' then Except.ok (JVal.arr [], rest1)
            else
              match parseElems fuel d (c1 :: rest1) with
              | Except.ok (xs, out) => Except.ok (JVal.arr xs, out)
              | Except.error e => Except.error e
      else if c = '"' then
        match parseString rest with
        | some (str, out) => Except.ok (JVal.str str, out)
        | none => Except.error DecodeError.malformed
      else if c = 't' then
        match expectText ['r', 'u', 'e'] rest with
        | some out => Except.ok (JVal.bool true, out)
        | none => Except.error DecodeError.malformed
      else if c = 'f' then
        match expectText ['a', 'l', 's', 'e'] rest with
        | some out => Except.ok (JVal.bool false, out)
        | none => Except.error DecodeError.malformed
      else if c = 'n' then
        match expectText ['u', 'l', 'l'] rest with
        | some out => Except.ok (JVal.null, out)
        | none => Except.error DecodeError.malformed
      else
        match scanNumber NumState.start (c :: rest) with
        | none => Except.error DecodeError.malformed
        | some (lit, out) =>
          match Float64Model.parseFloat lit with
          | some x => Except.ok (JVal.num x, out)
          | none => Except.error DecodeError.outOfRange
/-- Elements of an array from the first character of an element up to the closing bracket. -/
def parseElems : Nat → Nat → Bytes → Except DecodeError (List (JVal F) × Bytes)
  | 0, _, _ => Except.error DecodeError.exhausted
  | fuel + 1, depth, s =>
    match parseValue fuel depth s with
    | Except.error e => Except.error e
    | Except.ok (v, rest) =>
      match skipSpace rest with
      | [] => Except.error DecodeError.malformed
      | c :: rest1 =>
        if c = ',' then
          match parseElems fuel depth (skipSpace rest1) with
          | Except.ok (vs, out) => Except.ok (v :: vs, out)
          | Except.error e => Except.error e
        else if c = ']' then Except.ok ([v], rest1)
        else Except.error DecodeError.malformed
/-- Members of an object from the opening quote of a name up to the closing brace. -/
def parseMembers : Nat → Nat → Bytes → Except DecodeError (List (Bytes × JVal F) × Bytes)
  | 0, _, _ => Except.error DecodeError.exhausted
  | fuel + 1, depth, s =>
    match s with
    | [] => Except.error DecodeError.malformed
    | q :: afterQuote =>
      if q = '"' then
        match parseString afterQuote with
        | none => Except.error DecodeError.malformed
        | some (key, afterKey) =>
          match skipSpace afterKey with
          | [] => Except.error DecodeError.malformed
          | colon :: afterColon =>
            if colon = ':' then
              match parseValue fuel depth (skipSpace afterColon) with
              | Except.error e => Except.error e
              | Except.ok (v, rest) =>
                match skipSpace rest with
                | [] => Except.error DecodeError.malformed
                | c :: rest1 =>
                  if c = ',' then
                    match parseMembers fuel depth (skipSpace rest1) with
                    | Except.ok (ms, out) => Except.ok ((key, v) :: ms, out)
                    | Except.error e => Except.error e
                  else if c = '}' then Except.ok ([(key, v)], rest1)
                  else Except.error DecodeError.malformed
            else Except.error DecodeError.malformed
      else Except.error DecodeError.malformed
end

/-- A whole document as a generic value: one JSON value between optional white space. The step
budget exceeds what any input of this length can use. -/
def decodeJSON (src : Bytes) : Except DecodeError (JVal F) :=
  match parseValue (2 * src.length + 1) maxNestingDepth (skipSpace src) with
  | Except.error e => Except.error e
  | Except.ok (v, rest) =>
    match skipSpace rest with
    | [] => Except.ok v
    | _ :: _ => Except.error DecodeError.malformed

/-- Conversion to `map[string]interface{}`: an object, or null, which gives the nil map. -/
def asRecord : JVal F → Except DecodeError (Record F)
  | JVal.null => Except.ok none
  | JVal.obj kvs => Except.ok (some kvs)
  | _ => Except.error DecodeError.wrongType

/-- Conversion of the elements of an array to maps. -/
def asRecords : List (JVal F) → Except DecodeError (List (Record F))
  | [] => Except.ok []
  | x :: xs =>
    match asRecord x, asRecords xs with
    | Except.ok r, Except.ok rs => Except.ok (r :: rs)
    | Except.error e, _ => Except.error e
    | _, Except.error e => Except.error e

/-- Conversion to `[]map[string]interface{}`: an array of objects and nulls, or null, which
gives the nil slice. -/
def asRecordSeq : JVal F → Except DecodeError (RecordSeq F)
  | JVal.null => Except.ok none
  | JVal.arr xs =>
    match asRecords xs with
    | Except.ok rs => Except.ok (some rs)
    | Except.error e => Except.error e
  | _ => Except.error DecodeError.wrongType

/-- The members of a document that is one JSON object, in the order of the text and with
repeated names kept: what the decoder reads before it stores the members in the map. -/
def decodeMembers (src : Bytes) : Except DecodeError (List (Bytes × JVal F)) :=
  match skipSpace src with
  | [] => Except.error DecodeError.malformed
  | c :: rest =>
    if c = '{' then
      match skipSpace rest with
      | [] => Except.error DecodeError.malformed
      | c1 :: rest1 =>
        if c1 = '}' then
          match skipSpace rest1 with
          | [] => Except.ok []
          | _ :: _ => Except.error DecodeError.malformed
        else
          match parseMembers (2 * src.length) (maxNestingDepth - 1) (c1 :: rest1) with
          | Except.ok (ms, out) =>
            match skipSpace out with
            | [] => Except.ok ms
            | _ :: _ => Except.error DecodeError.malformed
          | Except.error e => Except.error e
    else Except.error DecodeError.wrongType

end Decoding

section Equivalence

variable {F : Type}

/-- Value stored under `k`, if the map has the key. -/
def lookupKey (k : Bytes) : Fields F → Option (JVal F)
  | [] => none
  | (k1, v) :: rest => if k1 = k then some v else lookupKey k rest

/-- Keys of a map. -/
def keysOf (kvs : Fields F) : List Bytes := kvs.map Prod.fst

/-- The Go index expression `m[k]` on a possibly nil map: a missing key gives nil. -/
def Record.index (m : Record F) (k : Bytes) : JVal F :=
  match m with
  | none => JVal.null
  | some kvs => (lookupKey k kvs).getD JVal.null

/-- Entries of a map, none for the nil map. -/
def Record.entries : Record F → Fields F
  | none => []
  | some kvs => kvs

/-- Structural equality of decoded values: equal scalars, arrays equal element by element, and
maps with the same key set and, recursively, structurally equal values at every key. -/
inductive JEquiv : JVal F → JVal F → Prop where
  | null : JEquiv JVal.null JVal.null
  | bool (b : Bool) : JEquiv (JVal.bool b) (JVal.bool b)
  | num (x : F) : JEquiv (JVal.num x) (JVal.num x)
  | str (s : Bytes) : JEquiv (JVal.str s) (JVal.str s)
  | arrNil : JEquiv (JVal.arr []) (JVal.arr [])
  | arrCons {x y : JVal F} {xs ys : List (JVal F)} :
      JEquiv x y → JEquiv (JVal.arr xs) (JVal.arr ys) →
      JEquiv (JVal.arr (x :: xs)) (JVal.arr (y :: ys))
  | obj {kvs kws : Fields F} :
      (∀ k, k ∈ keysOf kvs ↔ k ∈ keysOf kws) →
      (∀ k v w, lookupKey k kvs = some v → lookupKey k kws = some w → JEquiv v w) →
      JEquiv (JVal.obj kvs) (JVal.obj kws)

mutual
/-- The value is a proper map at every level: no key occurs twice in one map. -/
def JVal.WF : JVal F → Prop
  | JVal.arr xs => JVal.WFList xs
  | JVal.obj kvs => (keysOf kvs).Nodup ∧ JVal.WFFields kvs
  | _ => True
/-- All elements are proper. -/
def JVal.WFList : List (JVal F) → Prop
  | [] => True
  | x :: xs => JVal.WF x ∧ JVal.WFList xs
/-- All values of the entries are proper. -/
def JVal.WFFields : List (Bytes × JVal F) → Prop
  | [] => True
  | (_, v) :: kvs => JVal.WF v ∧ JVal.WFFields kvs
end

/-- A choice of iteration order for the maps of a decoded document, as made by the Go
runtime: the arranged document holds the same maps, only their entries are listed in another
order. Decoded documents have pairwise distinct keys in every map (`JVal.WF`). -/
structure MapOrder (F : Type) where
  arrange : JVal F → JVal F
  arrange_equiv : ∀ v, JVal.WF v → JEquiv (arrange v) v
  arrange_wf : ∀ v, JVal.WF v → JVal.WF (arrange v)

end Equivalence

section Canonical

variable {F : Type}

/-- What the development assumes of `float64`: the encoder prints a number as a JSON number
literal, and converting that literal gives the number back (the encoder prints the shortest
text that does). -/
class LawfulFloat64 (F : Type) [Float64Model F] : Prop where
  format_scan : ∀ x : F, scanNumber NumState.start (Float64Model.formatFloat x)
    = some (Float64Model.formatFloat x, [])
  parse_format : ∀ x : F, Float64Model.parseFloat (Float64Model.formatFloat x) = some x

mutual
/-- Nesting of arrays and objects in a value. -/
def depthOf : JVal F → Nat
  | JVal.arr xs => depthList xs + 1
  | JVal.obj kvs => depthFields kvs + 1
  | _ => 0
/-- Greatest nesting among the elements. -/
def depthList : List (JVal F) → Nat
  | [] => 0
  | x :: xs => max (depthOf x) (depthList xs)
/-- Greatest nesting among the values of the entries. -/
def depthFields : List (Bytes × JVal F) → Nat
  | [] => 0
  | (_, v) :: kvs => max (depthOf v) (depthFields kvs)
end

/-- Entries of a map in the order of their keys. -/
def sortFields (kvs : Fields F) : Fields F := kvs.insertionSort byKey

mutual
/-- The value with the entries of every map listed in the order of their keys. -/
def canon : JVal F → JVal F
  | JVal.arr xs => JVal.arr (canonList xs)
  | JVal.obj kvs => JVal.obj (sortFields (canonFields kvs))
  | v => v
/-- Elements in canonical arrangement. -/
def canonList : List (JVal F) → List (JVal F)
  | [] => []
  | x :: xs => canon x :: canonList xs
/-- Entries with their values in canonical arrangement. -/
def canonFields : List (Bytes × JVal F) → List (Bytes × JVal F)
  | [] => []
  | (k, v) :: kvs => (k, canon v) :: canonFields kvs
end

mutual
/-- The tab-indented text of a value in which the members of every object are listed in the
order in which the value holds them: `marshalVal` without the sorting. -/
def printVal [Float64Model F] (depth : Nat) : JVal F → Bytes
  | JVal.null => ['n', 'u', 'l', 'l']
  | JVal.bool true => ['t', 'r', 'u', 'e']
  | JVal.bool false => ['f', 'a', 'l', 's', 'e']
  | JVal.num x => Float64Model.formatFloat x
  | JVal.str s => quote s
  | JVal.arr xs => bracket '[' ']' depth (printElems (depth + 1) xs)
  | JVal.obj kvs => bracket '{' '}' depth ((printMembers (depth + 1) kvs).map memberText)
/-- Printed elements of an array. -/
def printElems [Float64Model F] (depth : Nat) : List (JVal F) → List Bytes
  | [] => []
  | x :: xs => printVal depth x :: printElems depth xs
/-- Keys and printed values of the entries of a map, in the order of the entries. -/
def printMembers [Float64Model F] (depth : Nat) :
    List (Bytes × JVal F) → List (Bytes × Bytes)
  | [] => []
  | (k, v) :: kvs => (k, printVal depth v) :: printMembers depth kvs
end

/-- Strictly ascending lexicographic order of two keys. -/
def keyLt (x y : Bytes) : Prop := keyLe x y = true ∧ x ≠ y

mutual
/-- At every nesting level the keys of an object are listed in ascending order. -/
def JVal.Ascending : JVal F → Prop
  | JVal.arr xs => JVal.AscendingList xs
  | JVal.obj kvs => (keysOf kvs).Pairwise keyLt ∧ JVal.AscendingFields kvs
  | _ => True
/-- Every element lists its keys in ascending order. -/
def JVal.AscendingList : List (JVal F) → Prop
  | [] => True
  | x :: xs => JVal.Ascending x ∧ JVal.AscendingList xs
/-- Every value of the entries lists its keys in ascending order. -/
def JVal.AscendingFields : List (Bytes × JVal F) → Prop
  | [] => True
  | (_, v) :: kvs => JVal.Ascending v ∧ JVal.AscendingFields kvs
end

/-- Characters that can occur in a number literal. -/
def isNumChar (c : Char) : Bool :=
  isDigit c || c = '.' || c = 'e' || c = 'E' || c = '+' || c = '-'

/-- The input does not continue a number literal. -/
def Follow : Bytes → Prop
  | [] => True
  | c :: _ => isNumChar c = false

/-- Decoding gives back the value, in canonical arrangement, from its rendering at any
indentation, with at most `b` levels of nesting allowed. -/
def Decodes [Float64Model F] (b : Nat) (v : JVal F) : Prop :=
  ∀ (d fuel : Nat) (rest : Bytes), (marshalVal d v).length + 1 ≤ fuel → Follow rest →
    parseValue fuel b (marshalVal d v ++ rest) = Except.ok (canon v, rest)

/-- Structural equality of two `map[string]interface{}` values, a nil map being equal to a
nil map only. -/
def RecEq (e a : Record F) : Prop := JEquiv e.toJVal a.toJVal

/-- Structural equality of two `[]map[string]interface{}` values: the same length and
structurally equal maps at every position, a nil slice being equal to a nil slice only. -/
def SeqEq (s t : RecordSeq F) : Prop := JEquiv s.toJVal t.toJVal

/-- Two maps with the same key set and, recursively, the same value at every key; a nil map
has no key. -/
def SameContent (e a : Record F) : Prop := JEquiv (JVal.obj e.entries) (JVal.obj a.entries)

/-- The entries of a map without those stored under `k`: the effect of `delete(m, k)`. -/
def eraseKey (k : Bytes) (kvs : Fields F) : Fields F := kvs.filter (fun kv => decide (kv.1 ≠ k))

end Canonical

section Compare

variable {F : Type} [Float64Model F]

/-- The function `FormatJSON` of compare.go. -/
def FormatJSON (ord : MapOrder F) (src : Bytes) : Except DecodeError (Record F × Bytes) :=
  match decodeJSON src with
  | Except.error e => Except.error e
  | Except.ok v =>
    match asRecord (ord.arrange v) with
    | Except.error e => Except.error e
    | Except.ok asMap => Except.ok (asMap, MarshalIndent asMap.toJVal)

/-- The function `FormatArrayJSON` of compare.go. -/
def FormatArrayJSON (ord : MapOrder F) (src : Bytes) :
    Except DecodeError (RecordSeq F × Bytes) :=
  if src.length = 0 then Except.ok (some [], src)
  else
    match decodeJSON src with
    | Except.error e => Except.error e
    | Except.ok v =>
      match asRecordSeq (ord.arrange v) with
      | Except.error e => Except.error e
      | Except.ok asMap => Except.ok (asMap, MarshalIndent asMap.toJVal)

mutual
/-- One pass of the loop body of `compareMaps` for the entry `expectedValue` of `expectedMap`,
where `actualValue` is `actualMap[key]`: `some` is an early return. -/
def compareEntry (expectedMap : Fields F) (actualMap : Record F) (actualValue : JVal F) :
    JVal F → Option (Bytes × Bytes)
  | JVal.obj expectedConverted =>
    match actualValue with
    | JVal.obj actualConverted =>
      let sub := compareLoop expectedConverted (some actualConverted) expectedConverted
      if sub.1.length + sub.2.length > 0 then some sub
      else if MarshalIndent (JVal.obj expectedConverted) ≠ MarshalIndent actualValue then
        some (MarshalIndent (JVal.obj expectedMap), MarshalIndent actualMap.toJVal)
      else none
    | _ => some (MarshalIndent (JVal.obj expectedMap), MarshalIndent actualMap.toJVal)
  | expectedValue =>
    if MarshalIndent expectedValue ≠ MarshalIndent actualValue then
      some (MarshalIndent (JVal.obj expectedMap), MarshalIndent actualMap.toJVal)
    else none
/-- The loop of `compareMaps` over the entries still to visit. -/
def compareLoop (expectedMap : Fields F) (actualMap : Record F) :
    List (Bytes × JVal F) → Bytes × Bytes
  | [] => ([], [])
  | (key, expectedValue) :: rest =>
    match compareEntry expectedMap actualMap (actualMap.index key) expectedValue with
    | some out => out
    | none => compareLoop expectedMap actualMap rest
end

/-- The function `compareMaps` of compare.go. -/
def compareMaps (expectedMap actualMap : Record F) : Bytes × Bytes :=
  match expectedMap with
  | none => ([], [])
  | some kvs => compareLoop kvs actualMap kvs

/-- The element loop of `IsEquivalentArray`: every pass overwrites both results. -/
def compareElements : List (Record F) → List (Record F) → Bytes × Bytes → Bytes × Bytes
  | e :: es, a :: as, _ => compareElements es as (compareMaps e a)
  | _, _, acc => acc

/-- Length of a slice. -/
def RecordSeq.len : RecordSeq F → Nat
  | none => 0
  | some rs => rs.length

/-- Elements of a slice. -/
def RecordSeq.elems : RecordSeq F → List (Record F)
  | none => []
  | some rs => rs

/-- The function `IsEquivalent` of compare.go. -/
def IsEquivalent (ordE ordA : MapOrder F) (expected actual : Bytes) : Outcome :=
  match FormatJSON ordE expected with
  | Except.error e => ⟨[], [], false, some (CompareError.formattingExpected e)⟩
  | Except.ok (expectedMap, expectedFormatted) =>
    match FormatJSON ordA actual with
    | Except.error e => ⟨[], [], false, some (CompareError.formattingActual e)⟩
    | Except.ok (actualMap, actualFormatted) =>
      if expectedFormatted = actualFormatted then ⟨[], [], true, none⟩
      else
        let diff := compareMaps expectedMap actualMap
        if diff.1.length + diff.2.length > 0 then ⟨diff.1, diff.2, false, none⟩
        else ⟨expectedFormatted, actualFormatted, false, none⟩

/-- The function `IsEquivalentArray` of compare.go. -/
def IsEquivalentArray (ordE ordA : MapOrder F) (expected actual : Bytes) : Outcome :=
  match FormatArrayJSON ordE expected with
  | Except.error e => ⟨[], [], false, some (CompareError.formattingArrayExpected e)⟩
  | Except.ok (expectedMap, expectedFormatted) =>
    match FormatArrayJSON ordA actual with
    | Except.error e => ⟨[], [], false, some (CompareError.formattingArrayActual e)⟩
    | Except.ok (actualMap, actualFormatted) =>
      if expectedFormatted = actualFormatted then ⟨[], [], true, none⟩
      else if expectedMap.len ≠ actualMap.len then ⟨[], [], false, none⟩
      else
        let diff := compareElements expectedMap.elems actualMap.elems ([], [])
        if diff.1.length + diff.2.length > 0 then ⟨diff.1, diff.2, false, none⟩
        else ⟨expectedFormatted, actualFormatted, false, none⟩

/-- What a run of `IsEquivalentTest` leaves behind: the value returned, and whether the
`assert.Equal` of the failure branch passed (`none` when it was not reached). -/
structure TestRun where
  returned : Bool
  equalAssertion : Option Bool

/-- The function `IsEquivalentTest` of compare.go. The assertions of the testify library are
taken by what they return: `assert.NoError` whether the error is nil, `assert.True` its
argument, `assert.Equal` on two strings whether they are equal; what they print and record on
`t` is left out. -/
def IsEquivalentTest (ordE ordA : MapOrder F) (expected actual : Bytes) : TestRun :=
  let r := IsEquivalent ordE ordA expected actual
  if r.err.isSome then ⟨false, none⟩
  else if r.same = false then ⟨false, some (decide (r.expectedVersion = r.actualVersion))⟩
  else ⟨true, none⟩

/-- A failed decoding, whatever its cause. -/
def failed {α : Type} (r : Except DecodeError α) : Prop := ∃ e, r = Except.error e

end Compare

section Concrete

/-- A number kept as the literal that denotes it, the way `json.Number` keeps it. This model of
numbers is used to run the embedding on concrete documents whose numbers are written as the
encoder prints them. -/
def NumberText : Type := { s : Bytes // scanNumber NumState.start s = some (s, []) }

instance : Float64Model NumberText where
  parseFloat s :=
    if h : scanNumber NumState.start s = some (s, []) then some ⟨s, h⟩ else none
  formatFloat x := x.val

end Concrete

section Documents

/-- The document `{"A": "1", "B": "2"}`. -/
def docAB : Bytes := "\x7b\"A\": \"1\", \"B\": \"2\"\x7d".toList

/-- The document `{"B": "2", "A": "1"}`. -/
def docBA : Bytes := "\x7b\"B\": \"2\", \"A\": \"1\"\x7d".toList

/-- The decoded document `{"A": "1", "B": "2"}`. -/
def recAB : Record NumberText := some [(['A'], JVal.str ['1']), (['B'], JVal.str ['2'])]

/-- The decoded document `{"B": "2", "A": "1"}`. -/
def recBA : Record NumberText := some [(['B'], JVal.str ['2']), (['A'], JVal.str ['1'])]

/-- The canonical form of `{"A": "1", "B": "2"}`. -/
def canonAB : Bytes := "\x7b\n\t\"A\": \"1\",\n\t\"B\": \"2\"\n\x7d".toList

/-- The document `null`. -/
def docNull : Bytes := ['n', 'u', 'l', 'l']

/-- The document of the empty object. -/
def docEmptyObject : Bytes := ['{', '}']

/-- The document of the empty array. -/
def docEmptyArray : Bytes := ['[', ']']

/-- The input `something invalid` of the tests. -/
def docInvalid : Bytes := "something invalid".toList

/-- The document `[{}]`. -/
def docOneEmpty : Bytes := ['[', '{', '}', ']']

/-- The document `[{}, {}]`. -/
def docTwoEmpty : Bytes := ['[', '{', '}', ',', ' ', '{', '}', ']']

/-- The document `{"A": "1", "B": "2", "C": "3"}` of the tests. -/
def docABC : Bytes := "\x7b\"A\": \"1\", \"B\": \"2\", \"C\": \"3\"\x7d".toList

/-- The entries of the decoded document `{"A": "1", "B": "2", "C": "3"}`. -/
def fieldsABC : Fields NumberText :=
  [(['A'], JVal.str ['1']), (['B'], JVal.str ['2']), (['C'], JVal.str ['3'])]

/-- The number 111, as the literal that denotes it. -/
def num111 : NumberText := ⟨['1', '1', '1'], rfl⟩

/-- The number 222, as the literal that denotes it. -/
def num222 : NumberText := ⟨['2', '2', '2'], rfl⟩

/-- The expected document of the test "sub item missing field":
`{"A": "1", "B": "2", "C": {"FU": 111, "BAR": 222}}`. -/
def docNestedExpected : Bytes :=
  "\x7b\"A\": \"1\", \"B\": \"2\", \"C\": \x7b\"FU\": 111, \"BAR\": 222\x7d\x7d".toList

/-- The actual document of the test "sub item missing field":
`{"A": "1", "B": "2", "C": {"FU": 111}}`. -/
def docNestedActual : Bytes :=
  "\x7b\"A\": \"1\", \"B\": \"2\", \"C\": \x7b\"FU\": 111\x7d\x7d".toList

/-- The sub-object `{"FU": 111, "BAR": 222}`. -/
def fieldsFuBar : Fields NumberText :=
  [(['F', 'U'], JVal.num num111), (['B', 'A', 'R'], JVal.num num222)]

/-- The sub-object `{"FU": 111}`. -/
def fieldsFu : Fields NumberText := [(['F', 'U'], JVal.num num111)]

/-- The decoded expected document of the test "sub item missing field". -/
def fieldsNestedExpected : Fields NumberText :=
  [(['A'], JVal.str ['1']), (['B'], JVal.str ['2']), (['C'], JVal.obj fieldsFuBar)]

/-- The decoded actual document of the test "sub item missing field". -/
def fieldsNestedActual : Fields NumberText :=
  [(['A'], JVal.str ['1']), (['B'], JVal.str ['2']), (['C'], JVal.obj fieldsFu)]

/-- The document `{"C": {"X": null, "Y": "1"}}`. -/
def docNullFieldExpected : Bytes :=
  "\x7b\"C\": \x7b\"X\": null, \"Y\": \"1\"\x7d\x7d".toList

/-- The document `{"C": {"Y": "1"}}`. -/
def docNullFieldActual : Bytes := "\x7b\"C\": \x7b\"Y\": \"1\"\x7d\x7d".toList

/-- The sub-object `{"X": null, "Y": "1"}`. -/
def fieldsXY : Fields NumberText := [(['X'], JVal.null), (['Y'], JVal.str ['1'])]

/-- The sub-object `{"Y": "1"}`. -/
def fieldsY : Fields NumberText := [(['Y'], JVal.str ['1'])]

/-- The number 1, as the literal that denotes it. -/
def num1 : NumberText := ⟨['1'], rfl⟩

/-- The number 2, as the literal that denotes it. -/
def num2 : NumberText := ⟨['2'], rfl⟩

/-- The expected document of the test "array order matters":
`[{"a":1,"b":"test"}, {"c":2, "d":"bla"}]`. -/
def docArrayExpected : Bytes :=
  "[\x7b\"a\":1,\"b\":\"test\"\x7d, \x7b\"c\":2, \"d\":\"bla\"\x7d]".toList

/-- The actual document of the test "array order matters":
`[{"c":2, "d":"bla"}, {"b":"test","a":1}]`. -/
def docArrayActual : Bytes :=
  "[\x7b\"c\":2, \"d\":\"bla\"\x7d, \x7b\"b\":\"test\",\"a\":1\x7d]".toList

/-- The decoded object `{"a":1,"b":"test"}`. -/
def recA1 : Record NumberText :=
  some [(['a'], JVal.num num1), (['b'], JVal.str ['t', 'e', 's', 't'])]

/-- The decoded object `{"b":"test","a":1}`. -/
def recA1Swapped : Record NumberText :=
  some [(['b'], JVal.str ['t', 'e', 's', 't']), (['a'], JVal.num num1)]

/-- The decoded object `{"c":2, "d":"bla"}`. -/
def recC2 : Record NumberText :=
  some [(['c'], JVal.num num2), (['d'], JVal.str ['b', 'l', 'a'])]

/-- The document `{"a": "1", "a": "2"}`, in which a member name is repeated. -/
def docRepeated : Bytes := "\x7b\"a\": \"1\", \"a\": \"2\"\x7d".toList

/-- The document `{"a": "2", "a": "1"}`: the members of `docRepeated` in the other order. -/
def docRepeatedSwapped : Bytes := "\x7b\"a\": \"2\", \"a\": \"1\"\x7d".toList

/-- The expected document of the test "single match comparison": `[{"a":1,"b":"test"}]`. -/
def docArraySingle : Bytes := "[\x7b\"a\":1,\"b\":\"test\"\x7d]".toList

/-- The document `[{"a":1}, {"c":2}]`. -/
def docFirstDiffersExpected : Bytes := "[\x7b\"a\":1\x7d, \x7b\"c\":2\x7d]".toList

/-- The document `[{"a":2}, {"c":2}]`: the first element differs from that of
`docFirstDiffersExpected`, the last one does not. -/
def docFirstDiffersActual : Bytes := "[\x7b\"a\":2\x7d, \x7b\"c\":2\x7d]".toList

/-- The decoded sequence `[{"a":1}, {"c":2}]`. -/
def seqFirstDiffersExpected : RecordSeq NumberText :=
  some [some [(['a'], JVal.num num1)], some [(['c'], JVal.num num2)]]

/-- The decoded sequence `[{"a":2}, {"c":2}]`. -/
def seqFirstDiffersActual : RecordSeq NumberText :=
  some [some [(['a'], JVal.num num2)], some [(['c'], JVal.num num2)]]

/-- The number 99, as the literal that denotes it. -/
def num99 : NumberText := ⟨['9', '9'], rfl⟩

/-- The document `{"A":1}`. -/
def docOnlyA : Bytes := "\x7b\"A\":1\x7d".toList

/-- The document `{"A":1,"Z":99}`. -/
def docExtraZ : Bytes := "\x7b\"A\":1,\"Z\":99\x7d".toList

/-- The decoded object `{"A":1}`. -/
def fieldsOnlyA : Fields NumberText := [(['A'], JVal.num num1)]

/-- The decoded object `{"A":1,"Z":99}`. -/
def fieldsExtraZ : Fields NumberText := [(['A'], JVal.num num1), (['Z'], JVal.num num99)]

/-- The object `{"C": {"Y": "1"}}`. -/
def fieldsOuterY : Fields NumberText := [(['C'], JVal.obj fieldsY)]

/-- The sub-object `{"Y": "1", "Z": "2"}`. -/
def fieldsYZ : Fields NumberText := [(['Y'], JVal.str ['1']), (['Z'], JVal.str ['2'])]

/-- The object `{"C": {"Y": "1", "Z": "2"}}`: `fieldsOuterY` with the extra key `Z` inside the
nested object. -/
def fieldsOuterYZ : Fields NumberText := [(['C'], JVal.obj fieldsYZ)]

/-- The document `{"B": 2, "A": {"x": 1}}`. -/
def docTwoDiffsExpected : Bytes :=
  "\x7b\"B\": 2, \"A\": \x7b\"x\": 1\x7d\x7d".toList

/-- The document `{"B": 1, "A": {"x": 2}}`, which differs from `docTwoDiffsExpected` at both
keys. -/
def docTwoDiffsActual : Bytes :=
  "\x7b\"B\": 1, \"A\": \x7b\"x\": 2\x7d\x7d".toList

/-- The document `[null]`. -/
def docNullElement : Bytes := ['[', 'n', 'u', 'l', 'l', ']']

/-- The document `[1]`. -/
def docNumberElement : Bytes := ['[', '1', ']']

/-- The input of the test `TestFormatJSON`. -/
def docFormatInput : Bytes :=
  ("\x7b\n\t\"B\": \"2\",\n\t\"C\": \x7b\n\t\t\"FU\": 111\n\t\x7d,"
    ++ "\n\t\"A\": \"1\"\n\x7d").toList

/-- The output that `TestFormatJSON` expects. -/
def docFormatOutput : Bytes :=
  ("\x7b\n\t\"A\": \"1\",\n\t\"B\": \"2\","
    ++ "\n\t\"C\": \x7b\n\t\t\"FU\": 111\n\t\x7d\n\x7d").toList

/-- The map decoded by `TestFormatJSON`, in the order of the input. -/
def fieldsFormatInput : Fields NumberText :=
  [(['B'], JVal.str ['2']), (['C'], JVal.obj fieldsFu), (['A'], JVal.str ['1'])]

/-- The map decoded by `TestFormatJSON`, with its keys in ascending order. -/
def fieldsFormatSorted : Fields NumberText :=
  [(['A'], JVal.str ['1']), (['B'], JVal.str ['2']), (['C'], JVal.obj fieldsFu)]

end Documents

section Basics

variable {F : Type}

theorem JEquiv.refl_arr (xs : List (JVal F)) (h : ∀ x ∈ xs, JEquiv x x) :
    JEquiv (JVal.arr xs) (JVal.arr xs) := by
  induction xs with
  | nil => exact JEquiv.arrNil
  | cons x xs ih =>
    exact JEquiv.arrCons (h x (List.mem_cons_self _ _))
      (ih (fun y hy => h y (List.mem_cons_of_mem _ hy)))

theorem lookupKey_mem {k : Bytes} {kvs : Fields F} {v : JVal F}
    (h : lookupKey k kvs = some v) : (k, v) ∈ kvs := by
  induction kvs with
  | nil => simp [lookupKey] at h
  | cons kv rest ih =>
    obtain ⟨k1, v1⟩ := kv
    by_cases hk : k1 = k
    · simp [lookupKey, hk] at h
      simp [hk, h]
    · simp [lookupKey, hk] at h
      exact List.mem_cons_of_mem _ (ih h)

mutual
theorem JEquiv.refl : ∀ v : JVal F, JEquiv v v
  | JVal.null => JEquiv.null
  | JVal.bool b => JEquiv.bool b
  | JVal.num x => JEquiv.num x
  | JVal.str s => JEquiv.str s
  | JVal.arr xs => JEquiv.refl_arr xs (JEquiv.refl_list xs)
  | JVal.obj kvs =>
    JEquiv.obj (fun _ => Iff.rfl) (fun k v w hv hw => by
      have hvw : v = w := by rw [hv] at hw; exact Option.some.inj hw
      subst hvw
      exact JEquiv.refl_fields kvs k v (lookupKey_mem hv))
theorem JEquiv.refl_list : ∀ (xs : List (JVal F)), ∀ x ∈ xs, JEquiv x x
  | [], _, h => absurd h (List.not_mem_nil _)
  | y :: ys, x, h => by
    rcases List.mem_cons.1 h with h1 | h1
    · subst h1; exact JEquiv.refl x
    · exact JEquiv.refl_list ys x h1
theorem JEquiv.refl_fields : ∀ (kvs : List (Bytes × JVal F)), ∀ k v, (k, v) ∈ kvs → JEquiv v v
  | [], _, _, h => absurd h (List.not_mem_nil _)
  | (k1, v1) :: rest, k, v, h => by
    rcases List.mem_cons.1 h with h1 | h1
    · have : v = v1 := by injection h1
      subst this; exact JEquiv.refl v
    · exact JEquiv.refl_fields rest k v h1
end

/-- The order in which the decoder inserted the entries. -/
def MapOrder.insertion : MapOrder F where
  arrange := fun v => v
  arrange_equiv := fun v _ => JEquiv.refl v
  arrange_wf := fun _ h => h

end Basics

section Plumbing

variable {F : Type} [Float64Model F]


theorem bracket_ne_nil (o c : Char) (d : Nat) (items : List Bytes) : bracket o c d items ≠ [] := by
  cases items <;> simp [bracket]

theorem marshal_record_ne_nil (r : Record F) : MarshalIndent r.toJVal ≠ [] := by
  cases r with
  | none => simp [Record.toJVal, MarshalIndent, marshalVal]
  | some kvs => simp [Record.toJVal, MarshalIndent, marshalVal, bracket_ne_nil]

theorem marshal_seq_ne_nil (r : RecordSeq F) : MarshalIndent r.toJVal ≠ [] := by
  cases r with
  | none => simp [RecordSeq.toJVal, MarshalIndent, marshalVal]
  | some kvs => simp [RecordSeq.toJVal, MarshalIndent, marshalVal, bracket_ne_nil]

theorem FormatJSON_formatted {ord : MapOrder F} {src : Bytes} {m : Record F} {out : Bytes}
    (h : FormatJSON ord src = Except.ok (m, out)) : out = MarshalIndent m.toJVal := by
  unfold FormatJSON at h
  split at h
  · exact absurd h (by simp)
  · split at h
    · exact absurd h (by simp)
    · injection h with h; injection h with h1 h2; rw [← h1, ← h2]

theorem FormatArrayJSON_formatted {ord : MapOrder F} {src : Bytes} {m : RecordSeq F} {out : Bytes}
    (h : FormatArrayJSON ord src = Except.ok (m, out)) :
    (src = [] ∧ m = some [] ∧ out = []) ∨ (src ≠ [] ∧ out = MarshalIndent m.toJVal) := by
  unfold FormatArrayJSON at h
  split at h
  · rename_i h0
    have : src = [] := List.length_eq_zero.1 h0
    injection h with h; injection h with h1 h2
    left; exact ⟨this, h1.symm, by rw [← h2, this]⟩
  · rename_i h0
    have hs : src ≠ [] := fun hh => h0 (by simp [hh])
    split at h
    · exact absurd h (by simp)
    · split at h
      · exact absurd h (by simp)
      · injection h with h; injection h with h1 h2; right; exact ⟨hs, by rw [← h1, ← h2]⟩

theorem pair_empty_iff (p : Bytes × Bytes) :
    ¬ (p.1.length + p.2.length > 0) ↔ (p.1 = [] ∧ p.2 = []) := by
  constructor
  · intro h
    have h1 : p.1.length = 0 := by omega
    have h2 : p.2.length = 0 := by omega
    exact ⟨List.length_eq_zero.1 h1, List.length_eq_zero.1 h2⟩
  · rintro ⟨h1, h2⟩; simp [h1, h2]

/-- Unfolding of `IsEquivalent` once both documents are decoded. -/
theorem IsEquivalent_ok {ordE ordA : MapOrder F} {expected actual : Bytes} {em am : Record F}
    {ef af : Bytes} (he : FormatJSON ordE expected = Except.ok (em, ef))
    (ha : FormatJSON ordA actual = Except.ok (am, af)) :
    IsEquivalent ordE ordA expected actual =
      if ef = af then ⟨[], [], true, none⟩
      else if (compareMaps em am).1.length + (compareMaps em am).2.length > 0 then
        ⟨(compareMaps em am).1, (compareMaps em am).2, false, none⟩
      else ⟨ef, af, false, none⟩ := by
  simp [IsEquivalent, he, ha]

theorem IsEquivalentArray_ok {ordE ordA : MapOrder F} {expected actual : Bytes} {em am : RecordSeq F}
    {ef af : Bytes} (he : FormatArrayJSON ordE expected = Except.ok (em, ef))
    (ha : FormatArrayJSON ordA actual = Except.ok (am, af)) :
    IsEquivalentArray ordE ordA expected actual =
      if ef = af then ⟨[], [], true, none⟩
      else if em.len ≠ am.len then ⟨[], [], false, none⟩
      else if (compareElements em.elems am.elems ([], [])).1.length
          + (compareElements em.elems am.elems ([], [])).2.length > 0 then
        ⟨(compareElements em.elems am.elems ([], [])).1,
          (compareElements em.elems am.elems ([], [])).2, false, none⟩
      else ⟨ef, af, false, none⟩ := by
  simp [IsEquivalentArray, he, ha]

theorem IsEquivalent_err_expected {ordE ordA : MapOrder F} {expected : Bytes} (actual : Bytes)
    {e : DecodeError} (he : FormatJSON ordE expected = Except.error e) :
    IsEquivalent ordE ordA expected actual = ⟨[], [], false, some (CompareError.formattingExpected e)⟩ := by
  simp [IsEquivalent, he]

theorem IsEquivalent_err_actual {ordE ordA : MapOrder F} {expected actual : Bytes}
    {em : Record F} {ef : Bytes} {e : DecodeError}
    (he : FormatJSON ordE expected = Except.ok (em, ef))
    (ha : FormatJSON ordA actual = Except.error e) :
    IsEquivalent ordE ordA expected actual = ⟨[], [], false, some (CompareError.formattingActual e)⟩ := by
  simp [IsEquivalent, he, ha]

theorem IsEquivalentArray_err_expected {ordE ordA : MapOrder F} {expected : Bytes} (actual : Bytes)
    {e : DecodeError} (he : FormatArrayJSON ordE expected = Except.error e) :
    IsEquivalentArray ordE ordA expected actual
      = ⟨[], [], false, some (CompareError.formattingArrayExpected e)⟩ := by
  simp [IsEquivalentArray, he]

theorem IsEquivalentArray_err_actual {ordE ordA : MapOrder F} {expected actual : Bytes}
    {em : RecordSeq F} {ef : Bytes} {e : DecodeError}
    (he : FormatArrayJSON ordE expected = Except.ok (em, ef))
    (ha : FormatArrayJSON ordA actual = Except.error e) :
    IsEquivalentArray ordE ordA expected actual
      = ⟨[], [], false, some (CompareError.formattingArrayActual e)⟩ := by
  simp [IsEquivalentArray, he, ha]

theorem failed_or_ok {α : Type} (r : Except DecodeError α) : failed r ∨ ∃ a, r = Except.ok a := by
  cases r with
  | error e => exact Or.inl ⟨e, rfl⟩
  | ok a => exact Or.inr ⟨a, rfl⟩

theorem IsEquivalent_failed (ordE ordA : MapOrder F) (expected actual : Bytes)
    (h : failed (FormatJSON ordE expected) ∨ failed (FormatJSON ordA actual)) :
    ∃ err, IsEquivalent ordE ordA expected actual = ⟨[], [], false, some err⟩ := by
  rcases failed_or_ok (FormatJSON ordE expected) with ⟨e, he⟩ | ⟨⟨em, ef⟩, he⟩
  · exact ⟨_, IsEquivalent_err_expected actual he⟩
  · rcases h with ⟨e, h⟩ | ⟨e, ha⟩
    · rw [he] at h; exact absurd h (by simp)
    · exact ⟨_, IsEquivalent_err_actual he ha⟩

theorem IsEquivalentArray_failed (ordE ordA : MapOrder F) (expected actual : Bytes)
    (h : failed (FormatArrayJSON ordE expected) ∨ failed (FormatArrayJSON ordA actual)) :
    ∃ err, IsEquivalentArray ordE ordA expected actual = ⟨[], [], false, some err⟩ := by
  rcases failed_or_ok (FormatArrayJSON ordE expected) with ⟨e, he⟩ | ⟨⟨em, ef⟩, he⟩
  · exact ⟨_, IsEquivalentArray_err_expected actual he⟩
  · rcases h with ⟨e, h⟩ | ⟨e, ha⟩
    · rw [he] at h; exact absurd h (by simp)
    · exact ⟨_, IsEquivalentArray_err_actual he ha⟩

theorem IsEquivalent_err_shape (ordE ordA : MapOrder F) (expected actual : Bytes)
    (h : (IsEquivalent ordE ordA expected actual).err ≠ none) :
    (IsEquivalent ordE ordA expected actual).expectedVersion = [] ∧
    (IsEquivalent ordE ordA expected actual).actualVersion = [] ∧
    (IsEquivalent ordE ordA expected actual).same = false := by
  rcases failed_or_ok (FormatJSON ordE expected) with ⟨e, he⟩ | ⟨⟨em, ef⟩, he⟩
  · simp [IsEquivalent_err_expected actual he]
  · rcases failed_or_ok (FormatJSON ordA actual) with ⟨e, ha⟩ | ⟨⟨am, af⟩, ha⟩
    · simp [IsEquivalent_err_actual he ha]
    · rw [IsEquivalent_ok he ha] at h ⊢
      split_ifs at h ⊢ <;> simp at h

theorem IsEquivalentArray_err_shape (ordE ordA : MapOrder F) (expected actual : Bytes)
    (h : (IsEquivalentArray ordE ordA expected actual).err ≠ none) :
    (IsEquivalentArray ordE ordA expected actual).expectedVersion = [] ∧
    (IsEquivalentArray ordE ordA expected actual).actualVersion = [] ∧
    (IsEquivalentArray ordE ordA expected actual).same = false := by
  rcases failed_or_ok (FormatArrayJSON ordE expected) with ⟨e, he⟩ | ⟨⟨em, ef⟩, he⟩
  · simp [IsEquivalentArray_err_expected actual he]
  · rcases failed_or_ok (FormatArrayJSON ordA actual) with ⟨e, ha⟩ | ⟨⟨am, af⟩, ha⟩
    · simp [IsEquivalentArray_err_actual he ha]
    · rw [IsEquivalentArray_ok he ha] at h ⊢
      split_ifs at h ⊢ <;> simp at h

end Plumbing

section KeyOrder

variable {F : Type} [Float64Model F]

theorem char_toNat_inj {a b : Char} (h : a.toNat = b.toNat) : a = b := by
  rw [← Char.ofNat_toNat a, ← Char.ofNat_toNat b, h]

theorem keyLe_refl : ∀ a : Bytes, keyLe a a = true
  | [] => rfl
  | c :: cs => by simp [keyLe, keyLe_refl cs]

theorem keyLe_total : ∀ a b : Bytes, keyLe a b = true ∨ keyLe b a = true
  | [], _ => Or.inl rfl
  | _ :: _, [] => Or.inr rfl
  | a :: as, b :: bs => by
    rcases Nat.lt_trichotomy a.toNat b.toNat with h | h | h
    · left; simp [keyLe, h]
    · have := keyLe_total as bs
      simp [keyLe, h]; exact this
    · right; simp [keyLe, h]

theorem keyLe_antisymm : ∀ a b : Bytes, keyLe a b = true → keyLe b a = true → a = b
  | [], [], _, _ => rfl
  | [], _ :: _, _, h => by simp [keyLe] at h
  | _ :: _, [], h, _ => by simp [keyLe] at h
  | a :: as, b :: bs, h1, h2 => by
    rcases Nat.lt_trichotomy a.toNat b.toNat with h | h | h
    · have h' : ¬ b.toNat < a.toNat := by omega
      simp [keyLe, h, h'] at h2
    · have hab : a = b := char_toNat_inj h
      subst hab
      simp [keyLe] at h1 h2
      rw [keyLe_antisymm as bs h1 h2]
    · have h' : ¬ a.toNat < b.toNat := by omega
      simp [keyLe, h, h'] at h1

theorem keyLe_trans : ∀ a b c : Bytes, keyLe a b = true → keyLe b c = true → keyLe a c = true
  | [], _, _, _, _ => rfl
  | _ :: _, [], _, h, _ => by simp [keyLe] at h
  | _ :: _, _ :: _, [], _, h => by simp [keyLe] at h
  | a :: as, b :: bs, c :: cs, h1, h2 => by
    rcases Nat.lt_trichotomy a.toNat b.toNat with h | h | h
    · rcases Nat.lt_trichotomy b.toNat c.toNat with g | g | g
      · have : a.toNat < c.toNat := by omega
        simp [keyLe, this]
      · have : a.toNat < c.toNat := by omega
        simp [keyLe, this]
      · have g' : ¬ b.toNat < c.toNat := by omega
        simp [keyLe, g, g'] at h2
    · rcases Nat.lt_trichotomy b.toNat c.toNat with g | g | g
      · have : a.toNat < c.toNat := by omega
        simp [keyLe, this]
      · have e1 : ¬ a.toNat < b.toNat := by omega
        have e2 : ¬ b.toNat < a.toNat := by omega
        have e3 : ¬ b.toNat < c.toNat := by omega
        have e4 : ¬ c.toNat < b.toNat := by omega
        have e5 : ¬ a.toNat < c.toNat := by omega
        have e6 : ¬ c.toNat < a.toNat := by omega
        simp [keyLe, e1, e2, e3, e4] at h1 h2
        simp [keyLe, e5, e6]
        exact keyLe_trans as bs cs h1 h2
      · have g' : ¬ b.toNat < c.toNat := by omega
        simp [keyLe, g, g'] at h2
    · have h' : ¬ a.toNat < b.toNat := by omega
      simp [keyLe, h, h'] at h1

instance {α : Type} : IsTotal (Bytes × α) byKey := ⟨fun a b => keyLe_total a.1 b.1⟩
instance {α : Type} : IsTrans (Bytes × α) byKey := ⟨fun a b c => keyLe_trans a.1 b.1 c.1⟩

theorem sorted_perm_eq {α : Type} : ∀ (l1 l2 : List (Bytes × α)),
    l1.Perm l2 → l1.Sorted byKey → l2.Sorted byKey → (l1.map Prod.fst).Nodup → l1 = l2
  | [], l2, hp, _, _, _ => (List.Perm.nil_eq hp)
  | a :: l1, [], hp, _, _, _ => absurd hp.symm (by simp)
  | a :: l1, b :: l2, hp, hs1, hs2, hn => by
    have hab : a = b := by
      by_contra hne
      have ha : a ∈ b :: l2 := hp.subset (List.mem_cons_self _ _)
      have hb : b ∈ a :: l1 := hp.symm.subset (List.mem_cons_self _ _)
      have ha' : a ∈ l2 := by
        rcases List.mem_cons.1 ha with h | h
        · exact absurd h hne
        · exact h
      have hb' : b ∈ l1 := by
        rcases List.mem_cons.1 hb with h | h
        · exact absurd h.symm hne
        · exact h
      have r1 : byKey a b := List.rel_of_sorted_cons hs1 b hb'
      have r2 : byKey b a := List.rel_of_sorted_cons hs2 a ha'
      have hk : a.1 = b.1 := keyLe_antisymm _ _ r1 r2
      simp only [List.map_cons, List.nodup_cons] at hn
      exact hn.1 (hk ▸ List.mem_map_of_mem Prod.fst hb')
    subst hab
    have hp' : l1.Perm l2 := List.Perm.cons_inv hp
    simp only [List.map_cons, List.nodup_cons] at hn
    rw [sorted_perm_eq l1 l2 hp' hs1.of_cons hs2.of_cons hn.2]

theorem sortMembers_perm {l1 l2 : List (Bytes × Bytes)} (hp : l1.Perm l2)
    (hn : (l1.map Prod.fst).Nodup) : sortMembers l1 = sortMembers l2 := by
  unfold sortMembers
  apply sorted_perm_eq
  · exact ((List.perm_insertionSort _ l1).trans hp).trans (List.perm_insertionSort _ l2).symm
  · exact List.sorted_insertionSort byKey l1
  · exact List.sorted_insertionSort byKey l2
  · exact ((List.perm_insertionSort _ l1).map Prod.fst).nodup_iff.2 hn

end KeyOrder

section MapFacts

variable {F : Type}

theorem mem_keysOf {k : Bytes} {kvs : Fields F} : k ∈ keysOf kvs ↔ ∃ v, (k, v) ∈ kvs := by
  unfold keysOf
  rw [List.mem_map]
  constructor
  · rintro ⟨⟨k1, v⟩, h, rfl⟩
    exact ⟨v, h⟩
  · rintro ⟨v, h⟩
    exact ⟨(k, v), h, rfl⟩

theorem lookupKey_of_mem {k : Bytes} {v : JVal F} : ∀ {kvs : Fields F},
    (keysOf kvs).Nodup → (k, v) ∈ kvs → lookupKey k kvs = some v
  | [], _, h => absurd h (List.not_mem_nil _)
  | (k1, v1) :: rest, hn, h => by
    simp only [keysOf, List.map_cons, List.nodup_cons] at hn
    rcases List.mem_cons.1 h with h1 | h1
    · injection h1 with h2 h3
      simp [lookupKey, h2, h3]
    · have hk : k1 ≠ k := by
        rintro rfl
        exact hn.1 (List.mem_map_of_mem Prod.fst h1)
      simp only [lookupKey, hk, if_false]
      exact lookupKey_of_mem hn.2 h1

theorem lookupKey_isSome {k : Bytes} {kvs : Fields F} (h : k ∈ keysOf kvs) :
    ∃ v, lookupKey k kvs = some v := by
  induction kvs with
  | nil => simp [keysOf] at h
  | cons kv rest ih =>
    obtain ⟨k1, v1⟩ := kv
    by_cases hk : k1 = k
    · exact ⟨v1, by simp [lookupKey, hk]⟩
    · simp only [keysOf, List.map_cons, List.mem_cons] at h
      rcases h with h | h
      · exact absurd h.symm hk
      · obtain ⟨v, hv⟩ := ih h
        exact ⟨v, by simp [lookupKey, hk, hv]⟩

theorem wf_of_mem {k : Bytes} {v : JVal F} : ∀ {kvs : Fields F},
    JVal.WFFields kvs → (k, v) ∈ kvs → JVal.WF v
  | [], _, h => absurd h (List.not_mem_nil _)
  | (k1, v1) :: rest, hw, h => by
    simp only [JVal.WFFields] at hw
    rcases List.mem_cons.1 h with h1 | h1
    · injection h1 with h2 h3
      exact h3 ▸ hw.1
    · exact wf_of_mem hw.2 h1

end MapFacts

section RenderingOrder

variable {F : Type} [Float64Model F]

theorem keys_marshalMembers (d : Nat) : ∀ kvs : Fields F,
    (marshalMembers d kvs).map Prod.fst = keysOf kvs
  | [] => rfl
  | (k, v) :: rest => by
    simp [marshalMembers, keysOf, keys_marshalMembers d rest]

theorem mem_marshalMembers (d : Nat) (k t : Bytes) : ∀ kvs : Fields F,
    (k, t) ∈ marshalMembers d kvs ↔ ∃ v, (k, v) ∈ kvs ∧ t = marshalVal d v
  | [] => by simp [marshalMembers]
  | (k1, v1) :: rest => by
    simp only [marshalMembers, List.mem_cons, mem_marshalMembers d k t rest, Prod.mk.injEq]
    constructor
    · rintro (⟨h1, h2⟩ | ⟨v, hv, ht⟩)
      · exact ⟨v1, Or.inl ⟨h1, rfl⟩, h2⟩
      · exact ⟨v, Or.inr hv, ht⟩
    · rintro ⟨v, (⟨h1, h2⟩ | hv), ht⟩
      · left; exact ⟨h1, h2 ▸ ht⟩
      · right; exact ⟨v, hv, ht⟩

theorem marshal_equiv_aux {v w : JVal F} (h : JEquiv v w) :
    (JVal.WF v → JVal.WF w → ∀ d, marshalVal d v = marshalVal d w) ∧
    (∀ xs ys, v = JVal.arr xs → w = JVal.arr ys → JVal.WFList xs → JVal.WFList ys →
      ∀ d, marshalElems d xs = marshalElems d ys) := by
  induction h with
  | null => exact ⟨fun _ _ _ => rfl, fun _ _ h => by cases h⟩
  | bool b => exact ⟨fun _ _ _ => rfl, fun _ _ h => by cases h⟩
  | num x => exact ⟨fun _ _ _ => rfl, fun _ _ h => by cases h⟩
  | str s => exact ⟨fun _ _ _ => rfl, fun _ _ h => by cases h⟩
  | arrNil =>
    refine ⟨fun _ _ _ => rfl, fun xs ys h1 h2 _ _ d => ?_⟩
    cases h1; cases h2; rfl
  | @arrCons x y xs ys _ _ ih1 ih2 =>
    have key : JVal.WFList (x :: xs) → JVal.WFList (y :: ys) →
        ∀ d, marshalElems d (x :: xs) = marshalElems d (y :: ys) := by
      intro hx hy d
      simp only [JVal.WFList] at hx hy
      simp only [marshalElems]
      rw [ih1.1 hx.1 hy.1 d, ih2.2 xs ys rfl rfl hx.2 hy.2 d]
    refine ⟨fun hv hw d => ?_, fun xs' ys' h1 h2 hx hy d => ?_⟩
    · simp only [JVal.WF] at hv hw
      simp only [marshalVal]
      rw [key hv hw (d + 1)]
    · cases h1; cases h2; exact key hx hy d
  | @obj kvs kws hkeys _ ih =>
    refine ⟨fun hv hw d => ?_, fun _ _ h => by cases h⟩
    simp only [JVal.WF] at hv hw
    simp only [marshalVal]
    have hn1 : ((marshalMembers (d + 1) kvs).map Prod.fst).Nodup := by
      rw [keys_marshalMembers]; exact hv.1
    have hn2 : ((marshalMembers (d + 1) kws).map Prod.fst).Nodup := by
      rw [keys_marshalMembers]; exact hw.1
    have hp : (marshalMembers (d + 1) kvs).Perm (marshalMembers (d + 1) kws) := by
      rw [List.perm_ext_iff_of_nodup (List.Nodup.of_map _ hn1) (List.Nodup.of_map _ hn2)]
      rintro ⟨k, t⟩
      rw [mem_marshalMembers, mem_marshalMembers]
      constructor
      · rintro ⟨v, hv1, ht⟩
        have hk : k ∈ keysOf kws := (hkeys k).1 (mem_keysOf.2 ⟨v, hv1⟩)
        obtain ⟨w, hw1⟩ := lookupKey_isSome hk
        refine ⟨w, lookupKey_mem hw1, ?_⟩
        rw [ht]
        exact (ih k v w (lookupKey_of_mem hv.1 hv1) hw1).1 (wf_of_mem hv.2 hv1)
          (wf_of_mem hw.2 (lookupKey_mem hw1)) (d + 1)
      · rintro ⟨w, hw1, ht⟩
        have hk : k ∈ keysOf kvs := (hkeys k).2 (mem_keysOf.2 ⟨w, hw1⟩)
        obtain ⟨v, hv1⟩ := lookupKey_isSome hk
        refine ⟨v, lookupKey_mem hv1, ?_⟩
        rw [ht]
        exact ((ih k v w hv1 (lookupKey_of_mem hw.1 hw1)).1 (wf_of_mem hv.2 (lookupKey_mem hv1))
          (wf_of_mem hw.2 hw1) (d + 1)).symm
    rw [sortMembers_perm hp hn1]

/-- Structurally equal proper values have the same rendering. -/
theorem marshal_equiv {v w : JVal F} (h : JEquiv v w) (hv : JVal.WF v) (hw : JVal.WF w)
    (d : Nat) : marshalVal d v = marshalVal d w :=
  (marshal_equiv_aux h).1 hv hw d


end RenderingOrder

section StringRoundTrip

theorem hexVal_hexDigit (n : Nat) (h : n < 16) : hexVal (hexDigit n) = some n := by
  interval_cases n <;> decide

theorem stringStep_raw (c : Char) (t : Bytes) (h1 : c ≠ '"') (h2 : c ≠ '\\')
    (h3 : ¬ c.toNat < 32) : stringStep (c :: t) = some (some c, t) := by
  simp only [stringStep, if_neg h1, if_neg h2, if_neg h3]

theorem stringStep_u (a b c d : Char) (r : Nat) (t : Bytes) (h : hex4 a b c d = some r)
    (hs : isSurrogate r = false) :
    stringStep ('\\' :: 'u' :: a :: b :: c :: d :: t) = some (some (Char.ofNat r), t) := by
  have h1 : ('\\' : Char) ≠ '"' := by decide
  simp [stringStep, h1, h, unescapeU, hs]

theorem small_not_surrogate (n : Nat) (h : n < 55296) : isSurrogate n = false := by
  simp [isSurrogate]; omega

/-- One encoded character is decoded by one step. -/
theorem stringStep_escapeChar (c : Char) (t : Bytes) :
    stringStep (escapeChar c ++ t) = some (some c, t) := by
  unfold escapeChar
  split_ifs with h1 h2 h3 h4 h5 h6 h7 h8 h9
  · subst h1; rfl
  · subst h2; rfl
  · subst h3; rfl
  · subst h4; rfl
  · subst h5; rfl
  · have : c = Char.ofNat 8 := by rw [← h6, Char.ofNat_toNat]
    subst this; rfl
  · have : c = Char.ofNat 12 := by rw [← h7, Char.ofNat_toNat]
    subst this; rfl
  · have hlt : c.toNat < 128 := by
      rcases h8 with h | h | h | h
      · omega
      · subst h; decide
      · subst h; decide
      · subst h; decide
    have hx : hex4 '0' '0' (hexDigit (c.toNat / 16)) (hexDigit (c.toNat % 16)) = some c.toNat := by
      have e1 := hexVal_hexDigit (c.toNat / 16) (by omega)
      have e2 := hexVal_hexDigit (c.toNat % 16) (by omega)
      have e0 : hexVal '0' = some 0 := by decide
      simp only [hex4, e0, e1, e2]
      congr 1
      omega
    have := stringStep_u '0' '0' (hexDigit (c.toNat / 16)) (hexDigit (c.toNat % 16)) c.toNat t hx
      (small_not_surrogate _ (by omega))
    simpa [Char.ofNat_toNat] using this
  · have hx : hex4 '2' '0' '2' (hexDigit (c.toNat % 16)) = some c.toNat := by
      have e2 := hexVal_hexDigit (c.toNat % 16) (by omega)
      have e0 : hexVal '0' = some 0 := by decide
      have e1 : hexVal '2' = some 2 := by decide
      simp only [hex4, e0, e1, e2]
      congr 1
      rcases h9 with h | h <;> omega
    have := stringStep_u '2' '0' '2' (hexDigit (c.toNat % 16)) c.toNat t hx
      (small_not_surrogate _ (by rcases h9 with h | h <;> omega))
    simpa [Char.ofNat_toNat] using this
  · have h3' : ¬ c.toNat < 32 := fun h => h8 (Or.inl h)
    exact stringStep_raw c t h1 h2 h3'

theorem length_escapeChar_pos (c : Char) : 0 < (escapeChar c).length := by
  unfold escapeChar
  split_ifs <;> simp

/-- An encoded string is decoded to the text it encodes. -/
theorem parseStringBody_escapeString : ∀ (s : Bytes) (fuel : Nat) (rest : Bytes),
    (escapeString s).length + 1 ≤ fuel →
    parseStringBody fuel (escapeString s ++ '"' :: rest) = some (s, rest)
  | [], fuel, rest, h => by
    obtain ⟨f, rfl⟩ : ∃ f, fuel = f + 1 := ⟨fuel - 1, by omega⟩
    simp [escapeString, parseStringBody, stringStep]
  | c :: cs, fuel, rest, h => by
    obtain ⟨f, rfl⟩ : ∃ f, fuel = f + 1 := ⟨fuel - 1, by omega⟩
    have hpos := length_escapeChar_pos c
    simp only [escapeString, List.length_append] at h
    simp only [escapeString, List.append_assoc, parseStringBody, stringStep_escapeChar]
    rw [parseStringBody_escapeString cs f rest (by omega)]
    rfl

theorem parseString_quote (s rest : Bytes) :
    parseString (escapeString s ++ '"' :: rest) = some (s, rest) := by
  unfold parseString
  apply parseStringBody_escapeString
  simp

end StringRoundTrip

section NumberRoundTrip

theorem numStep_none_of_not_numChar (st : NumState) (c : Char) (h : isNumChar c = false) :
    numStep st c = none := by
  simp only [isNumChar, Bool.or_eq_false_iff, decide_eq_false_iff_not] at h
  obtain ⟨⟨⟨⟨⟨h1, h2⟩, h3⟩, h4⟩, h5⟩, h6⟩ := h
  have h0 : c ≠ '0' := by
    rintro rfl
    exact absurd h1 (by decide)
  cases st <;> simp [numStep, h1, h2, h3, h4, h5, h6, h0]

theorem scanNumber_append : ∀ (lit : Bytes) (st : NumState) (rest : Bytes),
    scanNumber st lit = some (lit, []) → Follow rest →
    scanNumber st (lit ++ rest) = some (lit, rest)
  | [], st, rest, h, hf => by
    have hfin : numFinal st = true := by
      by_contra hn
      simp [scanNumber, hn] at h
    cases rest with
    | nil => simp [scanNumber, hfin]
    | cons c cs =>
      simp only [Follow] at hf
      simp [scanNumber, numStep_none_of_not_numChar st c hf, hfin]
  | c :: l, st, rest, h, hf => by
    simp only [scanNumber] at h
    cases hs : numStep st c with
    | none =>
      simp only [hs] at h
      by_cases hfin : numFinal st = true <;> simp [hfin] at h
    | some st1 =>
      simp only [hs] at h
      cases hr : scanNumber st1 l with
      | none => simp [hr] at h
      | some p =>
        obtain ⟨lit1, rest1⟩ := p
        simp only [hr, Option.some.injEq, Prod.mk.injEq, List.cons.injEq, true_and] at h
        obtain ⟨rfl, rfl⟩ := h
        have ih := scanNumber_append lit1 st1 rest hr hf
        simp [scanNumber, hs, ih]

/-- First character of a number literal. -/
theorem scanNumber_head {lit : Bytes} (h : scanNumber NumState.start lit = some (lit, [])) :
    ∃ c l, lit = c :: l ∧ (c = '-' ∨ isDigit c = true) := by
  cases lit with
  | nil => simp [scanNumber, numFinal] at h
  | cons c l =>
    refine ⟨c, l, rfl, ?_⟩
    simp only [scanNumber] at h
    cases hs : numStep NumState.start c with
    | none => simp [hs, numFinal] at h
    | some st1 =>
      simp only [numStep] at hs
      by_cases h1 : c = '-'
      · exact Or.inl h1
      · by_cases h2 : c = '0'
        · right; subst h2; decide
        · by_cases h3 : isDigit c = true
          · exact Or.inr h3
          · simp [h1, h2, h3] at hs

theorem numHead_facts {c : Char} (h : c = '-' ∨ isDigit c = true) :
    c ≠ '{' ∧ c ≠ '[' ∧ c ≠ '"' ∧ c ≠ 't' ∧ c ≠ 'f' ∧ c ≠ 'n' ∧ c ≠ ']' ∧ isSpace c = false := by
  rcases h with h | h
  · subst h; decide
  · simp only [isDigit, Bool.and_eq_true, decide_eq_true_eq] at h
    have hne : ∀ k : Char, (k.toNat < 48 ∨ 57 < k.toNat) → c ≠ k := by
      rintro k hk rfl
      omega
    refine ⟨hne _ (by decide), hne _ (by decide), hne _ (by decide), hne _ (by decide),
      hne _ (by decide), hne _ (by decide), hne _ (by decide), ?_⟩
    simp only [isSpace, Bool.or_eq_false_iff, decide_eq_false_iff_not]
    exact ⟨⟨⟨hne _ (by decide), hne _ (by decide)⟩, hne _ (by decide)⟩, hne _ (by decide)⟩

end NumberRoundTrip

section Spaces

theorem skipSpace_replicate_tab (n : Nat) (t : Bytes) :
    skipSpace (List.replicate n '\t' ++ t) = skipSpace t := by
  induction n with
  | zero => rfl
  | succ n ih =>
    rw [List.replicate_succ, List.cons_append, skipSpace, if_pos (by decide), ih]

theorem skipSpace_newline (d : Nat) (t : Bytes) : skipSpace (newline d ++ t) = skipSpace t := by
  rw [newline, List.cons_append, skipSpace, if_pos (by decide), skipSpace_replicate_tab]

theorem skipSpace_cons {c : Char} (t : Bytes) (h : isSpace c = false) :
    skipSpace (c :: t) = c :: t := by
  simp [skipSpace, h]

end Spaces

section RoundTripElems

variable {F : Type} [Float64Model F] [LawfulFloat64 F]

theorem bracket_cons (o c : Char) (d : Nat) (x : Bytes) (xs : List Bytes) :
    bracket o c d (x :: xs)
      = o :: (newline (d + 1) ++ (joinItems (d + 1) (x :: xs) ++ (newline d ++ [c]))) := by
  simp [bracket]

theorem bracket_head (o c : Char) (d : Nat) (items : List Bytes) :
    ∃ t, bracket o c d items = o :: t := by
  cases items with
  | nil => exact ⟨[c], rfl⟩
  | cons x xs => exact ⟨_, rfl⟩

/-- A rendering starts with a character that is neither white space nor a closing bracket. -/
theorem marshalVal_head (d : Nat) (v : JVal F) :
    ∃ c t, marshalVal d v = c :: t ∧ isSpace c = false ∧ c ≠ ']' := by
  cases v with
  | null => exact ⟨'n', _, rfl, by decide, by decide⟩
  | bool b =>
    cases b
    · exact ⟨'f', _, rfl, by decide, by decide⟩
    · exact ⟨'t', _, rfl, by decide, by decide⟩
  | num x =>
    obtain ⟨c, l, hl, hc⟩ := scanNumber_head (LawfulFloat64.format_scan x)
    have hf := numHead_facts hc
    exact ⟨c, l, by simp [marshalVal, hl], hf.2.2.2.2.2.2.2, hf.2.2.2.2.2.2.1⟩
  | str s => exact ⟨'"', _, rfl, by decide, by decide⟩
  | arr xs =>
    obtain ⟨t, ht⟩ := bracket_head '[' ']' d (marshalElems (d + 1) xs)
    exact ⟨'[', t, by simp only [marshalVal, ht], by decide, by decide⟩
  | obj kvs =>
    obtain ⟨t, ht⟩ := bracket_head '{' '}' d
      ((sortMembers (marshalMembers (d + 1) kvs)).map memberText)
    exact ⟨'{', t, by simp only [marshalVal, ht], by decide, by decide⟩

theorem skipSpace_marshalVal (d : Nat) (v : JVal F) (t : Bytes) :
    skipSpace (marshalVal d v ++ t) = marshalVal d v ++ t := by
  obtain ⟨c, l, h, hs, _⟩ := marshalVal_head d v
  rw [h, List.cons_append, skipSpace_cons _ hs]

theorem follow_comma (t : Bytes) : Follow (',' :: t) := by
  simp only [Follow]; decide

theorem follow_newline (d : Nat) (t : Bytes) : Follow (newline d ++ t) := by
  simp only [newline, List.cons_append, Follow]; decide

theorem joinItems_cons_cons (d : Nat) (x y : Bytes) (ys : List Bytes) :
    joinItems d (x :: y :: ys) = x ++ (',' :: (newline d ++ joinItems d (y :: ys))) := by
  simp [joinItems]

theorem marshalVal_length_pos (d : Nat) (v : JVal F) : 0 < (marshalVal d v).length := by
  obtain ⟨c, l, h, _, _⟩ := marshalVal_head d v
  simp [h]

/-- The elements of a rendered non-empty array are decoded one after the other. -/
theorem parseElems_items (b d dOut : Nat) : ∀ (xs : List (JVal F)) (x : JVal F) (fuel : Nat)
    (rest : Bytes), (∀ y ∈ x :: xs, Decodes b y) →
    (joinItems d (marshalElems d (x :: xs))).length + 2 ≤ fuel →
    parseElems fuel b (joinItems d (marshalElems d (x :: xs)) ++ (newline dOut ++ ']' :: rest))
      = Except.ok (canonList (x :: xs), rest)
  | [], x, fuel, rest, hq, hfuel => by
    obtain ⟨f, rfl⟩ : ∃ f, fuel = f + 1 := ⟨fuel - 1, by omega⟩
    simp only [marshalElems, joinItems] at hfuel ⊢
    have h1 := hq x (List.mem_cons_self _ _) d f (newline dOut ++ ']' :: rest) (by omega)
      (follow_newline _ _)
    rw [parseElems, h1]
    simp only [skipSpace_newline]
    rw [skipSpace_cons _ (by decide)]
    simp [canonList]
  | y :: ys, x, fuel, rest, hq, hfuel => by
    obtain ⟨f, rfl⟩ : ∃ f, fuel = f + 1 := ⟨fuel - 1, by omega⟩
    have hpos := marshalVal_length_pos d x
    simp only [marshalElems] at hfuel ⊢
    rw [joinItems_cons_cons] at hfuel ⊢
    simp only [List.length_append, List.length_cons] at hfuel
    have h1 := hq x (List.mem_cons_self _ _) d f
      (',' :: (newline d ++ (joinItems d (marshalVal d y :: marshalElems d ys)
        ++ (newline dOut ++ ']' :: rest)))) (by omega) (follow_comma _)
    have ih := parseElems_items b d dOut ys y f rest
      (fun z hz => hq z (List.mem_cons_of_mem _ hz))
      (by simp only [marshalElems]; omega)
    simp only [marshalElems] at ih
    rw [parseElems]
    simp only [List.append_assoc, List.cons_append] at h1 ⊢
    rw [h1]
    simp only []
    rw [skipSpace_cons _ (by decide)]
    simp only [if_true, skipSpace_newline]
    cases hys : ys with
    | nil =>
      subst hys
      simp only [marshalElems, joinItems] at ih ⊢
      rw [skipSpace_marshalVal, ih]
      simp [canonList]
    | cons z zs =>
      subst hys
      simp only [marshalElems] at ih ⊢
      rw [joinItems_cons_cons] at ih ⊢
      simp only [List.append_assoc, List.cons_append] at ih ⊢
      rw [skipSpace_marshalVal, ih]
      simp [canonList]

end RoundTripElems

section RoundTripMembers

variable {F : Type} [Float64Model F] [LawfulFloat64 F]

theorem memberText_append (k t r : Bytes) :
    memberText (k, t) ++ r = '"' :: (escapeString k ++ '"' :: ':' :: ' ' :: (t ++ r)) := by
  simp [memberText, quote]

theorem memberText_length (k t : Bytes) :
    (memberText (k, t)).length = (escapeString k).length + t.length + 4 := by
  simp [memberText, quote]; omega

/-- One rendered member, followed by `r`, is read up to `r`. -/
theorem parseMembers_step (b d f : Nat) (k : Bytes) (v : JVal F) (r : Bytes)
    (hq : Decodes b v) (hfuel : (marshalVal d v).length + 1 ≤ f) (hr : Follow r) :
    parseMembers (f + 1) b (memberText (k, marshalVal d v) ++ r)
      = match skipSpace r with
        | [] => Except.error DecodeError.malformed
        | c :: rest1 =>
          if c = ',' then
            match parseMembers f b (skipSpace rest1) with
            | Except.ok (ms, out) => Except.ok ((k, canon v) :: ms, out)
            | Except.error e => Except.error e
          else if c = '}' then Except.ok ([(k, canon v)], rest1)
          else Except.error DecodeError.malformed := by
  rw [memberText_append, parseMembers]
  simp only [if_true, parseString_quote]
  rw [skipSpace_cons _ (by decide)]
  simp only [if_true]
  rw [skipSpace, if_pos (by decide), skipSpace_marshalVal]
  simp only [hq d f r hfuel hr]

/-- The members of a rendered non-empty object are decoded one after the other. -/
theorem parseMembers_items (b d dOut : Nat) : ∀ (kvs : Fields F) (kv : Bytes × JVal F)
    (fuel : Nat) (rest : Bytes), (∀ e ∈ kv :: kvs, Decodes b e.2) →
    (joinItems d ((marshalMembers d (kv :: kvs)).map memberText)).length + 2 ≤ fuel →
    parseMembers fuel b (joinItems d ((marshalMembers d (kv :: kvs)).map memberText)
        ++ (newline dOut ++ '}' :: rest))
      = Except.ok (canonFields (kv :: kvs), rest)
  | [], (k, v), fuel, rest, hq, hfuel => by
    obtain ⟨f, rfl⟩ : ∃ f, fuel = f + 1 := ⟨fuel - 1, by omega⟩
    simp only [marshalMembers, List.map_cons, List.map_nil, joinItems] at hfuel ⊢
    rw [memberText_length] at hfuel
    rw [parseMembers_step b d f k v _ (hq (k, v) (List.mem_cons_self _ _)) (by omega)
      (follow_newline _ _)]
    rw [skipSpace_newline, skipSpace_cons _ (by decide)]
    simp [canonFields]
  | (k2, v2) :: kvs, (k, v), fuel, rest, hq, hfuel => by
    obtain ⟨f, rfl⟩ : ∃ f, fuel = f + 1 := ⟨fuel - 1, by omega⟩
    have ih := parseMembers_items b d dOut kvs (k2, v2) f rest
      (fun z hz => hq z (List.mem_cons_of_mem _ hz))
    simp only [marshalMembers, List.map_cons] at hfuel ih ⊢
    rw [joinItems_cons_cons] at hfuel ⊢
    simp only [List.length_append, List.length_cons, memberText_length] at hfuel
    rw [List.append_assoc, parseMembers_step b d f k v _ (hq (k, v) (List.mem_cons_self _ _))
      (by omega) (by simp only [List.cons_append]; exact follow_comma _)]
    simp only [List.cons_append]
    rw [skipSpace_cons _ (by decide)]
    simp only [if_true, List.append_assoc, skipSpace_newline]
    have hskip : ∀ t : Bytes, skipSpace (joinItems d (memberText (k2, marshalVal d v2)
        :: List.map memberText (marshalMembers d kvs)) ++ t)
        = joinItems d (memberText (k2, marshalVal d v2)
        :: List.map memberText (marshalMembers d kvs)) ++ t := by
      intro t
      cases hm : List.map memberText (marshalMembers d kvs) with
      | nil =>
        simp only [joinItems]
        rw [memberText_append, skipSpace_cons _ (by decide)]
      | cons z zs =>
        rw [joinItems_cons_cons, List.append_assoc, memberText_append,
          skipSpace_cons _ (by decide)]
    rw [hskip, ih (by omega)]
    simp [canonFields]

end RoundTripMembers

section SortedForms

variable {F : Type}

theorem canonFields_eq_map : ∀ kvs : Fields F,
    canonFields kvs = kvs.map (fun kv => (kv.1, canon kv.2))
  | [] => rfl
  | (k, v) :: rest => by simp [canonFields, canonFields_eq_map rest]

theorem keysOf_canonFields (kvs : Fields F) : keysOf (canonFields kvs) = keysOf kvs := by
  rw [canonFields_eq_map]
  simp [keysOf, Function.comp_def]

theorem sortFields_perm (kvs : Fields F) : (sortFields kvs).Perm kvs :=
  List.perm_insertionSort _ kvs

theorem keysOf_sortFields_nodup {kvs : Fields F} (h : (keysOf kvs).Nodup) :
    (keysOf (sortFields kvs)).Nodup :=
  ((sortFields_perm kvs).map Prod.fst).nodup_iff.2 h

theorem sortFields_canonFields (kvs : Fields F) :
    sortFields (canonFields kvs) = canonFields (sortFields kvs) := by
  rw [canonFields_eq_map, canonFields_eq_map]
  unfold sortFields
  exact (List.map_insertionSort byKey byKey (fun kv : Bytes × JVal F => (kv.1, canon kv.2)) kvs
    (fun _ _ _ _ => Iff.rfl)).symm

theorem setKey_fresh (k : Bytes) (v : JVal F) : ∀ acc : Fields F, k ∉ keysOf acc →
    setKey k v acc = acc ++ [(k, v)]
  | [], _ => rfl
  | (k1, v1) :: rest, h => by
    simp only [keysOf, List.map_cons, List.mem_cons, not_or] at h
    have hk : k1 ≠ k := fun e => h.1 e.symm
    simp only [setKey, if_neg hk, List.cons_append]
    rw [setKey_fresh k v rest h.2]

theorem foldl_setKey_nodup : ∀ (ms acc : Fields F), (keysOf (acc ++ ms)).Nodup →
    ms.foldl (fun m kv => setKey kv.1 kv.2 m) acc = acc ++ ms
  | [], acc, _ => by simp
  | (k, v) :: rest, acc, h => by
    have hk : k ∉ keysOf acc := by
      simp only [keysOf, List.map_append, List.map_cons] at h
      have := (List.nodup_append.1 h).2.2
      intro hm
      exact List.disjoint_left.1 this hm (List.mem_cons_self _ _)
    simp only [List.foldl_cons]
    rw [setKey_fresh k v acc hk, foldl_setKey_nodup rest (acc ++ [(k, v)]) (by simpa using h)]
    simp

/-- Members with pairwise distinct names are stored as they come. -/
theorem buildMap_nodup {ms : Fields F} (h : (keysOf ms).Nodup) : buildMap ms = ms := by
  unfold buildMap
  rw [foldl_setKey_nodup ms [] (by simpa using h)]
  rfl

theorem depthOf_le_depthList {x : JVal F} : ∀ {xs : List (JVal F)}, x ∈ xs →
    depthOf x ≤ depthList xs
  | [], h => absurd h (List.not_mem_nil _)
  | y :: ys, h => by
    simp only [depthList]
    rcases List.mem_cons.1 h with h1 | h1
    · subst h1; exact Nat.le_max_left _ _
    · exact Nat.le_trans (depthOf_le_depthList h1) (Nat.le_max_right _ _)

theorem depthOf_le_depthFields {e : Bytes × JVal F} : ∀ {kvs : Fields F}, e ∈ kvs →
    depthOf e.2 ≤ depthFields kvs
  | [], h => absurd h (List.not_mem_nil _)
  | (k, v) :: rest, h => by
    simp only [depthFields]
    rcases List.mem_cons.1 h with h1 | h1
    · subst h1; exact Nat.le_max_left _ _
    · exact Nat.le_trans (depthOf_le_depthFields h1) (Nat.le_max_right _ _)

theorem wfList_mem {x : JVal F} : ∀ {xs : List (JVal F)}, JVal.WFList xs → x ∈ xs → JVal.WF x
  | [], _, h => absurd h (List.not_mem_nil _)
  | y :: ys, hw, h => by
    simp only [JVal.WFList] at hw
    rcases List.mem_cons.1 h with h1 | h1
    · subst h1; exact hw.1
    · exact wfList_mem hw.2 h1

end SortedForms

section SortedRendering

variable {F : Type} [Float64Model F]

theorem marshalMembers_eq_map (d : Nat) : ∀ kvs : Fields F,
    marshalMembers d kvs = kvs.map (fun kv => (kv.1, marshalVal d kv.2))
  | [] => rfl
  | (k, v) :: rest => by simp [marshalMembers, marshalMembers_eq_map d rest]

theorem sortMembers_marshalMembers (d : Nat) (kvs : Fields F) :
    sortMembers (marshalMembers d kvs) = marshalMembers d (sortFields kvs) := by
  rw [marshalMembers_eq_map, marshalMembers_eq_map]
  unfold sortMembers sortFields
  exact (List.map_insertionSort byKey byKey
    (fun kv : Bytes × JVal F => (kv.1, marshalVal d kv.2)) kvs (fun _ _ _ _ => Iff.rfl)).symm

end SortedRendering

section RoundTripValues

variable {F : Type} [Float64Model F] [LawfulFloat64 F]

omit [LawfulFloat64 F] in
theorem parseValue_arr_items (f b : Nat) (rest : Bytes) (c : Char) (t : Bytes)
    (hs : skipSpace rest = c :: t) (hc : c ≠ ']') :
    parseValue (F := F) (f + 1) (b + 1) ('[' :: rest)
      = match parseElems f b (c :: t) with
        | Except.ok (xs, out) => Except.ok (JVal.arr xs, out)
        | Except.error e => Except.error e := by
  have h1 : ('[' : Char) ≠ '{' := by decide
  simp only [parseValue, if_neg h1, if_true, hs, if_neg hc]
  try rfl

omit [LawfulFloat64 F] in
theorem parseValue_obj_items (f b : Nat) (rest : Bytes) (c : Char) (t : Bytes)
    (hs : skipSpace rest = c :: t) (hc : c ≠ '}') :
    parseValue (F := F) (f + 1) (b + 1) ('{' :: rest)
      = match parseMembers f b (c :: t) with
        | Except.ok (ms, out) => Except.ok (JVal.obj (buildMap ms), out)
        | Except.error e => Except.error e := by
  simp only [parseValue, if_true, hs, if_neg hc]
  try rfl

omit [LawfulFloat64 F] in
theorem decodes_null (b : Nat) : Decodes (F := F) b JVal.null := by
  intro d fuel rest hfuel _
  obtain ⟨f, rfl⟩ : ∃ f, fuel = f + 1 := ⟨fuel - 1, by omega⟩
  simp [marshalVal, parseValue, expectText, canon]

omit [LawfulFloat64 F] in
theorem decodes_bool (b : Nat) (x : Bool) : Decodes (F := F) b (JVal.bool x) := by
  intro d fuel rest hfuel _
  obtain ⟨f, rfl⟩ : ∃ f, fuel = f + 1 := ⟨fuel - 1, by omega⟩
  cases x <;> simp [marshalVal, parseValue, expectText, canon]

omit [LawfulFloat64 F] in
theorem decodes_str (b : Nat) (s : Bytes) : Decodes (F := F) b (JVal.str s) := by
  intro d fuel rest hfuel _
  obtain ⟨f, rfl⟩ : ∃ f, fuel = f + 1 := ⟨fuel - 1, by omega⟩
  have h1 : ('"' : Char) ≠ '{' := by decide
  have h2 : ('"' : Char) ≠ '[' := by decide
  simp only [marshalVal, quote, List.cons_append, List.append_assoc, parseValue, if_neg h1,
    if_neg h2, if_true, parseString_quote, canon, List.nil_append]

theorem decodes_num (b : Nat) (x : F) : Decodes (F := F) b (JVal.num x) := by
  intro d fuel rest hfuel hfollow
  obtain ⟨f, rfl⟩ : ∃ f, fuel = f + 1 := ⟨fuel - 1, by omega⟩
  have hscan := LawfulFloat64.format_scan x
  obtain ⟨c, l, hl, hc⟩ := scanNumber_head hscan
  have hf := numHead_facts hc
  have happ := scanNumber_append _ NumState.start rest hscan hfollow
  simp only [marshalVal] at hfuel ⊢
  rw [hl] at happ ⊢
  simp only [List.cons_append] at happ ⊢
  simp only [parseValue, if_neg hf.1, if_neg hf.2.1, if_neg hf.2.2.1, if_neg hf.2.2.2.1,
    if_neg hf.2.2.2.2.1, if_neg hf.2.2.2.2.2.1, happ]
  rw [← hl, LawfulFloat64.parse_format x]
  simp [canon]

theorem decodes_arr (b : Nat) (xs : List (JVal F)) (hq : ∀ y ∈ xs, Decodes b y) :
    Decodes (b + 1) (JVal.arr xs) := by
  intro d fuel rest hfuel _
  obtain ⟨f, rfl⟩ : ∃ f, fuel = f + 1 := ⟨fuel - 1, by omega⟩
  cases xs with
  | nil =>
    have h1 : ('[' : Char) ≠ '{' := by decide
    simp [marshalVal, marshalElems, bracket, parseValue, skipSpace, isSpace, canon, canonList]
  | cons x xs =>
    simp only [marshalVal, marshalElems] at hfuel ⊢
    have hitems := parseElems_items b (d + 1) d xs x f rest hq
    simp only [marshalElems] at hitems
    rw [bracket_cons] at hfuel ⊢
    simp only [List.length_cons, List.length_append] at hfuel
    obtain ⟨c, t, hct, hsp, hne⟩ := marshalVal_head (d + 1) x
    have hhead : ∃ t2, joinItems (d + 1) (marshalVal (d + 1) x :: marshalElems (d + 1) xs)
        ++ (newline d ++ ']' :: rest) = c :: t2 := by
      cases hm : marshalElems (d + 1) xs with
      | nil => exact ⟨_, by simp only [joinItems, hct, List.cons_append]; rfl⟩
      | cons z zs =>
        exact ⟨_, by rw [joinItems_cons_cons, hct]; simp only [List.cons_append]; rfl⟩
    obtain ⟨t2, ht2⟩ := hhead
    have hskip : skipSpace (newline (d + 1) ++ (joinItems (d + 1)
        (marshalVal (d + 1) x :: marshalElems (d + 1) xs) ++ (newline d ++ [']'])) ++ rest)
        = c :: t2 := by
      simp only [List.append_assoc, List.singleton_append]
      rw [skipSpace_newline, ht2, skipSpace_cons _ hsp]
    simp only [List.cons_append]
    rw [parseValue_arr_items f b _ c t2 hskip hne, ← ht2, hitems (by omega)]
    simp [canon]

theorem decodes_obj (b : Nat) (kvs : Fields F) (hn : (keysOf kvs).Nodup)
    (hq : ∀ e ∈ kvs, Decodes b e.2) : Decodes (b + 1) (JVal.obj kvs) := by
  intro d fuel rest hfuel _
  obtain ⟨f, rfl⟩ : ∃ f, fuel = f + 1 := ⟨fuel - 1, by omega⟩
  have hcanon : canon (JVal.obj kvs) = JVal.obj (canonFields (sortFields kvs)) := by
    simp only [canon, sortFields_canonFields]
  simp only [marshalVal] at hfuel ⊢
  rw [sortMembers_marshalMembers] at hfuel ⊢
  rw [hcanon]
  have hq2 : ∀ e ∈ sortFields kvs, Decodes b e.2 :=
    fun e he => hq e ((sortFields_perm kvs).subset he)
  have hn2 := keysOf_sortFields_nodup hn
  generalize sortFields kvs = skvs at hfuel hq2 hn2 ⊢
  cases skvs with
  | nil =>
    simp [marshalMembers, bracket, parseValue, skipSpace, isSpace, canonFields]
  | cons kv skvs =>
    obtain ⟨k, v⟩ := kv
    have hitems := parseMembers_items b (d + 1) d skvs (k, v) f rest hq2
    simp only [marshalMembers, List.map_cons] at hitems hfuel ⊢
    rw [bracket_cons] at hfuel ⊢
    simp only [List.length_cons, List.length_append] at hfuel
    have hhead : ∃ t2, joinItems (d + 1) (memberText (k, marshalVal (d + 1) v)
        :: List.map memberText (marshalMembers (d + 1) skvs))
        ++ (newline d ++ '}' :: rest) = '"' :: t2 := by
      cases hm : List.map memberText (marshalMembers (d + 1) skvs) with
      | nil => exact ⟨_, by simp only [joinItems]; rw [memberText_append]⟩
      | cons z zs => exact ⟨_, by rw [joinItems_cons_cons, List.append_assoc, memberText_append]⟩
    obtain ⟨t2, ht2⟩ := hhead
    have hskip : skipSpace (newline (d + 1) ++ (joinItems (d + 1)
        (memberText (k, marshalVal (d + 1) v)
          :: List.map memberText (marshalMembers (d + 1) skvs)) ++ (newline d ++ ['}'])) ++ rest)
        = '"' :: t2 := by
      simp only [List.append_assoc, List.singleton_append]
      rw [skipSpace_newline, ht2, skipSpace_cons _ (by decide)]
    simp only [List.cons_append]
    rw [parseValue_obj_items f b _ '"' t2 hskip (by decide), ← ht2, hitems (by omega)]
    simp only []
    rw [buildMap_nodup (by rw [keysOf_canonFields]; exact hn2)]

set_option linter.unusedSectionVars false in
mutual
/-- Decoding the rendering of a proper value gives the value in canonical arrangement. -/
theorem decodes_val : ∀ (v : JVal F) (b : Nat), JVal.WF v → depthOf v ≤ b → Decodes b v
  | JVal.null, b, _, _ => decodes_null b
  | JVal.bool x, b, _, _ => decodes_bool b x
  | JVal.num x, b, _, _ => decodes_num b x
  | JVal.str s, b, _, _ => decodes_str b s
  | JVal.arr xs, b, hw, hd => by
    simp only [depthOf] at hd
    obtain ⟨b1, rfl⟩ : ∃ b1, b = b1 + 1 := ⟨b - 1, by omega⟩
    simp only [JVal.WF] at hw
    exact decodes_arr b1 xs (decodes_list xs b1 hw (by omega))
  | JVal.obj kvs, b, hw, hd => by
    simp only [depthOf] at hd
    obtain ⟨b1, rfl⟩ : ∃ b1, b = b1 + 1 := ⟨b - 1, by omega⟩
    simp only [JVal.WF] at hw
    exact decodes_obj b1 kvs hw.1 (decodes_fields kvs b1 hw.2 (by omega))
theorem decodes_list : ∀ (xs : List (JVal F)) (b : Nat), JVal.WFList xs → depthList xs ≤ b →
    ∀ y ∈ xs, Decodes b y
  | [], _, _, _, _, h => absurd h (List.not_mem_nil _)
  | x :: xs, b, hw, hd, y, h => by
    simp only [JVal.WFList] at hw
    simp only [depthList] at hd
    rcases List.mem_cons.1 h with h1 | h1
    · subst h1
      exact decodes_val y b hw.1 (le_trans (Nat.le_max_left _ _) hd)
    · exact decodes_list xs b hw.2 (le_trans (Nat.le_max_right _ _) hd) y h1
theorem decodes_fields : ∀ (kvs : List (Bytes × JVal F)) (b : Nat), JVal.WFFields kvs →
    depthFields kvs ≤ b → ∀ e ∈ kvs, Decodes b e.2
  | [], _, _, _, _, h => absurd h (List.not_mem_nil _)
  | (k, v) :: kvs, b, hw, hd, e, h => by
    simp only [JVal.WFFields] at hw
    simp only [depthFields] at hd
    rcases List.mem_cons.1 h with h1 | h1
    · subst h1
      exact decodes_val v b hw.1 (le_trans (Nat.le_max_left _ _) hd)
    · exact decodes_fields kvs b hw.2 (le_trans (Nat.le_max_right _ _) hd) e h1
end

end RoundTripValues

section EquivalenceLaws

variable {F : Type}

theorem JEquiv.symm {v w : JVal F} (h : JEquiv v w) : JEquiv w v := by
  induction h with
  | null => exact JEquiv.null
  | bool b => exact JEquiv.bool b
  | num x => exact JEquiv.num x
  | str s => exact JEquiv.str s
  | arrNil => exact JEquiv.arrNil
  | arrCons _ _ ih1 ih2 => exact JEquiv.arrCons ih1 ih2
  | obj hk _ ih => exact JEquiv.obj (fun k => (hk k).symm) (fun k v w hv hw => ih k w v hw hv)

theorem JEquiv.trans {u v w : JVal F} (h1 : JEquiv u v) (h2 : JEquiv v w) : JEquiv u w := by
  induction h1 generalizing w with
  | null => exact h2
  | bool b => exact h2
  | num x => exact h2
  | str s => exact h2
  | arrNil => exact h2
  | arrCons _ _ ih1 ih2 =>
    cases h2 with
    | arrCons g1 g2 => exact JEquiv.arrCons (ih1 g1) (ih2 g2)
  | @obj kvs kws hk _ ih =>
    cases h2 with
    | @obj _ kxs gk gl =>
      refine JEquiv.obj (fun k => (hk k).trans (gk k)) (fun k a c ha hc => ?_)
      have hmem : k ∈ keysOf kws := (hk k).1 (mem_keysOf.2 ⟨a, lookupKey_mem ha⟩)
      obtain ⟨b, hb⟩ := lookupKey_isSome hmem
      exact ih k a b ha hb (gl k b c hb hc)

theorem wfFields_of_forall : ∀ {kvs : Fields F}, (∀ e ∈ kvs, JVal.WF e.2) → JVal.WFFields kvs
  | [], _ => trivial
  | (k, v) :: rest, h => by
    simp only [JVal.WFFields]
    exact ⟨h (k, v) (List.mem_cons_self _ _),
      wfFields_of_forall (fun e he => h e (List.mem_cons_of_mem _ he))⟩

theorem wfFields_forall {kvs : Fields F} (h : JVal.WFFields kvs) : ∀ e ∈ kvs, JVal.WF e.2 :=
  fun e he => wf_of_mem (k := e.1) (v := e.2) h he

theorem mem_canonFields {kvs : Fields F} {e : Bytes × JVal F} (h : e ∈ canonFields kvs) :
    ∃ v, (e.1, v) ∈ kvs ∧ e.2 = canon v := by
  rw [canonFields_eq_map, List.mem_map] at h
  obtain ⟨⟨k, v⟩, hm, rfl⟩ := h
  exact ⟨v, hm, rfl⟩

mutual
/-- The canonical arrangement of a proper value is proper and structurally equal to it. -/
theorem canon_spec : ∀ v : JVal F, JVal.WF v → JVal.WF (canon v) ∧ JEquiv (canon v) v
  | JVal.null, _ => ⟨trivial, JEquiv.null⟩
  | JVal.bool b, _ => ⟨trivial, JEquiv.bool b⟩
  | JVal.num x, _ => ⟨trivial, JEquiv.num x⟩
  | JVal.str s, _ => ⟨trivial, JEquiv.str s⟩
  | JVal.arr xs, hw => by
    simp only [JVal.WF] at hw
    have h := canon_list xs hw
    simp only [canon, JVal.WF]
    exact h
  | JVal.obj kvs, hw => by
    simp only [JVal.WF] at hw
    have h := canon_fields kvs hw.2
    have hperm : (sortFields (canonFields kvs)).Perm (canonFields kvs) := sortFields_perm _
    have hnd : (keysOf (sortFields (canonFields kvs))).Nodup :=
      keysOf_sortFields_nodup (by rw [keysOf_canonFields]; exact hw.1)
    simp only [canon, JVal.WF]
    refine ⟨⟨hnd, wfFields_of_forall (fun e he => ?_)⟩, JEquiv.obj (fun k => ?_) ?_⟩
    · obtain ⟨v, hv, he2⟩ := mem_canonFields (hperm.subset he)
      rw [he2]; exact (h e.1 v hv).1
    · unfold keysOf
      rw [(hperm.map Prod.fst).mem_iff]
      exact iff_of_eq (congrArg _ (keysOf_canonFields kvs))
    · intro k a b ha hb
      obtain ⟨v, hv, he2⟩ := mem_canonFields (hperm.subset (lookupKey_mem ha))
      have hvb : v = b := by
        have := lookupKey_of_mem hw.1 hv
        simp only at this
        rw [this] at hb
        exact Option.some.inj hb
      simp only at he2
      rw [he2, hvb]
      exact (h k b (hvb ▸ hv)).2
theorem canon_list : ∀ xs : List (JVal F), JVal.WFList xs →
    JVal.WFList (canonList xs) ∧ JEquiv (JVal.arr (canonList xs)) (JVal.arr xs)
  | [], _ => ⟨trivial, JEquiv.arrNil⟩
  | x :: xs, hw => by
    simp only [JVal.WFList] at hw
    have h1 := canon_spec x hw.1
    have h2 := canon_list xs hw.2
    simp only [canonList, JVal.WFList]
    exact ⟨⟨h1.1, h2.1⟩, JEquiv.arrCons h1.2 h2.2⟩
theorem canon_fields : ∀ kvs : List (Bytes × JVal F), JVal.WFFields kvs →
    ∀ k v, (k, v) ∈ kvs → JVal.WF (canon v) ∧ JEquiv (canon v) v
  | [], _, _, _, h => absurd h (List.not_mem_nil _)
  | (k1, v1) :: rest, hw, k, v, h => by
    simp only [JVal.WFFields] at hw
    rcases List.mem_cons.1 h with h1 | h1
    · injection h1 with h2 h3
      subst h3
      exact canon_spec v hw.1
    · exact canon_fields rest hw.2 k v h1
end

/-- The order that lists the entries of every map by ascending key. -/
def MapOrder.sorted : MapOrder F where
  arrange := canon
  arrange_equiv := fun v h => (canon_spec v h).2
  arrange_wf := fun v h => (canon_spec v h).1

end EquivalenceLaws

section RoundTripDocuments

variable {F : Type} [Float64Model F] [LawfulFloat64 F]

omit [LawfulFloat64 F] in
theorem marshalVal_canon (d : Nat) {v : JVal F} (hw : JVal.WF v) :
    marshalVal d (canon v) = marshalVal d v :=
  marshal_equiv (canon_spec v hw).2 (canon_spec v hw).1 hw d

theorem follow_nil : Follow [] := trivial

/-- Decoding a rendered document gives the rendered value in canonical arrangement. -/
theorem decodeJSON_MarshalIndent {v : JVal F} (hw : JVal.WF v)
    (hd : depthOf v ≤ maxNestingDepth) :
    decodeJSON (MarshalIndent v) = Except.ok (canon v) := by
  have h := decodes_val v maxNestingDepth hw hd 0 (2 * (MarshalIndent v).length + 1) []
    (by unfold MarshalIndent; omega) follow_nil
  unfold decodeJSON
  have hs := skipSpace_marshalVal 0 v []
  simp only [List.append_nil] at h hs
  unfold MarshalIndent at *
  rw [hs, h]
  rfl

/-- Renderings tell proper values apart, up to the order of the entries of their maps. -/
theorem marshalVal_injective {v w : JVal F} (hv : JVal.WF v) (hw : JVal.WF w) {d : Nat}
    (h : marshalVal d v = marshalVal d w) : JEquiv v w := by
  have h1 := decodes_val v (max (depthOf v) (depthOf w)) hv (Nat.le_max_left _ _) d
    ((marshalVal d v).length + 1) [] (le_refl _) follow_nil
  have h2 := decodes_val w (max (depthOf v) (depthOf w)) hw (Nat.le_max_right _ _) d
    ((marshalVal d v).length + 1) [] (by rw [h]) follow_nil
  rw [h] at h1 h2
  rw [h2] at h1
  have hc : canon w = canon v := by
    injection h1 with h1
    injection h1
  exact ((canon_spec v hv).2.symm).trans (hc ▸ (canon_spec w hw).2)

end RoundTripDocuments

section DecoderOutput

variable {F : Type}

/-- What the decoder maintains of the maps it builds. -/
theorem setKey_inv (b : Nat) (k : Bytes) (v : JVal F) (hv : JVal.WF v) (hd : depthOf v ≤ b) :
    ∀ m : Fields F, (keysOf m).Nodup ∧ JVal.WFFields m ∧ depthFields m ≤ b →
      ((keysOf (setKey k v m)).Nodup ∧ JVal.WFFields (setKey k v m)
        ∧ depthFields (setKey k v m) ≤ b) ∧ (∀ k2, k2 ∈ keysOf (setKey k v m) → k2 = k ∨ k2 ∈ keysOf m)
  | [], _ => by
    simp [setKey, keysOf, JVal.WFFields, depthFields, hv, hd]
  | (k1, v1) :: rest, h => by
    obtain ⟨hn, hw, hdm⟩ := h
    simp only [keysOf, List.map_cons, List.nodup_cons] at hn
    simp only [JVal.WFFields] at hw
    simp only [depthFields, max_le_iff] at hdm
    by_cases hk : k1 = k
    · simp only [setKey, if_pos hk, keysOf, List.map_cons, List.nodup_cons, JVal.WFFields,
        depthFields, max_le_iff]
      exact ⟨⟨hn, ⟨hv, hw.2⟩, hd, hdm.2⟩, fun k2 h2 => Or.inr h2⟩
    · have ih := setKey_inv b k v hv hd rest ⟨hn.2, hw.2, hdm.2⟩
      simp only [setKey, if_neg hk, keysOf, List.map_cons, List.nodup_cons, JVal.WFFields,
        depthFields, max_le_iff, List.mem_cons]
      refine ⟨⟨⟨fun hmem => ?_, ih.1.1⟩, ⟨hw.1, ih.1.2.1⟩, hdm.1, ih.1.2.2⟩, fun k2 h2 => ?_⟩
      · rcases ih.2 k1 hmem with h1 | h1
        · exact hk h1
        · exact hn.1 h1
      · rcases h2 with h2 | h2
        · exact Or.inr (Or.inl h2)
        · rcases ih.2 k2 h2 with h3 | h3
          · exact Or.inl h3
          · exact Or.inr (Or.inr h3)

theorem foldl_setKey_inv (b : Nat) : ∀ (ms acc : Fields F),
    JVal.WFFields ms → depthFields ms ≤ b →
    (keysOf acc).Nodup ∧ JVal.WFFields acc ∧ depthFields acc ≤ b →
    (keysOf (ms.foldl (fun m kv => setKey kv.1 kv.2 m) acc)).Nodup
      ∧ JVal.WFFields (ms.foldl (fun m kv => setKey kv.1 kv.2 m) acc)
      ∧ depthFields (ms.foldl (fun m kv => setKey kv.1 kv.2 m) acc) ≤ b
  | [], _, _, _, h => h
  | (k, v) :: rest, acc, hw, hd, h => by
    simp only [JVal.WFFields] at hw
    simp only [depthFields, max_le_iff] at hd
    exact foldl_setKey_inv b rest _ hw.2 hd.2 (setKey_inv b k v hw.1 hd.1 acc h).1

/-- A map built from decoded members is proper, and as shallow as its values. -/
theorem buildMap_inv (b : Nat) (ms : Fields F) (hw : JVal.WFFields ms)
    (hd : depthFields ms ≤ b) :
    (keysOf (buildMap ms)).Nodup ∧ JVal.WFFields (buildMap ms) ∧ depthFields (buildMap ms) ≤ b :=
  foldl_setKey_inv b ms [] hw hd ⟨List.nodup_nil, trivial, Nat.zero_le _⟩

end DecoderOutput

section DecoderSound

variable {F : Type} [Float64Model F]

/-- Every value that the decoder produces is proper and nested no deeper than allowed. -/
theorem parse_sound : ∀ fuel : Nat,
    (∀ (b : Nat) (s : Bytes) (v : JVal F) (rest : Bytes),
      parseValue fuel b s = Except.ok (v, rest) → JVal.WF v ∧ depthOf v ≤ b) ∧
    (∀ (b : Nat) (s : Bytes) (xs : List (JVal F)) (rest : Bytes),
      parseElems fuel b s = Except.ok (xs, rest) → JVal.WFList xs ∧ depthList xs ≤ b) ∧
    (∀ (b : Nat) (s : Bytes) (ms : Fields F) (rest : Bytes),
      parseMembers fuel b s = Except.ok (ms, rest) → JVal.WFFields ms ∧ depthFields ms ≤ b)
  | 0 => by
    refine ⟨?_, ?_, ?_⟩ <;> intro b s v rest h
    · simp [parseValue] at h
    · simp [parseElems] at h
    · simp [parseMembers] at h
  | f + 1 => by
    obtain ⟨ihV, ihE, ihM⟩ := parse_sound f
    refine ⟨?_, ?_, ?_⟩
    · intro b s v rest h
      simp only [parseValue] at h
      repeat' split at h
      all_goals first
        | (cases h; done)
        | (injection h with h; injection h with h1 h2; subst h1
           rename_i hp
           have p := ihM _ _ _ _ hp
           have q := buildMap_inv _ _ p.1 p.2
           simp only [JVal.WF, depthOf]
           exact ⟨⟨q.1, q.2.1⟩, Nat.succ_le_succ q.2.2⟩)
        | (injection h with h; injection h with h1 h2; subst h1
           rename_i hp
           have p := ihE _ _ _ _ hp
           simp only [JVal.WF, depthOf]
           exact ⟨p.1, Nat.succ_le_succ p.2⟩)
        | (injection h with h; injection h with h1 h2; subst h1
           simp [JVal.WF, JVal.WFList, JVal.WFFields, depthOf, depthList, depthFields, keysOf])
    · intro b s xs rest h
      simp only [parseElems] at h
      repeat' split at h
      all_goals first
        | (cases h; done)
        | (injection h with h; injection h with h1 h2; subst h1
           rename_i hv _ _ _ _ _ _ _ _ he
           have p := ihV _ _ _ _ hv
           have q := ihE _ _ _ _ he
           simp only [JVal.WFList, depthList, max_le_iff]
           exact ⟨⟨p.1, q.1⟩, p.2, q.2⟩)
        | (injection h with h; injection h with h1 h2; subst h1
           rename_i hv _ _ _ _ _ _
           have p := ihV _ _ _ _ hv
           simp only [JVal.WFList, depthList, max_le_iff]
           exact ⟨⟨p.1, trivial⟩, p.2, Nat.zero_le _⟩)
    · intro b s ms rest h
      simp only [parseMembers] at h
      repeat' split at h
      all_goals first
        | (cases h; done)
        | (injection h with h; injection h with h1 h2; subst h1
           rename_i hv _ _ _ _ _ _ _ _ he
           have p := ihV _ _ _ _ hv
           have q := ihM _ _ _ _ he
           simp only [JVal.WFFields, depthFields, max_le_iff]
           exact ⟨⟨p.1, q.1⟩, p.2, q.2⟩)
        | (injection h with h; injection h with h1 h2; subst h1
           rename_i hv _ _ _ _ _ _
           have p := ihV _ _ _ _ hv
           simp only [JVal.WFFields, depthFields, max_le_iff]
           exact ⟨⟨p.1, trivial⟩, p.2, Nat.zero_le _⟩)

theorem decodeJSON_sound {src : Bytes} {v : JVal F} (h : decodeJSON src = Except.ok v) :
    JVal.WF v ∧ depthOf v ≤ maxNestingDepth := by
  unfold decodeJSON at h
  split at h
  · exact absurd h (by simp)
  · rename_i w rest hp
    split at h
    · injection h with h
      subst h
      exact (parse_sound _).1 _ _ _ _ hp
    · exact absurd h (by simp)

end DecoderSound

section Canonicalizer

variable {F : Type} [Float64Model F]

omit [Float64Model F] in
theorem asRecord_toJVal {x : JVal F} {m : Record F} (h : asRecord x = Except.ok m) :
    m.toJVal = x := by
  cases x <;> simp [asRecord] at h <;> subst h <;> rfl

omit [Float64Model F] in
theorem asRecords_map : ∀ {xs : List (JVal F)} {rs : List (Record F)},
    asRecords xs = Except.ok rs → rs.map Record.toJVal = xs
  | [], rs, h => by
    simp [asRecords] at h; subst h; rfl
  | x :: xs, rs, h => by
    simp only [asRecords] at h
    split at h
    · rename_i r rs1 h1 h2
      injection h with h
      subst h
      simp [asRecord_toJVal h1, asRecords_map h2]
    · exact absurd h (by simp)
    · exact absurd h (by simp)

omit [Float64Model F] in
theorem asRecordSeq_toJVal {x : JVal F} {s : RecordSeq F} (h : asRecordSeq x = Except.ok s) :
    s.toJVal = x := by
  cases x with
  | arr xs =>
    simp only [asRecordSeq] at h
    split at h
    · rename_i rs h1
      injection h with h
      subst h
      simp [RecordSeq.toJVal, asRecords_map h1]
    · exact absurd h (by simp)
  | null => simp [asRecordSeq] at h; subst h; rfl
  | bool b => simp [asRecordSeq] at h
  | num n => simp [asRecordSeq] at h
  | str s => simp [asRecordSeq] at h
  | obj kvs => simp [asRecordSeq] at h

omit [Float64Model F] in
theorem asRecord_of_toJVal (m : Record F) : asRecord m.toJVal = Except.ok m := by
  cases m <;> rfl

omit [Float64Model F] in
theorem asRecords_of_map : ∀ rs : List (Record F),
    asRecords (rs.map Record.toJVal) = Except.ok rs
  | [] => rfl
  | r :: rs => by
    simp [asRecords, asRecord_of_toJVal, asRecords_of_map rs]

omit [Float64Model F] in
theorem asRecordSeq_of_toJVal (s : RecordSeq F) : asRecordSeq s.toJVal = Except.ok s := by
  cases s with
  | none => rfl
  | some rs => simp [RecordSeq.toJVal, asRecordSeq, asRecords_of_map]

/-- What a successful `FormatJSON` returns, in terms of the decoded document. -/
theorem FormatJSON_ok {ord : MapOrder F} {src : Bytes} {m : Record F} {out : Bytes}
    (h : FormatJSON ord src = Except.ok (m, out)) :
    ∃ v, decodeJSON src = Except.ok v ∧ m.toJVal = ord.arrange v
      ∧ out = MarshalIndent m.toJVal := by
  unfold FormatJSON at h
  split at h
  · exact absurd h (by simp)
  · rename_i v hv
    split at h
    · exact absurd h (by simp)
    · rename_i r hr
      injection h with h; injection h with h1 h2
      subst h1
      exact ⟨v, hv, asRecord_toJVal hr, h2.symm⟩

theorem FormatJSON_of_decode (ord : MapOrder F) {src : Bytes} {v : JVal F} {m : Record F}
    (hv : decodeJSON src = Except.ok v) (hm : m.toJVal = ord.arrange v) :
    FormatJSON ord src = Except.ok (m, MarshalIndent m.toJVal) := by
  unfold FormatJSON
  rw [hv]
  simp only [← hm, asRecord_of_toJVal]

/-- What a successful `FormatArrayJSON` returns on a non-empty input. -/
theorem FormatArrayJSON_ok {ord : MapOrder F} {src : Bytes} {s : RecordSeq F} {out : Bytes}
    (hne : src ≠ []) (h : FormatArrayJSON ord src = Except.ok (s, out)) :
    ∃ v, decodeJSON src = Except.ok v ∧ s.toJVal = ord.arrange v
      ∧ out = MarshalIndent s.toJVal := by
  unfold FormatArrayJSON at h
  have hl : ¬ src.length = 0 := fun h0 => hne (List.length_eq_zero.1 h0)
  rw [if_neg hl] at h
  split at h
  · exact absurd h (by simp)
  · rename_i v hv
    split at h
    · exact absurd h (by simp)
    · rename_i r hr
      injection h with h; injection h with h1 h2
      subst h1
      exact ⟨v, hv, asRecordSeq_toJVal hr, h2.symm⟩

theorem FormatArrayJSON_of_decode (ord : MapOrder F) {src : Bytes} {v : JVal F}
    {s : RecordSeq F} (hne : src ≠ []) (hv : decodeJSON src = Except.ok v)
    (hm : s.toJVal = ord.arrange v) :
    FormatArrayJSON ord src = Except.ok (s, MarshalIndent s.toJVal) := by
  unfold FormatArrayJSON
  have hl : ¬ src.length = 0 := fun h0 => hne (List.length_eq_zero.1 h0)
  rw [if_neg hl, hv]
  simp only [← hm, asRecordSeq_of_toJVal]

/-- The map that `FormatJSON` returns is proper. -/
theorem FormatJSON_wf {ord : MapOrder F} {src : Bytes} {m : Record F} {out : Bytes}
    (h : FormatJSON ord src = Except.ok (m, out)) : JVal.WF m.toJVal := by
  obtain ⟨v, hv, hm, _⟩ := FormatJSON_ok h
  rw [hm]
  exact ord.arrange_wf v (decodeJSON_sound hv).1

omit [Float64Model F] in
theorem wf_seq_empty : JVal.WF (RecordSeq.toJVal (some ([] : List (Record F)))) := by
  simp [RecordSeq.toJVal, JVal.WF, JVal.WFList]

/-- The slice that `FormatArrayJSON` returns holds proper maps. -/
theorem FormatArrayJSON_wf {ord : MapOrder F} {src : Bytes} {s : RecordSeq F} {out : Bytes}
    (h : FormatArrayJSON ord src = Except.ok (s, out)) : JVal.WF s.toJVal := by
  by_cases hne : src = []
  · rcases FormatArrayJSON_formatted h with ⟨_, hs, _⟩ | ⟨h1, _⟩
    · rw [hs]; exact wf_seq_empty
    · exact absurd hne h1
  · obtain ⟨v, hv, hm, _⟩ := FormatArrayJSON_ok hne h
    rw [hm]
    exact ord.arrange_wf v (decodeJSON_sound hv).1

end Canonicalizer

section ConcreteLaws

instance : LawfulFloat64 NumberText where
  format_scan := fun x => x.property
  parse_format := fun x => by
    show (if h : scanNumber NumState.start x.val = some (x.val, []) then some ⟨x.val, h⟩ else none)
      = some x
    exact (dif_pos x.property).trans rfl

end ConcreteLaws

section CanonicalForm

variable {F : Type} [Float64Model F]

omit [Float64Model F] in
theorem recEq_symm {e a : Record F} (h : RecEq e a) : RecEq a e := JEquiv.symm h

omit [Float64Model F] in
theorem recEq_trans {e a b : Record F} (h1 : RecEq e a) (h2 : RecEq a b) : RecEq e b :=
  JEquiv.trans h1 h2

/-- Structurally equal maps returned by `FormatJSON` come with the same canonical bytes. -/
theorem FormatJSON_bytes_eq {ord1 ord2 : MapOrder F} {x y : Bytes} {e a : Record F}
    {ef af : Bytes} (he : FormatJSON ord1 x = Except.ok (e, ef))
    (ha : FormatJSON ord2 y = Except.ok (a, af)) (h : RecEq e a) : ef = af := by
  rw [FormatJSON_formatted he, FormatJSON_formatted ha]
  exact marshal_equiv h (FormatJSON_wf he) (FormatJSON_wf ha) 0

/-- Equal canonical bytes come from structurally equal maps. -/
theorem FormatJSON_bytes_inj [LawfulFloat64 F] {ord1 ord2 : MapOrder F} {x y : Bytes}
    {e a : Record F} {ef af : Bytes} (he : FormatJSON ord1 x = Except.ok (e, ef))
    (ha : FormatJSON ord2 y = Except.ok (a, af)) (h : ef = af) : RecEq e a := by
  rw [FormatJSON_formatted he, FormatJSON_formatted ha] at h
  exact marshalVal_injective (FormatJSON_wf he) (FormatJSON_wf ha) h

end CanonicalForm

section ClaimsCanonical

variable {F : Type} [Float64Model F]

/-- C1 (as amended). For every pair of inputs that `FormatJSON` both decodes, and for every
iteration order of the maps, `IsEquivalent` returns a nil error, and `equal = true` if and only
if the two decoded Records are structurally equal, a nil Record (the document `null`) being
equal to a nil Record only. -/
theorem IsEquivalent_equal_iff [LawfulFloat64 F] (ordE ordA : MapOrder F) (expected actual : Bytes)
    (e a : Record F) (ef af : Bytes) (he : FormatJSON ordE expected = Except.ok (e, ef))
    (ha : FormatJSON ordA actual = Except.ok (a, af)) :
    (IsEquivalent ordE ordA expected actual).err = none ∧
      ((IsEquivalent ordE ordA expected actual).same = true ↔ RecEq e a) := by
  rw [IsEquivalent_ok he ha]
  by_cases hb : ef = af
  · simp only [if_pos hb, true_and, true_iff]
    exact FormatJSON_bytes_inj he ha hb
  · have hne : ¬ RecEq e a := fun h => hb (FormatJSON_bytes_eq he ha h)
    simp only [if_neg hb]
    split_ifs <;> simp [hne]

/-- C1, at the documents `{"A": "1", "B": "2"}` and `{"B": "2", "A": "1"}`. -/
theorem IsEquivalent_equal_iff_witness :
    (IsEquivalent (F := NumberText) MapOrder.insertion MapOrder.insertion docAB docBA).err = none ∧
      ((IsEquivalent (F := NumberText) MapOrder.insertion MapOrder.insertion
          docAB docBA).same = true
        ↔ RecEq recAB recBA) :=
  IsEquivalent_equal_iff MapOrder.insertion MapOrder.insertion
      docAB docBA recAB recBA canonAB canonAB rfl rfl

/-- C1 as stated fails: the documents `null` and `{}` are both decoded, to the nil map and to
the empty map, which have the same key set and the same value at every key, and `IsEquivalent`
reports them as different. -/
theorem IsEquivalent_null_vs_empty :
    FormatJSON (F := NumberText) MapOrder.insertion docNull = Except.ok (none, docNull) ∧
    FormatJSON (F := NumberText) MapOrder.insertion docEmptyObject
      = Except.ok (some [], docEmptyObject) ∧
    SameContent (none : Record NumberText) (some []) ∧
    IsEquivalent (F := NumberText) MapOrder.insertion MapOrder.insertion docNull docEmptyObject
      = ⟨docNull, docEmptyObject, false, none⟩ :=
  ⟨rfl, rfl, JEquiv.refl _, rfl⟩

end ClaimsCanonical

section ClaimsErrors

variable {F : Type} [Float64Model F]

/-- C3. Decode failure propagation: whenever `FormatJSON` (for `IsEquivalentArray`:
`FormatArrayJSON`) fails on the expected input or on the actual input, whatever the other
input is, the result is `("", "", false, err)` with `err` non-nil; and a non-nil error always
comes with both renderings empty and `equal = false`. -/
theorem decode_failure_propagation (ordE ordA : MapOrder F) (expected actual : Bytes) :
    ((failed (FormatJSON ordE expected) ∨ failed (FormatJSON ordA actual)) →
      ∃ err, IsEquivalent ordE ordA expected actual = ⟨[], [], false, some err⟩) ∧
    ((failed (FormatArrayJSON ordE expected) ∨ failed (FormatArrayJSON ordA actual)) →
      ∃ err, IsEquivalentArray ordE ordA expected actual = ⟨[], [], false, some err⟩) ∧
    ((IsEquivalent ordE ordA expected actual).err ≠ none →
      (IsEquivalent ordE ordA expected actual).expectedVersion = [] ∧
      (IsEquivalent ordE ordA expected actual).actualVersion = [] ∧
      (IsEquivalent ordE ordA expected actual).same = false) ∧
    ((IsEquivalentArray ordE ordA expected actual).err ≠ none →
      (IsEquivalentArray ordE ordA expected actual).expectedVersion = [] ∧
      (IsEquivalentArray ordE ordA expected actual).actualVersion = [] ∧
      (IsEquivalentArray ordE ordA expected actual).same = false) :=
  ⟨IsEquivalent_failed ordE ordA expected actual,
    IsEquivalentArray_failed ordE ordA expected actual,
    IsEquivalent_err_shape ordE ordA expected actual,
    IsEquivalentArray_err_shape ordE ordA expected actual⟩

/-- C3, at an actual input that is not JSON next to the valid expected document
`{"A": "1", "B": "2"}`: the valid side does not mask the error. -/
theorem decode_failure_propagation_witness :
    ∃ err, IsEquivalent (F := NumberText) MapOrder.insertion MapOrder.insertion docAB docInvalid
      = ⟨[], [], false, some err⟩ :=
  (decode_failure_propagation MapOrder.insertion MapOrder.insertion docAB docInvalid).1
    (Or.inr ⟨DecodeError.malformed, rfl⟩)

/-- C8. `FormatArrayJSON` on a zero-length input returns an empty, non-nil Record Sequence,
empty canonical bytes and no error, and `IsEquivalentArray` on two zero-length inputs returns
`("", "", true, nil)`. -/
theorem empty_array_input (ordE ordA : MapOrder F) :
    FormatArrayJSON ordE [] = Except.ok (some [], []) ∧
    IsEquivalentArray ordE ordA [] [] = ⟨[], [], true, none⟩ :=
  ⟨rfl, rfl⟩

end ClaimsErrors

section ClaimsCanonicalForm

variable {F : Type} [Float64Model F]

/-- Structurally equal slices returned by `FormatArrayJSON` on non-empty inputs come with the
same canonical bytes. -/
theorem FormatArrayJSON_bytes_eq {ord1 ord2 : MapOrder F} {x y : Bytes} {s t : RecordSeq F}
    {sf tf : Bytes} (hx : x ≠ []) (hy : y ≠ [])
    (hs : FormatArrayJSON ord1 x = Except.ok (s, sf))
    (ht : FormatArrayJSON ord2 y = Except.ok (t, tf)) (h : SeqEq s t) : sf = tf := by
  obtain ⟨_, _, _, h1⟩ := FormatArrayJSON_ok hx hs
  obtain ⟨_, _, _, h2⟩ := FormatArrayJSON_ok hy ht
  rw [h1, h2]
  exact marshal_equiv h (FormatArrayJSON_wf hs) (FormatArrayJSON_wf ht) 0

/-- C9 (as amended). The canonical form is a function of the decoded value: two inputs on
which `FormatJSON` succeeds with structurally equal Records (a nil Record being equal to a nil
Record only) get byte-identical canonical bytes, whatever the iteration orders of the maps; the
same holds for `FormatArrayJSON` and structurally equal Record Sequences when both inputs are
non-empty. -/
theorem canonical_form_function (ord1 ord2 : MapOrder F) (x y : Bytes) :
    (∀ (e a : Record F) (ef af : Bytes), FormatJSON ord1 x = Except.ok (e, ef) →
      FormatJSON ord2 y = Except.ok (a, af) → RecEq e a → ef = af) ∧
    (∀ (s t : RecordSeq F) (sf tf : Bytes), x ≠ [] → y ≠ [] →
      FormatArrayJSON ord1 x = Except.ok (s, sf) →
      FormatArrayJSON ord2 y = Except.ok (t, tf) → SeqEq s t → sf = tf) :=
  ⟨fun _ _ _ _ he ha h => FormatJSON_bytes_eq he ha h,
    fun _ _ _ _ hx hy hs ht h => FormatArrayJSON_bytes_eq hx hy hs ht h⟩

theorem recAB_wf : JVal.WF recAB.toJVal := by
  simp [recAB, Record.toJVal, JVal.WF, JVal.WFFields, keysOf]

theorem recBA_wf : JVal.WF recBA.toJVal := by
  simp [recBA, Record.toJVal, JVal.WF, JVal.WFFields, keysOf]

theorem recAB_equiv_recBA : RecEq recAB recBA :=
  marshalVal_injective (d := 0) recAB_wf recBA_wf rfl

/-- C9, at the documents `{"A": "1", "B": "2"}` and `{"B": "2", "A": "1"}`: the renderings of
the two decoded Records are the same bytes. -/
theorem canonical_form_function_witness :
    MarshalIndent recAB.toJVal = MarshalIndent recBA.toJVal :=
  (canonical_form_function (F := NumberText) MapOrder.insertion MapOrder.insertion docAB
    docBA).1 recAB recBA _ _ rfl rfl recAB_equiv_recBA

/-- C9 as stated fails: the empty input and the document `[]` are both decoded by
`FormatArrayJSON` to the same empty, non-nil Record Sequence, with different canonical bytes;
and the documents `null` and `{}` are decoded by `FormatJSON` to Records with the same key set
and values, with different canonical bytes. -/
theorem canonical_bytes_differ :
    (FormatArrayJSON (F := NumberText) MapOrder.insertion [] = Except.ok (some [], []) ∧
      FormatArrayJSON (F := NumberText) MapOrder.insertion docEmptyArray
        = Except.ok (some [], docEmptyArray) ∧ ([] : Bytes) ≠ docEmptyArray) ∧
    (FormatJSON (F := NumberText) MapOrder.insertion docNull = Except.ok (none, docNull) ∧
      FormatJSON (F := NumberText) MapOrder.insertion docEmptyObject
        = Except.ok (some [], docEmptyObject) ∧
      SameContent (none : Record NumberText) (some []) ∧ docNull ≠ docEmptyObject) :=
  ⟨⟨rfl, rfl, by decide⟩, rfl, rfl, JEquiv.refl _, by decide⟩

end ClaimsCanonicalForm

section ClaimsIdempotence

variable {F : Type} [Float64Model F]

omit [Float64Model F] in
theorem record_shape {x : JVal F} {r : Record F} (h : JEquiv x r.toJVal) :
    ∃ r1 : Record F, r1.toJVal = x := by
  cases r with
  | none => cases h; exact ⟨none, rfl⟩
  | some kvs => cases h; exact ⟨some _, rfl⟩

omit [Float64Model F] in
theorem records_shape : ∀ (rs : List (Record F)) (xs : List (JVal F)),
    JEquiv (JVal.arr xs) (JVal.arr (rs.map Record.toJVal)) →
    ∃ rs1 : List (Record F), rs1.map Record.toJVal = xs
  | [], xs, h => by
    cases h
    exact ⟨[], rfl⟩
  | r :: rs, xs, h => by
    cases h with
    | arrCons h1 h2 =>
      obtain ⟨r1, hr1⟩ := record_shape h1
      obtain ⟨rs1, hrs1⟩ := records_shape rs _ h2
      exact ⟨r1 :: rs1, by simp [hr1, hrs1]⟩

omit [Float64Model F] in
theorem seq_shape {x : JVal F} {s : RecordSeq F} (h : JEquiv x s.toJVal) :
    ∃ s1 : RecordSeq F, s1.toJVal = x := by
  cases s with
  | none => cases h; exact ⟨none, rfl⟩
  | some rs =>
    cases x with
    | arr xs =>
      obtain ⟨rs1, h1⟩ := records_shape rs xs h
      exact ⟨some rs1, by simp [RecordSeq.toJVal, h1]⟩
    | null => cases h
    | bool b => cases h
    | num n => cases h
    | str t => cases h
    | obj kvs => cases h

/-- Decoding the canonical bytes of a decoded document, in any arrangement. -/
theorem decode_canonical [LawfulFloat64 F] (ord1 ord2 : MapOrder F) {x : Bytes} {v : JVal F}
    (hv : decodeJSON x = Except.ok v) :
    decodeJSON (MarshalIndent (ord1.arrange v)) = Except.ok (canon v)
      ∧ JVal.WF (ord2.arrange (canon v))
      ∧ JEquiv (ord2.arrange (canon v)) (ord1.arrange v) := by
  have hs := decodeJSON_sound hv
  have hc := canon_spec v hs.1
  refine ⟨?_, ord2.arrange_wf _ hc.1, ?_⟩
  · have : MarshalIndent (ord1.arrange v) = MarshalIndent v :=
      marshal_equiv (ord1.arrange_equiv v hs.1) (ord1.arrange_wf v hs.1) hs.1 0
    rw [this]
    exact decodeJSON_MarshalIndent hs.1 hs.2
  · exact ((ord2.arrange_equiv _ hc.1).trans hc.2).trans (ord1.arrange_equiv v hs.1).symm

/-- C10. Canonicalization is idempotent: when `FormatJSON` succeeds on an input with
canonical bytes `c`, `FormatJSON` succeeds on `c`, returns canonical bytes identical to `c` and
a decoded Record structurally equal to the first one, whatever order the maps of the two
calls iterate in; the same holds for `FormatArrayJSON`. -/
theorem canonicalization_idempotent [LawfulFloat64 F] (ord1 ord2 : MapOrder F) (x : Bytes) :
    (∀ (r : Record F) (c : Bytes), FormatJSON ord1 x = Except.ok (r, c) →
      ∃ r1, FormatJSON ord2 c = Except.ok (r1, c) ∧ RecEq r1 r) ∧
    (∀ (s : RecordSeq F) (c : Bytes), FormatArrayJSON ord1 x = Except.ok (s, c) →
      ∃ s1, FormatArrayJSON ord2 c = Except.ok (s1, c) ∧ SeqEq s1 s) := by
  constructor
  · intro r c h
    obtain ⟨v, hv, hm, hc⟩ := FormatJSON_ok h
    obtain ⟨hd, hw, he⟩ := decode_canonical ord1 ord2 hv
    rw [← hm] at hd he
    obtain ⟨r1, hr1⟩ := record_shape he
    rw [← hc] at hd
    refine ⟨r1, ?_, ?_⟩
    · have h1 := FormatJSON_of_decode ord2 hd hr1
      have h2 : MarshalIndent r1.toJVal = c := by
        rw [hc]
        exact marshal_equiv (hr1 ▸ he) (hr1 ▸ hw) (FormatJSON_wf h) 0
      rw [h2] at h1
      exact h1
    · show JEquiv r1.toJVal r.toJVal
      rw [hr1]; exact he
  · intro s c h
    by_cases hx : x = []
    · rcases FormatArrayJSON_formatted h with ⟨_, hs, hc⟩ | ⟨h1, _⟩
      · subst hs hc
        exact ⟨some [], rfl, JEquiv.refl _⟩
      · exact absurd hx h1
    · obtain ⟨v, hv, hm, hc⟩ := FormatArrayJSON_ok hx h
      obtain ⟨hd, hw, he⟩ := decode_canonical ord1 ord2 hv
      rw [← hm] at hd he
      obtain ⟨s1, hs1⟩ := seq_shape he
      rw [← hc] at hd
      have hcne : c ≠ [] := by rw [hc]; exact marshal_seq_ne_nil s
      refine ⟨s1, ?_, ?_⟩
      · have h1 := FormatArrayJSON_of_decode ord2 hcne hd hs1
        have h2 : MarshalIndent s1.toJVal = c := by
          rw [hc]
          exact marshal_equiv (hs1 ▸ he) (hs1 ▸ hw) (FormatArrayJSON_wf h) 0
        rw [h2] at h1
        exact h1
      · show JEquiv s1.toJVal s.toJVal
        rw [hs1]; exact he

/-- C10, at the document `{"B": "2", "A": "1"}`, whose canonical bytes are those of
`{"A": "1", "B": "2"}`. -/
theorem canonicalization_idempotent_witness :
    ∃ r1, FormatJSON (F := NumberText) MapOrder.sorted canonAB = Except.ok (r1, canonAB)
      ∧ RecEq r1 recBA :=
  (canonicalization_idempotent MapOrder.insertion MapOrder.sorted docBA).1 recBA canonAB rfl

end ClaimsIdempotence

section ErasedKeys

variable {F : Type}

theorem Record.index_eq (m : Record F) (k : Bytes) :
    m.index k = (lookupKey k m.entries).getD JVal.null := by
  cases m <;> rfl

theorem lookupKey_none {k : Bytes} {kvs : Fields F} (h : k ∉ keysOf kvs) :
    lookupKey k kvs = none := by
  cases hl : lookupKey k kvs with
  | none => rfl
  | some v => exact absurd (mem_keysOf.2 ⟨v, lookupKey_mem hl⟩) h

theorem mem_keysOf_eraseKey {k k1 : Bytes} {kvs : Fields F} :
    k1 ∈ keysOf (eraseKey k kvs) ↔ k1 ∈ keysOf kvs ∧ k1 ≠ k := by
  simp only [mem_keysOf, eraseKey, List.mem_filter, decide_eq_true_eq]
  constructor
  · rintro ⟨v, h1, h2⟩
    exact ⟨⟨v, h1⟩, h2⟩
  · rintro ⟨⟨v, h1⟩, h2⟩
    exact ⟨v, h1, h2⟩

theorem lookupKey_eraseKey {k k1 : Bytes} (h : k1 ≠ k) : ∀ kvs : Fields F,
    lookupKey k1 (eraseKey k kvs) = lookupKey k1 kvs
  | [] => rfl
  | (k2, v) :: rest => by
    by_cases h2 : k2 = k
    · have h3 : k2 ≠ k1 := fun e => h (e ▸ h2)
      simp only [eraseKey, List.filter, h2, ne_eq, not_true_eq_false, decide_False]
      simp only [lookupKey, h2 ▸ h3, if_false]
      exact lookupKey_eraseKey h rest
    · have hd : decide (k2 ≠ k) = true := by simp [h2]
      simp only [eraseKey, List.filter, hd, lookupKey]
      by_cases h3 : k2 = k1
      · simp [h3]
      · simp only [h3, if_false]
        exact lookupKey_eraseKey h rest

end ErasedKeys

section CompareCore

variable {F : Type} [Float64Model F]

/-- When no entry makes the loop return, `compareMaps` reports no divergence. -/
theorem compareLoop_none (eAll : Fields F) (a : Record F) : ∀ todo : Fields F,
    (∀ entry ∈ todo, compareEntry eAll a (a.index entry.1) entry.2 = none) →
    compareLoop eAll a todo = ([], [])
  | [], _ => rfl
  | (k, v) :: rest, h => by
    simp only [compareLoop, h (k, v) (List.mem_cons_self _ _)]
    exact compareLoop_none eAll a rest (fun e he => h e (List.mem_cons_of_mem _ he))

/-- When some entry makes the loop return and all that do return the same, that is the
result, in whatever order the entries are visited. -/
theorem compareLoop_some (eAll : Fields F) (a : Record F) (r : Bytes × Bytes) :
    ∀ todo : Fields F,
    (∀ entry ∈ todo, compareEntry eAll a (a.index entry.1) entry.2 = none
      ∨ compareEntry eAll a (a.index entry.1) entry.2 = some r) →
    (∃ entry ∈ todo, compareEntry eAll a (a.index entry.1) entry.2 = some r) →
    compareLoop eAll a todo = r
  | [], _, h => by
    obtain ⟨e, he, _⟩ := h
    exact absurd he (List.not_mem_nil _)
  | (k, v) :: rest, hall, hex => by
    rcases hall (k, v) (List.mem_cons_self _ _) with h1 | h1
    · simp only [compareLoop, h1]
      apply compareLoop_some eAll a r rest (fun e he => hall e (List.mem_cons_of_mem _ he))
      obtain ⟨e, he, hr⟩ := hex
      rcases List.mem_cons.1 he with h2 | h2
      · subst h2
        rw [h1] at hr
        exact absurd hr (by simp)
      · exact ⟨e, h2, hr⟩
    · simp only [compareLoop, h1]

/-- An entry whose actual value is not a map either passes or returns the renderings of the
two maps being compared. -/
theorem compareEntry_not_map (eAll : Fields F) (a : Record F) (av ev : JVal F)
    (h : ∀ kvs, av ≠ JVal.obj kvs) :
    compareEntry eAll a av ev = none ∨
    compareEntry eAll a av ev = some (MarshalIndent (JVal.obj eAll), MarshalIndent a.toJVal) := by
  cases ev with
  | obj ec =>
    right
    cases av with
    | obj kvs => exact absurd rfl (h kvs)
    | null => simp only [compareEntry]
    | bool b => simp only [compareEntry]
    | num n => simp only [compareEntry]
    | str s => simp only [compareEntry]
    | arr xs => simp only [compareEntry]
  | null => simp only [compareEntry]; split_ifs <;> simp
  | bool b => simp only [compareEntry]; split_ifs <;> simp
  | num n => simp only [compareEntry]; split_ifs <;> simp
  | str s => simp only [compareEntry]; split_ifs <;> simp
  | arr xs => simp only [compareEntry]; split_ifs <;> simp

omit [Float64Model F] in
theorem lookup_equiv {ec ac : Fields F} (h : JEquiv (JVal.obj ec) (JVal.obj ac))
    {k : Bytes} {ev : JVal F} (hl : lookupKey k ec = some ev) :
    ∃ av, lookupKey k ac = some av ∧ JEquiv ev av := by
  cases h with
  | obj hk hv =>
    obtain ⟨av, hav⟩ := lookupKey_isSome ((hk k).1 (mem_keysOf.2 ⟨ev, lookupKey_mem hl⟩))
    exact ⟨av, hav, hv k ev av hl hav⟩

mutual
/-- An entry whose actual value is structurally equal to the expected one passes. -/
theorem compareEntry_equiv : ∀ (ev av : JVal F) (eAll : Fields F) (a : Record F),
    JEquiv ev av → JVal.WF ev → JVal.WF av → compareEntry eAll a av ev = none
  | JVal.null, av, eAll, a, h, _, _ => by cases h; simp [compareEntry]
  | JVal.bool b, av, eAll, a, h, _, _ => by cases h; simp [compareEntry]
  | JVal.num x, av, eAll, a, h, _, _ => by cases h; simp [compareEntry]
  | JVal.str s, av, eAll, a, h, _, _ => by cases h; simp [compareEntry]
  | JVal.arr xs, av, eAll, a, h, hw1, hw2 => by
    have hm : MarshalIndent (JVal.arr xs) = MarshalIndent av := marshal_equiv h hw1 hw2 0
    cases av with
    | arr ys => simp only [compareEntry, hm, ne_eq, not_true_eq_false, if_false]
    | null => cases h
    | bool b => cases h
    | num n => cases h
    | str s => cases h
    | obj kvs => cases h
  | JVal.obj ec, av, eAll, a, h, hw1, hw2 => by
    have hm : MarshalIndent (JVal.obj ec) = MarshalIndent av := marshal_equiv h hw1 hw2 0
    cases av with
    | obj ac =>
      have hsub : compareLoop ec (some ac) ec = ([], []) := by
        apply compareLoop_none
        intro entry hmem
        simp only [JVal.WF] at hw1 hw2
        have hl := lookupKey_of_mem (k := entry.1) (v := entry.2) hw1.1 hmem
        obtain ⟨w, hlw, hew⟩ := lookup_equiv h hl
        have hidx : Record.index (some ac) entry.1 = w := by
          simp [Record.index, hlw]
        rw [hidx]
        exact compareFields_equiv ec entry hmem w ec (some ac) hew
          (wf_of_mem (k := entry.1) (v := entry.2) hw1.2 hmem) (wf_of_mem hw2.2 (lookupKey_mem hlw))
      simp only [compareEntry, hsub, hm, List.length_nil, ne_eq, not_true_eq_false, if_false]
      simp
    | null => cases h
    | bool b => cases h
    | num n => cases h
    | str s => cases h
    | arr xs => cases h
theorem compareFields_equiv : ∀ (todo : List (Bytes × JVal F)) (entry : Bytes × JVal F),
    entry ∈ todo → ∀ (av : JVal F) (eAll : Fields F) (a : Record F),
    JEquiv entry.2 av → JVal.WF entry.2 → JVal.WF av → compareEntry eAll a av entry.2 = none
  | [], _, h, _, _, _, _, _, _ => absurd h (List.not_mem_nil _)
  | (k, v) :: rest, entry, h, av, eAll, a, he, hw1, hw2 => by
    rcases List.mem_cons.1 h with h1 | h1
    · subst h1
      exact compareEntry_equiv v av eAll a he hw1 hw2
    · exact compareFields_equiv rest entry h1 av eAll a he hw1 hw2
end

/-- Structurally equal maps show no divergence. -/
theorem compareLoop_equiv {ec ac : Fields F} (h : JEquiv (JVal.obj ec) (JVal.obj ac))
    (hw1 : JVal.WF (JVal.obj ec)) (hw2 : JVal.WF (JVal.obj ac)) :
    compareLoop ec (some ac) ec = ([], []) := by
  have := compareEntry_equiv (JVal.obj ec) (JVal.obj ac) ec (some ac) h hw1 hw2
  simp only [compareEntry] at this
  by_contra hne
  split_ifs at this with h1
  have h2 := (pair_empty_iff _).1 h1
  exact hne (Prod.ext h2.1 h2.2)

end CompareCore

section ClaimsInvariant

variable {F : Type} [Float64Model F]

/-- C4 (as amended). For every result that `IsEquivalent` returns with a nil error, `equal` is
true if and only if both renderings are empty. For every result that `IsEquivalentArray`
returns, `equal = true` comes with both renderings empty, and the converse holds whenever the
two inputs are decoded to Record Sequences of the same length. -/
theorem result_invariant (ordE ordA : MapOrder F) (expected actual : Bytes) :
    ((IsEquivalent ordE ordA expected actual).err = none →
      ((IsEquivalent ordE ordA expected actual).same = true ↔
        (IsEquivalent ordE ordA expected actual).expectedVersion = [] ∧
        (IsEquivalent ordE ordA expected actual).actualVersion = [])) ∧
    ((IsEquivalentArray ordE ordA expected actual).same = true →
      (IsEquivalentArray ordE ordA expected actual).expectedVersion = [] ∧
      (IsEquivalentArray ordE ordA expected actual).actualVersion = []) ∧
    (∀ (s t : RecordSeq F) (sf tf : Bytes),
      FormatArrayJSON ordE expected = Except.ok (s, sf) →
      FormatArrayJSON ordA actual = Except.ok (t, tf) → s.len = t.len →
      ((IsEquivalentArray ordE ordA expected actual).same = true ↔
        (IsEquivalentArray ordE ordA expected actual).expectedVersion = [] ∧
        (IsEquivalentArray ordE ordA expected actual).actualVersion = [])) := by
  refine ⟨?_, ?_, ?_⟩
  · intro h
    rcases failed_or_ok (FormatJSON ordE expected) with ⟨e, he⟩ | ⟨⟨em, ef⟩, he⟩
    · rw [IsEquivalent_err_expected actual he] at h; simp at h
    · rcases failed_or_ok (FormatJSON ordA actual) with ⟨e, ha⟩ | ⟨⟨am, af⟩, ha⟩
      · rw [IsEquivalent_err_actual he ha] at h; simp at h
      · rw [IsEquivalent_ok he ha]
        by_cases hb : ef = af
        · simp [hb]
        · simp only [if_neg hb]
          split_ifs with hd
          · simp only [Bool.false_eq_true, false_iff]
            exact fun hh => (pair_empty_iff _).2 hh hd
          · simp only [Bool.false_eq_true, false_iff]
            rintro ⟨h1, h2⟩
            exact hb (h1.trans h2.symm)
  · intro h
    rcases failed_or_ok (FormatArrayJSON ordE expected) with ⟨e, he⟩ | ⟨⟨em, ef⟩, he⟩
    · rw [IsEquivalentArray_err_expected actual he] at h; simp at h
    · rcases failed_or_ok (FormatArrayJSON ordA actual) with ⟨e, ha⟩ | ⟨⟨am, af⟩, ha⟩
      · rw [IsEquivalentArray_err_actual he ha] at h; simp at h
      · rw [IsEquivalentArray_ok he ha] at h ⊢
        split_ifs at h ⊢
        simp
  · intro s t sf tf hs ht hlen
    rw [IsEquivalentArray_ok hs ht]
    by_cases hb : sf = tf
    · simp [hb]
    · simp only [if_neg hb, hlen, ne_eq, not_true_eq_false, if_false]
      split_ifs with hd
      · simp only [Bool.false_eq_true, false_iff]
        exact fun hh => (pair_empty_iff _).2 hh hd
      · simp only [Bool.false_eq_true, false_iff]
        rintro ⟨h1, h2⟩
        exact hb (h1.trans h2.symm)

/-- C4, at the documents `{"A": "1", "B": "2"}` and `{"B": "2", "A": "1"}`. -/
theorem result_invariant_witness :
    ((IsEquivalent (F := NumberText) MapOrder.insertion MapOrder.insertion
        docAB docBA).same = true ↔
      (IsEquivalent (F := NumberText) MapOrder.insertion MapOrder.insertion
          docAB docBA).expectedVersion = [] ∧
      (IsEquivalent (F := NumberText) MapOrder.insertion MapOrder.insertion
          docAB docBA).actualVersion = []) :=
  (result_invariant MapOrder.insertion MapOrder.insertion docAB docBA).1 rfl

/-- C4 as stated fails: on the arrays `[{}]` and `[{}, {}]`, of different lengths,
`IsEquivalentArray` returns a nil error, `equal = false` and two empty renderings. -/
theorem array_length_mismatch_empty_renderings :
    IsEquivalentArray (F := NumberText) MapOrder.insertion MapOrder.insertion
        docOneEmpty docTwoEmpty
      = ⟨[], [], false, none⟩ := rfl

end ClaimsInvariant

section ClaimsMissingKey

variable {F : Type} [Float64Model F]

/-- When every entry either passes or returns `r`, the loop ends with no divergence or
with `r`. -/
theorem compareLoop_cases (eAll : Fields F) (a : Record F) (r : Bytes × Bytes) :
    ∀ todo : Fields F,
    (∀ entry ∈ todo, compareEntry eAll a (a.index entry.1) entry.2 = none
      ∨ compareEntry eAll a (a.index entry.1) entry.2 = some r) →
    compareLoop eAll a todo = ([], []) ∨ compareLoop eAll a todo = r
  | [], _ => Or.inl rfl
  | (k, v) :: rest, hall => by
    rcases hall (k, v) (List.mem_cons_self _ _) with h1 | h1
    · simp only [compareLoop, h1]
      exact compareLoop_cases eAll a r rest (fun e he => hall e (List.mem_cons_of_mem _ he))
    · right
      simp only [compareLoop, h1]

omit [Float64Model F] in
theorem record_entries_wf {a : Record F} (h : JVal.WF a.toJVal) :
    JVal.WF (JVal.obj a.entries) := by
  cases a with
  | none => simp [Record.entries, JVal.WF, JVal.WFFields, keysOf]
  | some kvs => exact h

/-- An entry of the expected map whose key holds a structurally equal value in the actual map
passes. -/
theorem compareEntry_same_value {eAll : Fields F} {a : Record F} {k : Bytes} {ev av : JVal F}
    (hwa : JVal.WF a.toJVal) (hwe : JVal.WF ev) (hl : lookupKey k a.entries = some av)
    (h : JEquiv ev av) : compareEntry eAll a (a.index k) ev = none := by
  have hidx : a.index k = av := by rw [Record.index_eq, hl]; rfl
  rw [hidx]
  have hw := record_entries_wf hwa
  simp only [JVal.WF] at hw
  exact compareEntry_equiv ev av eAll a h hwe (wf_of_mem hw.2 (lookupKey_mem hl))

/-- An entry of the expected map whose key is missing from the actual map either passes or
returns the renderings of the two maps. -/
theorem compareEntry_missing (eAll : Fields F) (a : Record F) {k : Bytes} (ev : JVal F)
    (hk : k ∉ keysOf a.entries) :
    compareEntry eAll a (a.index k) ev = none ∨
    compareEntry eAll a (a.index k) ev
      = some (MarshalIndent (JVal.obj eAll), MarshalIndent a.toJVal) := by
  have hidx : a.index k = JVal.null := by rw [Record.index_eq, lookupKey_none hk]; rfl
  rw [hidx]
  exact compareEntry_not_map eAll a JVal.null ev (fun _ h => by cases h)

/-- C5. Missing top-level key: when the expected document is decoded to the Record `e`, `k` is
a key of `e`, and the actual document is decoded to a Record with the content of `e` without
`k`, then for every iteration order `IsEquivalent` returns `equal = false`, a nil error, the
canonical form of the whole of `e` as expected rendering and the canonical form of the whole
actual Record as actual rendering. -/
theorem missing_top_level_key [LawfulFloat64 F] (ordE ordA : MapOrder F) (expected actual : Bytes)
    (e : Fields F) (a : Record F) (ef af : Bytes) (k : Bytes)
    (he : FormatJSON ordE expected = Except.ok (some e, ef))
    (ha : FormatJSON ordA actual = Except.ok (a, af))
    (hk : k ∈ keysOf e) (hrem : SameContent a (some (eraseKey k e))) :
    IsEquivalent ordE ordA expected actual
      = ⟨MarshalIndent (JVal.obj e), MarshalIndent a.toJVal, false, none⟩ := by
  have hwe : JVal.WF (JVal.obj e) := FormatJSON_wf he
  have hwa : JVal.WF a.toJVal := FormatJSON_wf ha
  have hef : ef = MarshalIndent (JVal.obj e) := FormatJSON_formatted he
  have haf : af = MarshalIndent a.toJVal := FormatJSON_formatted ha
  have hrem1 : JEquiv (JVal.obj a.entries) (JVal.obj (eraseKey k e)) := hrem
  have hkeys : ∀ k1, k1 ∈ keysOf a.entries ↔ k1 ∈ keysOf e ∧ k1 ≠ k := by
    intro k1
    cases hrem1 with
    | obj h1 _ => rw [h1 k1, mem_keysOf_eraseKey]
  have hka : k ∉ keysOf a.entries := fun h => ((hkeys k).1 h).2 rfl
  have hne : ef ≠ af := by
    intro h
    rw [hef, haf] at h
    have hj : JEquiv (JVal.obj e) a.toJVal := marshalVal_injective hwe hwa h
    cases a with
    | none => cases hj
    | some ae =>
      cases hj with
      | obj h1 _ => exact hka ((h1 k).1 hk)
  have hall : ∀ entry ∈ e, compareEntry e a (a.index entry.1) entry.2 = none
      ∨ compareEntry e a (a.index entry.1) entry.2
        = some (MarshalIndent (JVal.obj e), MarshalIndent a.toJVal) := by
    intro entry hmem
    by_cases hek : entry.1 = k
    · rw [hek]
      exact compareEntry_missing e a entry.2 hka
    · left
      simp only [JVal.WF] at hwe
      have hl : lookupKey entry.1 (eraseKey k e) = some entry.2 := by
        rw [lookupKey_eraseKey hek]
        exact lookupKey_of_mem hwe.1 hmem
      obtain ⟨av, hav, hj⟩ := lookup_equiv hrem1.symm hl
      exact compareEntry_same_value hwa (wf_of_mem (k := entry.1) hwe.2 hmem) hav hj
  have hcmp := compareLoop_cases e a _ e hall
  rw [IsEquivalent_ok he ha, if_neg hne]
  have hcm : compareMaps (some e) a = compareLoop e a e := rfl
  rw [hcm]
  rcases hcmp with h | h
  · rw [h, hef, haf]
    simp
  · rw [h, hef, haf]
    split_ifs <;> rfl

theorem fieldsABC_without_C : SameContent recBA (some (eraseKey ['C'] fieldsABC)) :=
  marshalVal_injective (d := 0) (v := JVal.obj recBA.entries)
    (by simp [recBA, Record.entries, JVal.WF, JVal.WFFields, keysOf])
    (by simp [fieldsABC, eraseKey, Record.entries, JVal.WF, JVal.WFFields, keysOf]) rfl

/-- C5, at the documents of the test "item missing": `{"A": "1", "B": "2", "C": "3"}` and
`{"B": "2", "A": "1"}`. -/
theorem missing_top_level_key_witness :
    IsEquivalent (F := NumberText) MapOrder.insertion MapOrder.insertion docABC docBA
      = ⟨MarshalIndent (JVal.obj fieldsABC), MarshalIndent recBA.toJVal, false, none⟩ :=
  missing_top_level_key MapOrder.insertion MapOrder.insertion
      docABC docBA fieldsABC recBA _ _ ['C'] rfl rfl
    (by decide) fieldsABC_without_C

end ClaimsMissingKey

section ClaimsNested

variable {F : Type} [Float64Model F]

/-- Only null is rendered as `null`. -/
theorem marshal_ne_null [LawfulFloat64 F] {v : JVal F} (h : v ≠ JVal.null) :
    MarshalIndent v ≠ MarshalIndent (JVal.null : JVal F) := by
  unfold MarshalIndent
  cases v with
  | null => exact absurd rfl h
  | bool b => cases b <;> simp [marshalVal]
  | num x =>
    obtain ⟨c, l, hl, hc⟩ := scanNumber_head (LawfulFloat64.format_scan x)
    have hn := (numHead_facts hc).2.2.2.2.2.1
    simp only [marshalVal, hl]
    intro he
    injection he with h1 _
    exact hn h1
  | str s => simp [marshalVal, quote]
  | arr xs =>
    obtain ⟨t, ht⟩ := bracket_head '[' ']' 0 (marshalElems (0 + 1) xs)
    simp only [marshalVal, ht]
    intro he
    injection he with h1 _
    exact absurd h1 (by decide)
  | obj kvs =>
    obtain ⟨t, ht⟩ := bracket_head '{' '}' 0
      ((sortMembers (marshalMembers (0 + 1) kvs)).map memberText)
    simp only [marshalVal, ht]
    intro he
    injection he with h1 _
    exact absurd h1 (by decide)

/-- An entry whose expected value is not null and whose key is missing from the actual map
returns the renderings of the two maps. -/
theorem compareEntry_missing_value [LawfulFloat64 F] (eAll : Fields F) (a : Record F)
    {k : Bytes} {ev : JVal F} (hk : k ∉ keysOf a.entries) (hv : ev ≠ JVal.null) :
    compareEntry eAll a (a.index k) ev
      = some (MarshalIndent (JVal.obj eAll), MarshalIndent a.toJVal) := by
  have hidx : a.index k = JVal.null := by rw [Record.index_eq, lookupKey_none hk]; rfl
  rw [hidx]
  have hm := marshal_ne_null hv
  cases ev with
  | null => exact absurd rfl hv
  | obj ec => simp only [compareEntry]
  | bool b => simp only [compareEntry, ne_eq, hm, not_false_eq_true, if_true]
  | num x => simp only [compareEntry, ne_eq, hm, not_false_eq_true, if_true]
  | str s => simp only [compareEntry, ne_eq, hm, not_false_eq_true, if_true]
  | arr xs => simp only [compareEntry, ne_eq, hm, not_false_eq_true, if_true]

/-- A map that lacks one field of the expected map, whose value is not null, and equals it
elsewhere: the walk returns the renderings of the two maps. -/
theorem compareLoop_missing_field [LawfulFloat64 F] {ek ak : Fields F} {x : Bytes}
    {xv : JVal F} (hwe : JVal.WF (JVal.obj ek)) (hwa : JVal.WF (JVal.obj ak))
    (hx : lookupKey x ek = some xv) (hnull : xv ≠ JVal.null)
    (hrem : JEquiv (JVal.obj ak) (JVal.obj (eraseKey x ek))) :
    compareLoop ek (some ak) ek = (MarshalIndent (JVal.obj ek), MarshalIndent (JVal.obj ak)) := by
  have hxa : x ∉ keysOf (Record.entries (some ak)) := by
    intro h
    cases hrem with
    | obj h1 _ => exact (mem_keysOf_eraseKey.1 ((h1 x).1 h)).2 rfl
  have hwe2 := hwe
  simp only [JVal.WF] at hwe2
  apply compareLoop_some
  · intro entry hmem
    by_cases hex : entry.1 = x
    · rw [hex]
      exact compareEntry_missing ek (some ak) entry.2 hxa
    · left
      have hl : lookupKey entry.1 (eraseKey x ek) = some entry.2 := by
        rw [lookupKey_eraseKey hex]
        exact lookupKey_of_mem hwe2.1 hmem
      obtain ⟨av, hav, hj⟩ := lookup_equiv hrem.symm hl
      exact compareEntry_same_value (a := some ak) hwa
        (wf_of_mem (k := entry.1) hwe2.2 hmem) hav hj
  · exact ⟨(x, xv), lookupKey_mem hx, compareEntry_missing_value ek (some ak) hxa hnull⟩

/-- C6 (as amended). Nested divergence scoping: when the Records decoded from the two documents
have structurally equal values at every top-level key except `k`, hold Records at `k`, and the
actual one is the expected one without a field `x` whose value is not null, then for every
iteration order `IsEquivalent` returns `equal = false`, a nil error and the canonical forms of
the two sub-objects at `k`, not of the root objects. -/
theorem nested_divergence_scoping [LawfulFloat64 F] (ordE ordA : MapOrder F)
    (expected actual : Bytes) (e a : Fields F) (ef af : Bytes) (k x : Bytes)
    (ek ak : Fields F) (xv : JVal F)
    (he : FormatJSON ordE expected = Except.ok (some e, ef))
    (ha : FormatJSON ordA actual = Except.ok (some a, af))
    (hother : JEquiv (JVal.obj (eraseKey k e)) (JVal.obj (eraseKey k a)))
    (hek : lookupKey k e = some (JVal.obj ek)) (hak : lookupKey k a = some (JVal.obj ak))
    (hx : lookupKey x ek = some xv) (hnull : xv ≠ JVal.null)
    (hrem : JEquiv (JVal.obj ak) (JVal.obj (eraseKey x ek))) :
    IsEquivalent ordE ordA expected actual
      = ⟨MarshalIndent (JVal.obj ek), MarshalIndent (JVal.obj ak), false, none⟩ := by
  have hwe : JVal.WF (JVal.obj e) := FormatJSON_wf he
  have hwa : JVal.WF (JVal.obj a) := FormatJSON_wf ha
  have hwe2 := hwe
  have hwa2 := hwa
  simp only [JVal.WF] at hwe2 hwa2
  have hwek : JVal.WF (JVal.obj ek) := wf_of_mem hwe2.2 (lookupKey_mem hek)
  have hwak : JVal.WF (JVal.obj ak) := wf_of_mem hwa2.2 (lookupKey_mem hak)
  have hsub := compareLoop_missing_field hwek hwak hx hnull hrem
  have hxa : x ∉ keysOf ak := by
    intro h
    cases hrem with
    | obj h1 _ => exact (mem_keysOf_eraseKey.1 ((h1 x).1 h)).2 rfl
  have hne : ef ≠ af := by
    intro h
    rw [FormatJSON_formatted he, FormatJSON_formatted ha] at h
    have hj : JEquiv (JVal.obj e) (JVal.obj a) := marshalVal_injective hwe hwa h
    obtain ⟨av, hav, hjk⟩ := lookup_equiv hj hek
    rw [hak] at hav
    injection hav with hav
    subst hav
    cases hjk with
    | obj h1 _ => exact hxa ((h1 x).1 (mem_keysOf.2 ⟨xv, lookupKey_mem hx⟩))
  have hidx : Record.index (some a) k = JVal.obj ak := by
    simp [Record.index, hak]
  have hpos : (MarshalIndent (JVal.obj ek)).length + (MarshalIndent (JVal.obj ak)).length > 0 := by
    have := marshal_record_ne_nil (some ek)
    have hl : 0 < (MarshalIndent (JVal.obj ek)).length := List.length_pos.2 this
    omega
  have hentry : compareEntry e (some a) (JVal.obj ak) (JVal.obj ek)
      = some (MarshalIndent (JVal.obj ek), MarshalIndent (JVal.obj ak)) := by
    simp only [compareEntry, hsub, hpos, if_true]
  have hloop : compareLoop e (some a) e
      = (MarshalIndent (JVal.obj ek), MarshalIndent (JVal.obj ak)) := by
    apply compareLoop_some
    · intro entry hmem
      by_cases hkk : entry.1 = k
      · right
        have hv : entry.2 = JVal.obj ek := by
          have h1 := lookupKey_of_mem (k := entry.1) (v := entry.2) hwe2.1 hmem
          rw [hkk, hek] at h1
          exact (Option.some.inj h1).symm
        rw [hkk, hv, hidx]
        exact hentry
      · left
        have hl : lookupKey entry.1 (eraseKey k e) = some entry.2 := by
          rw [lookupKey_eraseKey hkk]
          exact lookupKey_of_mem hwe2.1 hmem
        obtain ⟨av, hav, hj⟩ := lookup_equiv hother hl
        rw [lookupKey_eraseKey hkk] at hav
        exact compareEntry_same_value (a := some a) hwa
          (wf_of_mem (k := entry.1) hwe2.2 hmem) hav hj
    · exact ⟨(k, JVal.obj ek), lookupKey_mem hek, by rw [hidx]; exact hentry⟩
  rw [IsEquivalent_ok he ha, if_neg hne]
  have hcm : compareMaps (some e) (some a) = compareLoop e (some a) e := rfl
  rw [hcm, hloop]
  simp only [hpos, if_true]

end ClaimsNested

section ClaimsNestedExamples

/-- C6, at the documents of the test "sub item missing field": the renderings are those of
`{"FU": 111, "BAR": 222}` and `{"FU": 111}`. -/
theorem nested_divergence_scoping_witness :
    IsEquivalent (F := NumberText) MapOrder.insertion MapOrder.insertion
        docNestedExpected docNestedActual
      = ⟨MarshalIndent (JVal.obj fieldsFuBar), MarshalIndent (JVal.obj fieldsFu), false, none⟩ :=
  nested_divergence_scoping MapOrder.insertion MapOrder.insertion docNestedExpected docNestedActual
    fieldsNestedExpected fieldsNestedActual _ _ ['C'] ['B', 'A', 'R'] fieldsFuBar fieldsFu
    (JVal.num num222) rfl rfl (JEquiv.refl _) rfl rfl rfl (fun h => by cases h) (JEquiv.refl _)

/-- C6 as stated fails: in `{"C": {"X": null, "Y": "1"}}` and `{"C": {"Y": "1"}}` the
sub-object of the actual document is that of the expected one with the field `X` removed, and
`IsEquivalent` returns the canonical forms of the two root objects, not of the sub-objects. -/
theorem nested_null_field_renders_root :
    FormatJSON (F := NumberText) MapOrder.insertion docNullFieldExpected
      = Except.ok (some [(['C'], JVal.obj fieldsXY)],
          MarshalIndent (JVal.obj [(['C'], JVal.obj fieldsXY)])) ∧
    FormatJSON (F := NumberText) MapOrder.insertion docNullFieldActual
      = Except.ok (some [(['C'], JVal.obj fieldsY)],
          MarshalIndent (JVal.obj [(['C'], JVal.obj fieldsY)])) ∧
    eraseKey ['X'] fieldsXY = fieldsY ∧
    IsEquivalent (F := NumberText) MapOrder.insertion MapOrder.insertion
        docNullFieldExpected docNullFieldActual
      = ⟨MarshalIndent (JVal.obj [(['C'], JVal.obj fieldsXY)]),
          MarshalIndent (JVal.obj [(['C'], JVal.obj fieldsY)]), false, none⟩ ∧
    MarshalIndent (JVal.obj [(['C'], JVal.obj fieldsXY)]) ≠ MarshalIndent (JVal.obj fieldsXY) ∧
    MarshalIndent (JVal.obj [(['C'], JVal.obj fieldsY)]) ≠ MarshalIndent (JVal.obj fieldsY) :=
  ⟨rfl, rfl, rfl, rfl, by decide, by decide⟩

end ClaimsNestedExamples

section ClaimsArrayOrder

variable {F : Type} [Float64Model F]

omit [Float64Model F] in
theorem equiv_arr_get : ∀ (xs ys : List (JVal F)) (i : Nat) {x y : JVal F},
    JEquiv (JVal.arr xs) (JVal.arr ys) → xs[i]? = some x → ys[i]? = some y → JEquiv x y
  | [], _, _, _, _, _, h1, _ => by simp at h1
  | _ :: _, [], _, _, _, h, _, _ => by cases h
  | x1 :: xs, y1 :: ys, 0, x, y, h, h1, h2 => by
    simp only [List.getElem?_cons_zero, Option.some.injEq] at h1 h2
    subst h1 h2
    cases h with
    | arrCons g1 _ => exact g1
  | x1 :: xs, y1 :: ys, i + 1, x, y, h, h1, h2 => by
    simp only [List.getElem?_cons_succ] at h1 h2
    cases h with
    | arrCons _ g2 => exact equiv_arr_get xs ys i g2 h1 h2

omit [Float64Model F] in
theorem seqEq_get {s t : RecordSeq F} (h : SeqEq s t) {i : Nat} {r1 r2 : Record F}
    (h1 : s.elems[i]? = some r1) (h2 : t.elems[i]? = some r2) : RecEq r1 r2 := by
  cases s with
  | none => simp [RecordSeq.elems] at h1
  | some rs =>
    cases t with
    | none => simp [RecordSeq.elems] at h2
    | some ts =>
      simp only [RecordSeq.elems] at h1 h2
      exact equiv_arr_get (rs.map Record.toJVal) (ts.map Record.toJVal) i h
        (by simp [h1]) (by simp [h2])

/-- C7. Array order sensitivity: when some position of the two decoded Record Sequences holds
structurally different Records, as it does when the actual sequence is a reordering of the
expected one that differs from it as a sequence, `IsEquivalentArray` returns `equal = false`
with a nil error. -/
theorem array_order_sensitivity [LawfulFloat64 F] (ordE ordA : MapOrder F) (expected actual : Bytes)
    (s t : RecordSeq F) (sf tf : Bytes) (i : Nat) (r1 r2 : Record F)
    (hs : FormatArrayJSON ordE expected = Except.ok (s, sf))
    (ht : FormatArrayJSON ordA actual = Except.ok (t, tf))
    (h1 : s.elems[i]? = some r1) (h2 : t.elems[i]? = some r2) (hdiff : ¬ RecEq r1 r2) :
    (IsEquivalentArray ordE ordA expected actual).same = false ∧
      (IsEquivalentArray ordE ordA expected actual).err = none := by
  have hsf : sf = MarshalIndent s.toJVal := by
    rcases FormatArrayJSON_formatted hs with ⟨_, hm, _⟩ | ⟨_, h⟩
    · subst hm; simp [RecordSeq.elems] at h1
    · exact h
  have htf : tf = MarshalIndent t.toJVal := by
    rcases FormatArrayJSON_formatted ht with ⟨_, hm, _⟩ | ⟨_, h⟩
    · subst hm; simp [RecordSeq.elems] at h2
    · exact h
  have hne : sf ≠ tf := by
    intro h
    rw [hsf, htf] at h
    exact hdiff (seqEq_get (marshalVal_injective (FormatArrayJSON_wf hs)
      (FormatArrayJSON_wf ht) h) h1 h2)
  rw [IsEquivalentArray_ok hs ht, if_neg hne]
  split_ifs <;> exact ⟨rfl, rfl⟩

theorem recA1_ne_recC2 : ¬ RecEq recA1 recC2 := by
  intro h
  cases h with
  | obj hk _ => exact absurd ((hk ['a']).1 (by decide)) (by decide)

/-- C7, at the documents of the test "array order matters". -/
theorem array_order_sensitivity_witness :
    (IsEquivalentArray (F := NumberText) MapOrder.insertion MapOrder.insertion docArrayExpected
      docArrayActual).same = false ∧
    (IsEquivalentArray (F := NumberText) MapOrder.insertion MapOrder.insertion docArrayExpected
      docArrayActual).err = none :=
  array_order_sensitivity MapOrder.insertion MapOrder.insertion docArrayExpected docArrayActual
    (some [recA1, recC2]) (some [recC2, recA1Swapped]) _ _ 0 recA1 recC2 rfl rfl rfl rfl
    recA1_ne_recC2

end ClaimsArrayOrder

section ClaimsOrderIndependence

variable {F : Type} [Float64Model F]

/-- The document whose members `decodeMembers` lists is decoded to the map built from them. -/
theorem decodeJSON_of_members {src : Bytes} {ms : List (Bytes × JVal F)}
    (h : decodeMembers src = Except.ok ms) :
    decodeJSON src = Except.ok (JVal.obj (buildMap ms)) := by
  unfold decodeMembers at h
  unfold decodeJSON
  have hmax : maxNestingDepth = (maxNestingDepth - 1) + 1 := rfl
  rw [hmax]
  split at h
  · exact absurd h (by simp)
  · rename_i c rest hsrc
    rw [hsrc]
    split at h
    · rename_i hc
      subst hc
      simp only [parseValue, if_true]
      split at h
      · exact absurd h (by simp)
      · rename_i c1 rest1 hrest
        split at h
        · rename_i hc1
          simp only [if_pos hc1]
          split at h
          · rename_i hout
            injection h with h
            subst h
            rfl
          · exact absurd h (by simp)
        · rename_i hc1
          simp only [if_neg hc1]
          split at h
          · rename_i ms1 out hp
            split at h
            · rename_i hout
              injection h with h
              subst h
              simp only [hout]
            · exact absurd h (by simp)
          · exact absurd h (by simp)
    · exact absurd h (by simp)

omit [Float64Model F] in
theorem equiv_of_perm {ms ms1 : Fields F} (hp : ms.Perm ms1) (hn : (keysOf ms).Nodup) :
    JEquiv (JVal.obj ms) (JVal.obj ms1) := by
  have hn1 : (keysOf ms1).Nodup := (hp.map Prod.fst).nodup_iff.1 hn
  refine JEquiv.obj (fun k => (hp.map Prod.fst).mem_iff) (fun k v w hv hw => ?_)
  have h1 := lookupKey_of_mem hn1 (hp.subset (lookupKey_mem hv))
  rw [hw] at h1
  injection h1 with h1
  subst h1
  exact JEquiv.refl _

/-- C2 (as amended). Order independence: when the member names of the object in the document
`a` are pairwise distinct and the document `b` holds the same members in another order (and
with other white space), `IsEquivalent(a, b)` returns `equal = true`, a nil error and two empty
renderings, for every iteration order. -/
theorem order_independence (ordE ordA : MapOrder F) (a b : Bytes) (ms ms1 : List (Bytes × JVal F))
    (ha : decodeMembers a = Except.ok ms) (hb : decodeMembers b = Except.ok ms1)
    (hp : ms.Perm ms1) (hn : (keysOf ms).Nodup) :
    IsEquivalent ordE ordA a b = ⟨[], [], true, none⟩ := by
  have hn1 : (keysOf ms1).Nodup := (hp.map Prod.fst).nodup_iff.1 hn
  have hda := decodeJSON_of_members ha
  have hdb := decodeJSON_of_members hb
  rw [buildMap_nodup hn] at hda
  rw [buildMap_nodup hn1] at hdb
  have hwa := (decodeJSON_sound hda).1
  have hwb := (decodeJSON_sound hdb).1
  obtain ⟨r, hr⟩ := record_shape (r := some ms) (ordE.arrange_equiv (JVal.obj ms) hwa)
  obtain ⟨r1, hr1⟩ := record_shape (r := some ms1) (ordA.arrange_equiv (JVal.obj ms1) hwb)
  have hfa := FormatJSON_of_decode ordE hda hr
  have hfb := FormatJSON_of_decode ordA hdb hr1
  have heq : RecEq r r1 := by
    show JEquiv r.toJVal r1.toJVal
    rw [hr, hr1]
    exact ((ordE.arrange_equiv _ hwa).trans (equiv_of_perm hp hn)).trans
      (ordA.arrange_equiv _ hwb).symm
  rw [IsEquivalent_ok hfa hfb, if_pos (FormatJSON_bytes_eq hfa hfb heq)]

/-- C2, at the documents of the test "same but different order", `{"A": "1", "B": "2"}` and
`{"B": "2", "A": "1"}`. -/
theorem order_independence_witness :
    IsEquivalent (F := NumberText) MapOrder.insertion MapOrder.sorted docAB docBA
      = ⟨[], [], true, none⟩ :=
  order_independence MapOrder.insertion MapOrder.sorted docAB docBA
    [(['A'], JVal.str ['1']), (['B'], JVal.str ['2'])]
    [(['B'], JVal.str ['2']), (['A'], JVal.str ['1'])] rfl rfl (List.Perm.swap _ _ _)
    (by decide)

/-- C2 as stated fails: `{"a": "2", "a": "1"}` holds the members of `{"a": "1", "a": "2"}` in
the other order, both are valid JSON objects, and `IsEquivalent` reports them as different: of
a repeated name the decoder keeps the last value. -/
theorem repeated_name_order_matters :
    decodeMembers (F := NumberText) docRepeated
      = Except.ok [(['a'], JVal.str ['1']), (['a'], JVal.str ['2'])] ∧
    decodeMembers (F := NumberText) docRepeatedSwapped
      = Except.ok [(['a'], JVal.str ['2']), (['a'], JVal.str ['1'])] ∧
    List.Perm [((['a'] : Bytes), (JVal.str ['1'] : JVal NumberText)), (['a'], JVal.str ['2'])]
      [(['a'], JVal.str ['2']), (['a'], JVal.str ['1'])] ∧
    IsEquivalent (F := NumberText) MapOrder.insertion MapOrder.insertion
        docRepeated docRepeatedSwapped
      = ⟨MarshalIndent (JVal.obj [(['a'], (JVal.str ['2'] : JVal NumberText))]),
          MarshalIndent (JVal.obj [(['a'], (JVal.str ['1'] : JVal NumberText))]), false, none⟩ :=
  ⟨rfl, rfl, List.Perm.swap _ _ _, rfl⟩

end ClaimsOrderIndependence

section StepBudget

theorem skipSpace_length_le : ∀ s : Bytes, (skipSpace s).length ≤ s.length
  | [] => Nat.le_refl _
  | c :: cs => by
    simp only [skipSpace]
    split_ifs
    · exact Nat.le_succ_of_le (skipSpace_length_le cs)
    · exact Nat.le_refl _

theorem expectText_length_le : ∀ (ks s out : Bytes), expectText ks s = some out →
    out.length ≤ s.length
  | [], s, out, h => by
    simp only [expectText, Option.some.injEq] at h
    rw [h]
  | _ :: _, [], out, h => by simp [expectText] at h
  | k :: ks, c :: cs, out, h => by
    simp only [expectText] at h
    split_ifs at h
    exact Nat.le_succ_of_le (expectText_length_le ks cs out h)

theorem scanNumber_length_le : ∀ (s : Bytes) (st : NumState) (lit out : Bytes),
    scanNumber st s = some (lit, out) → out.length ≤ s.length
  | [], st, lit, out, h => by
    simp only [scanNumber] at h
    split_ifs at h
    simp only [Option.some.injEq, Prod.mk.injEq] at h
    rw [← h.2]
  | c :: cs, st, lit, out, h => by
    simp only [scanNumber] at h
    cases hs : numStep st c with
    | none =>
      simp only [hs] at h
      split_ifs at h
      simp only [Option.some.injEq, Prod.mk.injEq] at h
      rw [← h.2]
    | some st1 =>
      simp only [hs] at h
      cases hr : scanNumber st1 cs with
      | none => simp [hr] at h
      | some p =>
        obtain ⟨lit1, out1⟩ := p
        simp only [hr, Option.some.injEq, Prod.mk.injEq] at h
        rw [← h.2]
        exact Nat.le_succ_of_le (scanNumber_length_le cs st1 lit1 out1 hr)

theorem unescapeU_length_le (r : Nat) (rest : Bytes) :
    (unescapeU r rest).2.length ≤ rest.length := by
  unfold unescapeU
  split_ifs
  · split
    · split_ifs
      · split
        · split
          · simp only [List.length_cons]; omega
          · exact Nat.le_refl _
        · exact Nat.le_refl _
      · exact Nat.le_refl _
    · exact Nat.le_refl _
  · exact Nat.le_refl _

/-- Every step inside a string literal uses at least one character. -/
theorem stringStep_length_lt {s : Bytes} {r : Option Char} {out : Bytes}
    (h : stringStep s = some (r, out)) : out.length < s.length := by
  cases s with
  | nil => simp [stringStep] at h
  | cons c rest =>
    simp only [stringStep] at h
    split_ifs at h with h1 h2 h3
    · simp only [Option.some.injEq, Prod.mk.injEq] at h
      rw [← h.2]; exact Nat.lt_succ_self _
    · split at h
      · exact absurd h (by simp)
      · rename_i e rest1
        split_ifs at h
        · split at h
          · rename_i a b c1 d rest2
            split at h
            · exact absurd h (by simp)
            · rename_i r1 hr
              simp only [Option.some.injEq, Prod.mk.injEq] at h
              rw [← h.2]
              have := unescapeU_length_le r1 rest2
              simp only [List.length_cons]
              omega
          · exact absurd h (by simp)
        · split at h
          · exact absurd h (by simp)
          · simp only [Option.some.injEq, Prod.mk.injEq] at h
            rw [← h.2]
            simp only [List.length_cons]
            omega
    · simp only [Option.some.injEq, Prod.mk.injEq] at h
      rw [← h.2]; exact Nat.lt_succ_self _

/-- The number of steps allowed inside a string literal is never what makes decoding fail:
any budget of at least the length of the input gives the same result. -/
theorem parseStringBody_budget : ∀ (fuel : Nat) (s : Bytes), s.length ≤ fuel →
    parseStringBody fuel s = parseStringBody s.length s
  | 0, s, h => by
    have : s.length = 0 := Nat.le_zero.1 h
    rw [this]
  | fuel + 1, s, h => by
    cases s with
    | nil => simp [parseStringBody, stringStep]
    | cons c rest =>
      simp only [List.length_cons, parseStringBody]
      cases hs : stringStep (c :: rest) with
      | none => rfl
      | some p =>
        obtain ⟨r, out⟩ := p
        cases r with
        | none => rfl
        | some ch =>
          have hlt := stringStep_length_lt hs
          simp only [List.length_cons] at hlt h
          simp only []
          rw [parseStringBody_budget fuel out (by omega),
            parseStringBody_budget rest.length out (by omega)]

theorem parseStringBody_length_lt : ∀ (fuel : Nat) (s str out : Bytes),
    parseStringBody fuel s = some (str, out) → out.length < s.length
  | 0, s, str, out, h => by simp [parseStringBody] at h
  | fuel + 1, s, str, out, h => by
    simp only [parseStringBody] at h
    cases hs : stringStep s with
    | none => simp [hs] at h
    | some p =>
      obtain ⟨r, out1⟩ := p
      have hlt := stringStep_length_lt hs
      cases r with
      | none =>
        simp only [hs, Option.some.injEq, Prod.mk.injEq] at h
        rw [← h.2]; exact hlt
      | some ch =>
        simp only [hs] at h
        cases hp : parseStringBody fuel out1 with
        | none => simp [hp, consChar] at h
        | some q =>
          obtain ⟨s1, out2⟩ := q
          simp only [hp, consChar, Option.some.injEq, Prod.mk.injEq] at h
          rw [← h.2]
          exact Nat.lt_trans (parseStringBody_length_lt fuel out1 s1 out2 hp) hlt

theorem parseString_length_lt {s str out : Bytes} (h : parseString s = some (str, out)) :
    out.length < s.length :=
  parseStringBody_length_lt _ s str out h

end StepBudget

section DecoderBudget

variable {F : Type} [Float64Model F]

/-- The step budget of the decoder is never what makes it fail, and every value it reads uses
at least one character. -/
theorem parse_budget : ∀ fuel : Nat,
    (∀ (b : Nat) (s : Bytes), 2 * s.length + 1 ≤ fuel →
      parseValue (F := F) fuel b s ≠ Except.error DecodeError.exhausted ∧
      ∀ v rest, parseValue (F := F) fuel b s = Except.ok (v, rest) → rest.length < s.length) ∧
    (∀ (b : Nat) (s : Bytes), 2 * s.length + 2 ≤ fuel →
      parseElems (F := F) fuel b s ≠ Except.error DecodeError.exhausted ∧
      ∀ xs rest, parseElems (F := F) fuel b s = Except.ok (xs, rest) →
        rest.length < s.length) ∧
    (∀ (b : Nat) (s : Bytes), 2 * s.length + 2 ≤ fuel →
      parseMembers (F := F) fuel b s ≠ Except.error DecodeError.exhausted ∧
      ∀ ms rest, parseMembers (F := F) fuel b s = Except.ok (ms, rest) →
        rest.length < s.length)
  | 0 => by
    refine ⟨?_, ?_, ?_⟩ <;> intro b s h <;> omega
  | f + 1 => by
    obtain ⟨ihV, ihE, ihM⟩ := parse_budget f
    refine ⟨?_, ?_, ?_⟩
    · intro b s hf
      cases s with
      | nil => simp [parseValue]
      | cons c rest =>
        simp only [List.length_cons] at hf
        have hsk := skipSpace_length_le rest
        simp only [parseValue]
        by_cases h1 : c = '{'
        · simp only [if_pos h1]
          cases b with
          | zero => simp
          | succ d =>
            simp only []
            cases hs : skipSpace rest with
            | nil => simp
            | cons c1 rest1 =>
              rw [hs] at hsk
              simp only [List.length_cons] at hsk
              simp only []
              by_cases h2 : c1 = '}'
              · simp only [if_pos h2]
                refine ⟨by simp, fun v r h => ?_⟩
                injection h with h; injection h with _ h
                rw [← h]; simp only [List.length_cons]; omega
              · simp only [if_neg h2]
                obtain ⟨hne, hlt⟩ := ihM d (c1 :: rest1) (by simp only [List.length_cons]; omega)
                cases hp : parseMembers (F := F) f d (c1 :: rest1) with
                | error e =>
                  refine ⟨fun h => ?_, fun v r h => by simp at h⟩
                  injection h with h
                  exact hne (by rw [hp, h])
                | ok p =>
                  obtain ⟨ms, out⟩ := p
                  refine ⟨by simp, fun v r h => ?_⟩
                  injection h with h; injection h with _ h
                  have := hlt ms out hp
                  rw [← h]; simp only [List.length_cons] at this ⊢; omega
        · simp only [if_neg h1]
          by_cases h2 : c = '['
          · simp only [if_pos h2]
            cases b with
            | zero => simp
            | succ d =>
              simp only []
              cases hs : skipSpace rest with
              | nil => simp
              | cons c1 rest1 =>
                rw [hs] at hsk
                simp only [List.length_cons] at hsk
                simp only []
                by_cases h3 : c1 = ']'
                · simp only [if_pos h3]
                  refine ⟨by simp, fun v r h => ?_⟩
                  injection h with h; injection h with _ h
                  rw [← h]; simp only [List.length_cons]; omega
                · simp only [if_neg h3]
                  obtain ⟨hne, hlt⟩ := ihE d (c1 :: rest1)
                    (by simp only [List.length_cons]; omega)
                  cases hp : parseElems (F := F) f d (c1 :: rest1) with
                  | error e =>
                    refine ⟨fun h => ?_, fun v r h => by simp at h⟩
                    injection h with h
                    exact hne (by rw [hp, h])
                  | ok p =>
                    obtain ⟨xs, out⟩ := p
                    refine ⟨by simp, fun v r h => ?_⟩
                    injection h with h; injection h with _ h
                    have := hlt xs out hp
                    rw [← h]; simp only [List.length_cons] at this ⊢; omega
          · simp only [if_neg h2]
            by_cases h3 : c = '"'
            · simp only [if_pos h3]
              cases hp : parseString rest with
              | none => simp
              | some p =>
                obtain ⟨str, out⟩ := p
                refine ⟨by simp, fun v r h => ?_⟩
                injection h with h; injection h with _ h
                have := parseString_length_lt hp
                rw [← h]; simp only [List.length_cons]; omega
            · simp only [if_neg h3]
              by_cases h4 : c = 't'
              · simp only [if_pos h4]
                cases hp : expectText ['r', 'u', 'e'] rest with
                | none => simp
                | some out =>
                  refine ⟨by simp, fun v r h => ?_⟩
                  injection h with h; injection h with _ h
                  have := expectText_length_le _ _ _ hp
                  rw [← h]; simp only [List.length_cons]; omega
              · simp only [if_neg h4]
                by_cases h5 : c = 'f'
                · simp only [if_pos h5]
                  cases hp : expectText ['a', 'l', 's', 'e'] rest with
                  | none => simp
                  | some out =>
                    refine ⟨by simp, fun v r h => ?_⟩
                    injection h with h; injection h with _ h
                    have := expectText_length_le _ _ _ hp
                    rw [← h]; simp only [List.length_cons]; omega
                · simp only [if_neg h5]
                  by_cases h6 : c = 'n'
                  · simp only [if_pos h6]
                    cases hp : expectText ['u', 'l', 'l'] rest with
                    | none => simp
                    | some out =>
                      refine ⟨by simp, fun v r h => ?_⟩
                      injection h with h; injection h with _ h
                      have := expectText_length_le _ _ _ hp
                      rw [← h]; simp only [List.length_cons]; omega
                  · simp only [if_neg h6]
                    cases hp : scanNumber NumState.start (c :: rest) with
                    | none => simp
                    | some p =>
                      obtain ⟨lit, out⟩ := p
                      simp only []
                      have hlen : out.length < (c :: rest).length := by
                        simp only [scanNumber] at hp
                        cases hst : numStep NumState.start c with
                        | none => simp [hst, numFinal] at hp
                        | some st1 =>
                          simp only [hst] at hp
                          cases hr : scanNumber st1 rest with
                          | none => simp [hr] at hp
                          | some q =>
                            obtain ⟨l1, o1⟩ := q
                            simp only [hr, Option.some.injEq, Prod.mk.injEq] at hp
                            have := scanNumber_length_le rest st1 l1 o1 hr
                            rw [← hp.2]; simp only [List.length_cons]; omega
                      cases hx : Float64Model.parseFloat (F := F) lit with
                      | none => simp
                      | some x =>
                        refine ⟨by simp, fun v r h => ?_⟩
                        injection h with h; injection h with _ h
                        rw [← h]; exact hlen
    · intro b s hf
      simp only [parseElems]
      obtain ⟨hne, hlt⟩ := ihV b s (by omega)
      cases hp : parseValue (F := F) f b s with
      | error e =>
        refine ⟨fun h => ?_, fun v r h => by simp at h⟩
        injection h with h
        exact hne (by rw [hp, h])
      | ok p =>
        obtain ⟨v, rest⟩ := p
        have h1 := hlt v rest hp
        have hsk := skipSpace_length_le rest
        simp only []
        cases hs : skipSpace rest with
        | nil => simp
        | cons c rest1 =>
          rw [hs] at hsk
          simp only [List.length_cons] at hsk
          simp only []
          by_cases h2 : c = ','
          · simp only [if_pos h2]
            have hsk2 := skipSpace_length_le rest1
            obtain ⟨hne2, hlt2⟩ := ihE b (skipSpace rest1) (by omega)
            cases hq : parseElems (F := F) f b (skipSpace rest1) with
            | error e =>
              refine ⟨fun h => ?_, fun v r h => by simp at h⟩
              injection h with h
              exact hne2 (by rw [hq, h])
            | ok q =>
              obtain ⟨vs, out⟩ := q
              refine ⟨by simp, fun xs r h => ?_⟩
              injection h with h; injection h with _ h
              have := hlt2 vs out hq
              rw [← h]; omega
          · simp only [if_neg h2]
            by_cases h3 : c = ']'
            · simp only [if_pos h3]
              refine ⟨by simp, fun xs r h => ?_⟩
              injection h with h; injection h with _ h
              rw [← h]; omega
            · simp [h3]
    · intro b s hf
      cases s with
      | nil => simp [parseMembers]
      | cons q afterQuote =>
        simp only [List.length_cons] at hf
        simp only [parseMembers]
        by_cases h1 : q = '"'
        · simp only [if_pos h1]
          cases hk : parseString afterQuote with
          | none => simp
          | some p =>
            obtain ⟨key, afterKey⟩ := p
            have hkl := parseString_length_lt hk
            have hsk := skipSpace_length_le afterKey
            simp only []
            cases hs : skipSpace afterKey with
            | nil => simp
            | cons colon afterColon =>
              rw [hs] at hsk
              simp only [List.length_cons] at hsk
              simp only []
              by_cases h2 : colon = ':'
              · simp only [if_pos h2]
                have hsk2 := skipSpace_length_le afterColon
                obtain ⟨hne, hlt⟩ := ihV b (skipSpace afterColon) (by omega)
                cases hp : parseValue (F := F) f b (skipSpace afterColon) with
                | error e =>
                  refine ⟨fun h => ?_, fun v r h => by simp at h⟩
                  injection h with h
                  exact hne (by rw [hp, h])
                | ok p =>
                  obtain ⟨v, rest⟩ := p
                  have h3 := hlt v rest hp
                  have hsk3 := skipSpace_length_le rest
                  simp only []
                  cases hs2 : skipSpace rest with
                  | nil => simp
                  | cons c rest1 =>
                    rw [hs2] at hsk3
                    simp only [List.length_cons] at hsk3
                    simp only []
                    by_cases h4 : c = ','
                    · simp only [if_pos h4]
                      have hsk4 := skipSpace_length_le rest1
                      obtain ⟨hne2, hlt2⟩ := ihM b (skipSpace rest1) (by omega)
                      cases hq : parseMembers (F := F) f b (skipSpace rest1) with
                      | error e =>
                        refine ⟨fun h => ?_, fun v r h => by simp at h⟩
                        injection h with h
                        exact hne2 (by rw [hq, h])
                      | ok q =>
                        obtain ⟨ms, out⟩ := q
                        refine ⟨by simp, fun xs r h => ?_⟩
                        injection h with h; injection h with _ h
                        have := hlt2 ms out hq
                        rw [← h]; simp only [List.length_cons]; omega
                    · simp only [if_neg h4]
                      by_cases h5 : c = '}'
                      · simp only [if_pos h5]
                        refine ⟨by simp, fun xs r h => ?_⟩
                        injection h with h; injection h with _ h
                        rw [← h]; simp only [List.length_cons]; omega
                      · simp [h5]
              · simp [h2]
        · simp [h1]

/-- Decoding a document never stops for lack of steps: a failure of `decodeJSON` is a failure
of the decoder it embeds. -/
theorem decodeJSON_not_exhausted (src : Bytes) :
    decodeJSON (F := F) src ≠ Except.error DecodeError.exhausted := by
  unfold decodeJSON
  have hsk := skipSpace_length_le src
  obtain ⟨hne, _⟩ := (parse_budget (F := F) (2 * src.length + 1)).1 maxNestingDepth
    (skipSpace src) (by omega)
  cases hp : parseValue (F := F) (2 * src.length + 1) maxNestingDepth (skipSpace src) with
  | error e =>
    intro h
    injection h with h
    exact hne (by rw [hp, h])
  | ok p =>
    obtain ⟨v, rest⟩ := p
    simp only []
    split <;> simp

end DecoderBudget

section ClaimsLengthMismatch

variable {F : Type} [Float64Model F]

omit [Float64Model F] in
theorem equiv_arr_length : ∀ (xs ys : List (JVal F)),
    JEquiv (JVal.arr xs) (JVal.arr ys) → xs.length = ys.length
  | [], ys, h => by cases h; rfl
  | x :: xs, ys, h => by
    cases h with
    | arrCons h1 h2 =>
      simp only [List.length_cons]
      rw [equiv_arr_length xs _ h2]

omit [Float64Model F] in
theorem seqEq_len {s t : RecordSeq F} (h : SeqEq s t) : s.len = t.len := by
  cases s with
  | none =>
    cases t with
    | none => rfl
    | some ts =>
      have h1 : JEquiv (JVal.null : JVal F) (JVal.arr (ts.map Record.toJVal)) := h
      generalize ts.map Record.toJVal = xs at h1
      cases h1
  | some rs =>
    cases t with
    | none =>
      have h1 : JEquiv (JVal.arr (rs.map Record.toJVal)) (JVal.null : JVal F) := h
      generalize rs.map Record.toJVal = xs at h1
      cases h1
    | some ts =>
      have := equiv_arr_length _ _ h
      simpa [RecordSeq.len] using this

/-- C11. Length mismatch: whenever `FormatArrayJSON` decodes the two inputs to Record Sequences
of different lengths, `IsEquivalentArray` returns `equal = false`, a nil error and two empty
renderings. -/
theorem length_mismatch [LawfulFloat64 F] (ordE ordA : MapOrder F) (expected actual : Bytes)
    (s t : RecordSeq F) (sf tf : Bytes)
    (hs : FormatArrayJSON ordE expected = Except.ok (s, sf))
    (ht : FormatArrayJSON ordA actual = Except.ok (t, tf)) (hlen : s.len ≠ t.len) :
    IsEquivalentArray ordE ordA expected actual = ⟨[], [], false, none⟩ := by
  have hne : sf ≠ tf := by
    intro h
    rcases FormatArrayJSON_formatted hs with ⟨_, h1, h2⟩ | ⟨_, h2⟩
    · rcases FormatArrayJSON_formatted ht with ⟨_, h3, _⟩ | ⟨_, h4⟩
      · exact hlen (by rw [h1, h3])
      · exact marshal_seq_ne_nil t (by rw [← h4, ← h, h2])
    · rcases FormatArrayJSON_formatted ht with ⟨_, _, h4⟩ | ⟨_, h4⟩
      · exact marshal_seq_ne_nil s (by rw [← h2, h, h4])
      · rw [h2, h4] at h
        exact hlen (seqEq_len
          (marshalVal_injective (FormatArrayJSON_wf hs) (FormatArrayJSON_wf ht) h))
  rw [IsEquivalentArray_ok hs ht, if_neg hne, if_pos hlen]

/-- C11, at the arrays `[{"a":1,"b":"test"}]` and `[{"a":1,"b":"test"}, {"c":2, "d":"bla"}]`,
of lengths 1 and 2. -/
theorem length_mismatch_witness :
    IsEquivalentArray (F := NumberText) MapOrder.insertion MapOrder.sorted
        docArraySingle docArrayExpected = ⟨[], [], false, none⟩ :=
  length_mismatch MapOrder.insertion MapOrder.sorted docArraySingle docArrayExpected
    (some [recA1]) (some [recA1, recC2]) _ _ rfl rfl (by decide)

end ClaimsLengthMismatch

section ClaimsLastIndex

variable {F : Type} [Float64Model F]

/-- The element loop ends with the result of the structural comparator on the last pair. -/
theorem compareElements_last : ∀ (es as : List (Record F)) (acc : Bytes × Bytes)
    {e1 a1 : Record F}, es.length = as.length →
    es[es.length - 1]? = some e1 → as[as.length - 1]? = some a1 →
    compareElements es as acc = compareMaps e1 a1
  | [], _, _, _, _, _, h, _ => by simp at h
  | [e], [a], acc, e1, a1, _, he, ha => by
    simp at he ha
    subst he ha
    simp [compareElements]
  | [e], [], _, _, _, hl, _, _ => by simp at hl
  | [e], a :: b :: as, _, _, _, hl, _, _ => by simp at hl
  | e :: e2 :: es, [], _, _, _, hl, _, _ => by simp at hl
  | e :: e2 :: es, a :: as, acc, e1, a1, hl, he, ha => by
    rw [compareElements]
    have hl1 : (e2 :: es).length = as.length := by simpa using hl
    cases as with
    | nil => simp at hl1
    | cons a2 as =>
      refine compareElements_last (e2 :: es) (a2 :: as) _ hl1 ?_ ?_
      · simpa using he
      · simpa using ha

/-- C12. Last index wins: for inputs decoded to Record Sequences of the same length whose
canonical bytes differ, with last elements `e1` and `a1`, `IsEquivalentArray` returns
`equal = false`, a nil error, and as renderings the result of `compareMaps(e1, a1)` when that
is a divergence, and otherwise the canonical bytes of the two whole sequences; what
`compareMaps` returned at an earlier index plays no part. -/
theorem last_index_wins (ordE ordA : MapOrder F) (expected actual : Bytes)
    (s t : RecordSeq F) (sf tf : Bytes) (e1 a1 : Record F)
    (hs : FormatArrayJSON ordE expected = Except.ok (s, sf))
    (ht : FormatArrayJSON ordA actual = Except.ok (t, tf))
    (hlen : s.len = t.len) (hne : sf ≠ tf)
    (he : s.elems[s.len - 1]? = some e1) (ha : t.elems[t.len - 1]? = some a1) :
    IsEquivalentArray ordE ordA expected actual =
      if (compareMaps e1 a1).1.length + (compareMaps e1 a1).2.length > 0 then
        ⟨(compareMaps e1 a1).1, (compareMaps e1 a1).2, false, none⟩
      else ⟨sf, tf, false, none⟩ := by
  have hl : s.elems.length = t.elems.length := by
    cases s <;> cases t <;> exact hlen
  have he1 : s.elems[s.elems.length - 1]? = some e1 := by
    cases s with
    | none => simp [RecordSeq.len, RecordSeq.elems] at he
    | some rs => exact he
  have ha1 : t.elems[t.elems.length - 1]? = some a1 := by
    cases t with
    | none => simp [RecordSeq.len, RecordSeq.elems] at ha
    | some ts => exact ha
  rw [IsEquivalentArray_ok hs ht, if_neg hne, if_neg (not_not.2 hlen),
    compareElements_last _ _ _ hl he1 ha1]

/-- C12, at the arrays `[{"a":1}, {"c":2}]` and `[{"a":2}, {"c":2}]`: the divergence of the
first pair is not returned; the last pair is equal, so the whole sequences are rendered. -/
theorem last_index_wins_witness :
    compareMaps (F := NumberText) (some [(['a'], JVal.num num1)]) (some [(['a'], JVal.num num2)])
        ≠ ([], []) ∧
      IsEquivalentArray (F := NumberText) MapOrder.insertion MapOrder.insertion
        docFirstDiffersExpected docFirstDiffersActual
        = ⟨MarshalIndent seqFirstDiffersExpected.toJVal,
            MarshalIndent seqFirstDiffersActual.toJVal, false, none⟩ :=
  ⟨by decide,
    Eq.trans
      (last_index_wins MapOrder.insertion MapOrder.insertion docFirstDiffersExpected
        docFirstDiffersActual seqFirstDiffersExpected seqFirstDiffersActual
        (MarshalIndent seqFirstDiffersExpected.toJVal)
        (MarshalIndent seqFirstDiffersActual.toJVal)
        (some [(['c'], JVal.num num2)]) (some [(['c'], JVal.num num2)])
        (show FormatArrayJSON MapOrder.insertion docFirstDiffersExpected = _ from rfl)
        (show FormatArrayJSON MapOrder.insertion docFirstDiffersActual = _ from rfl)
        rfl (by decide) rfl rfl)
      rfl⟩

end ClaimsLastIndex

section CompareEntries

variable {F : Type} [Float64Model F]

/-- What an entry returns is never a pair of empty strings. -/
theorem compareEntry_some_pos {eAll : Fields F} {a : Record F} {av ev : JVal F}
    {out : Bytes × Bytes} (h : compareEntry eAll a av ev = some out) :
    0 < out.1.length + out.2.length := by
  have hwhole : 0 < (MarshalIndent (JVal.obj eAll)).length
      + (MarshalIndent a.toJVal).length := by
    have := List.length_pos.2 (marshal_record_ne_nil (some eAll))
    simp only [Record.toJVal] at this
    omega
  cases ev with
  | obj ec =>
    cases av with
    | obj ac =>
      simp only [compareEntry] at h
      split_ifs at h with h1 h2
      · injection h with h; subst h; exact h1
      · injection h with h; subst h; exact hwhole
    | null => simp only [compareEntry] at h; injection h with h; subst h; exact hwhole
    | bool b => simp only [compareEntry] at h; injection h with h; subst h; exact hwhole
    | num n => simp only [compareEntry] at h; injection h with h; subst h; exact hwhole
    | str s => simp only [compareEntry] at h; injection h with h; subst h; exact hwhole
    | arr xs => simp only [compareEntry] at h; injection h with h; subst h; exact hwhole
  | null =>
    simp only [compareEntry] at h
    split_ifs at h
    injection h with h; subst h; exact hwhole
  | bool b =>
    simp only [compareEntry] at h
    split_ifs at h
    injection h with h; subst h; exact hwhole
  | num n =>
    simp only [compareEntry] at h
    split_ifs at h
    injection h with h; subst h; exact hwhole
  | str s =>
    simp only [compareEntry] at h
    split_ifs at h
    injection h with h; subst h; exact hwhole
  | arr xs =>
    simp only [compareEntry] at h
    split_ifs at h
    injection h with h; subst h; exact hwhole

/-- The loop reports no divergence exactly when every entry it visits passes. -/
theorem compareLoop_eq_nil_iff (eAll : Fields F) (a : Record F) : ∀ todo : Fields F,
    compareLoop eAll a todo = ([], []) ↔
      ∀ entry ∈ todo, compareEntry eAll a (a.index entry.1) entry.2 = none
  | [] => by simp [compareLoop]
  | (k, v) :: rest => by
    constructor
    · intro h entry hmem
      cases hc : compareEntry eAll a (a.index k) v with
      | some out =>
        simp only [compareLoop, hc] at h
        have := compareEntry_some_pos hc
        rw [h] at this
        simp at this
      | none =>
        simp only [compareLoop, hc] at h
        rcases List.mem_cons.1 hmem with h1 | h1
        · subst h1; exact hc
        · exact (compareLoop_eq_nil_iff eAll a rest).1 h entry h1
    · exact compareLoop_none eAll a _

/-- When an entry passes: the two values have the same rendering and, when the expected value
is a map, the actual value is a map as well in which the nested walk finds nothing. -/
theorem compareEntry_none_iff (eAll : Fields F) (a : Record F) (av ev : JVal F) :
    compareEntry eAll a av ev = none ↔
      MarshalIndent ev = MarshalIndent av ∧
      ∀ ec, ev = JVal.obj ec →
        ∃ ac, av = JVal.obj ac ∧ compareMaps (some ec) (some ac) = ([], []) := by
  cases ev with
  | obj ec =>
    cases av with
    | obj ac =>
      simp only [compareEntry, compareMaps]
      constructor
      · intro h
        split_ifs at h with h1 h2
        refine ⟨not_not.1 h2, fun ec1 he => ⟨ac, rfl, ?_⟩⟩
        injection he with he
        subst he
        have := (pair_empty_iff _).1 h1
        exact Prod.ext this.1 this.2
      · rintro ⟨h1, h2⟩
        obtain ⟨ac1, hac, h3⟩ := h2 ec rfl
        injection hac with hac
        subst hac
        rw [h3]
        simp [h1]
    | null =>
      constructor
      · intro h; simp only [compareEntry] at h; cases h
      · rintro ⟨_, h2⟩; obtain ⟨ac, hac, _⟩ := h2 ec rfl; cases hac
    | bool b =>
      constructor
      · intro h; simp only [compareEntry] at h; cases h
      · rintro ⟨_, h2⟩; obtain ⟨ac, hac, _⟩ := h2 ec rfl; cases hac
    | num n =>
      constructor
      · intro h; simp only [compareEntry] at h; cases h
      · rintro ⟨_, h2⟩; obtain ⟨ac, hac, _⟩ := h2 ec rfl; cases hac
    | str s =>
      constructor
      · intro h; simp only [compareEntry] at h; cases h
      · rintro ⟨_, h2⟩; obtain ⟨ac, hac, _⟩ := h2 ec rfl; cases hac
    | arr xs =>
      constructor
      · intro h; simp only [compareEntry] at h; cases h
      · rintro ⟨_, h2⟩; obtain ⟨ac, hac, _⟩ := h2 ec rfl; cases hac
  | null =>
    constructor
    · intro h
      simp only [compareEntry] at h
      split_ifs at h with h1
      exact ⟨not_not.1 h1, fun ec he => by cases he⟩
    · rintro ⟨h1, _⟩
      simp only [compareEntry]
      rw [if_neg (not_not.2 h1)]
  | bool b =>
    constructor
    · intro h
      simp only [compareEntry] at h
      split_ifs at h with h1
      exact ⟨not_not.1 h1, fun ec he => by cases he⟩
    · rintro ⟨h1, _⟩
      simp only [compareEntry]
      rw [if_neg (not_not.2 h1)]
  | num n =>
    constructor
    · intro h
      simp only [compareEntry] at h
      split_ifs at h with h1
      exact ⟨not_not.1 h1, fun ec he => by cases he⟩
    · rintro ⟨h1, _⟩
      simp only [compareEntry]
      rw [if_neg (not_not.2 h1)]
  | str s =>
    constructor
    · intro h
      simp only [compareEntry] at h
      split_ifs at h with h1
      exact ⟨not_not.1 h1, fun ec he => by cases he⟩
    · rintro ⟨h1, _⟩
      simp only [compareEntry]
      rw [if_neg (not_not.2 h1)]
  | arr xs =>
    constructor
    · intro h
      simp only [compareEntry] at h
      split_ifs at h with h1
      exact ⟨not_not.1 h1, fun ec he => by cases he⟩
    · rintro ⟨h1, _⟩
      simp only [compareEntry]
      rw [if_neg (not_not.2 h1)]

end CompareEntries

section ClaimsWalk

variable {F : Type} [Float64Model F]

/-- The walk finds nothing when the actual map holds a structurally equal value at every key of
the expected map. -/
theorem compareMaps_present {e a : Record F} (he : JVal.WF e.toJVal) (ha : JVal.WF a.toJVal)
    (h : ∀ k v, (k, v) ∈ e.entries → ∃ w, lookupKey k a.entries = some w ∧ JEquiv v w) :
    compareMaps e a = ([], []) := by
  cases e with
  | none => rfl
  | some kvs =>
    simp only [compareMaps]
    apply compareLoop_none
    rintro ⟨k, v⟩ hmem
    obtain ⟨w, hw, hvw⟩ := h k v hmem
    simp only [Record.toJVal, JVal.WF] at he
    exact compareEntry_same_value ha (wf_of_mem he.2 hmem) hw hvw

/-- C16. Expected-keyed walk: when every key of `e` is present in `a` with a structurally equal
value, `compareMaps(e, a)` returns two empty strings, whatever other keys `a` has at that level
and in whatever order the maps are iterated. -/
theorem expected_keyed_walk (e a : Record F) (he : JVal.WF e.toJVal) (ha : JVal.WF a.toJVal)
    (h : ∀ k v, (k, v) ∈ e.entries → ∃ w, lookupKey k a.entries = some w ∧ JEquiv v w) :
    compareMaps e a = ([], []) :=
  compareMaps_present he ha h

/-- C16, at the maps `{"A":1}` and `{"A":1,"Z":99}`. -/
theorem expected_keyed_walk_witness :
    compareMaps (some fieldsOnlyA) (some fieldsExtraZ) = ([], []) :=
  expected_keyed_walk (some fieldsOnlyA) (some fieldsExtraZ)
    (by simp [fieldsOnlyA, Record.toJVal, JVal.WF, JVal.WFFields, keysOf])
    (by simp [fieldsExtraZ, Record.toJVal, JVal.WF, JVal.WFFields, keysOf])
    (by
      intro k v hmem
      simp only [fieldsOnlyA, Record.entries, List.mem_singleton, Prod.mk.injEq] at hmem
      obtain ⟨hk, hv⟩ := hmem
      subst hk hv
      exact ⟨_, rfl, JEquiv.refl _⟩)

end ClaimsWalk

section ClaimsSerializeStep

variable {F : Type} [Float64Model F]

/-- C17 (as amended). The serialize-and-compare step of `compareMaps` applies to every key, also
to a key whose expected value is a Record, after the nested walk: `compareMaps(e, a)` returns
two empty strings if and only if for every entry `k: v` of `e` the serializations of `v` and of
`a[k]` are the same bytes and, when `v` is a Record, `a[k]` is a Record too and
`compareMaps(v, a[k])` reports no divergence. -/
theorem serialize_step_every_key (e a : Record F) :
    compareMaps e a = ([], []) ↔
      ∀ k v, (k, v) ∈ e.entries →
        MarshalIndent v = MarshalIndent (a.index k) ∧
        ∀ ec, v = JVal.obj ec →
          ∃ ac, a.index k = JVal.obj ac ∧ compareMaps (some ec) (some ac) = ([], []) := by
  cases e with
  | none =>
    simp only [compareMaps, Record.entries, true_iff]
    intro k v h
    exact absurd h (List.not_mem_nil _)
  | some kvs =>
    simp only [compareMaps, Record.entries]
    rw [compareLoop_eq_nil_iff]
    constructor
    · intro h k v hmem
      exact (compareEntry_none_iff kvs a (a.index k) v).1 (h (k, v) hmem)
    · rintro h ⟨k, v⟩ hmem
      exact (compareEntry_none_iff kvs a (a.index k) v).2 (h k v hmem)

/-- C17 as stated fails: the actual map `{"C": {"Y": "1", "Z": "2"}}` differs from the expected
map `{"C": {"Y": "1"}}` only by an extra key inside the nested Record; at the only key `C` both
values are Records on which `compareMaps` reports no divergence, and yet `compareMaps` on the
two maps returns their renderings. -/
theorem nested_extra_key_is_divergence :
    compareMaps (F := NumberText) (some fieldsY) (some fieldsYZ) = ([], []) ∧
      compareMaps (F := NumberText) (some fieldsOuterY) (some fieldsOuterYZ)
        = (MarshalIndent (JVal.obj fieldsOuterY), MarshalIndent (JVal.obj fieldsOuterYZ)) ∧
      compareMaps (F := NumberText) (some fieldsOuterY) (some fieldsOuterYZ) ≠ ([], []) :=
  ⟨by decide, by decide, by decide⟩

end ClaimsSerializeStep

section ClaimsCharacterisation

variable {F : Type} [Float64Model F]

omit [Float64Model F] in
theorem index_wf {a : Record F} (ha : JVal.WF a.toJVal) (k : Bytes) : JVal.WF (a.index k) := by
  rw [Record.index_eq]
  cases hl : lookupKey k a.entries with
  | none => exact trivial
  | some w =>
    have := record_entries_wf ha
    simp only [JVal.WF] at this
    exact wf_of_mem this.2 (lookupKey_mem hl)

/-- An entry passes exactly when the two values have the same rendering. -/
theorem compareEntry_none_iff_bytes [LawfulFloat64 F] (eAll : Fields F) (a : Record F)
    {av ev : JVal F} (hev : JVal.WF ev) (hav : JVal.WF av) :
    compareEntry eAll a av ev = none ↔ MarshalIndent ev = MarshalIndent av :=
  ⟨fun h => ((compareEntry_none_iff eAll a av ev).1 h).1,
    fun h => compareEntry_equiv ev av eAll a (marshalVal_injective hev hav h) hev hav⟩

/-- The walk finds nothing exactly when every entry of the expected map has the rendering of
the value that the actual map holds at its key. -/
theorem compareMaps_nil_iff [LawfulFloat64 F] {e a : Record F}
    (he : JVal.WF e.toJVal) (ha : JVal.WF a.toJVal) :
    compareMaps e a = ([], []) ↔
      ∀ k v, (k, v) ∈ e.entries → MarshalIndent v = MarshalIndent (a.index k) := by
  cases e with
  | none =>
    simp only [compareMaps, Record.entries, true_iff]
    intro k v h
    exact absurd h (List.not_mem_nil _)
  | some kvs =>
    simp only [Record.toJVal, JVal.WF] at he
    simp only [compareMaps, Record.entries]
    rw [compareLoop_eq_nil_iff]
    constructor
    · intro h k v hmem
      exact (compareEntry_none_iff_bytes kvs a (wf_of_mem he.2 hmem) (index_wf ha k)).1
        (h (k, v) hmem)
    · rintro h ⟨k, v⟩ hmem
      exact (compareEntry_none_iff_bytes kvs a (wf_of_mem he.2 hmem) (index_wf ha k)).2
        (h k v hmem)

/-- C19. Characterisation of the comparator: `compareMaps(e, a)` returns two empty strings if
and only if for every entry `k: v` of `e` the serialization of `v` is byte-equal to that of
`a[k]`, where a key absent from `a` reads as nil and is serialized as `null`. -/
theorem comparator_characterisation [LawfulFloat64 F] (e a : Record F)
    (he : JVal.WF e.toJVal) (ha : JVal.WF a.toJVal) :
    compareMaps e a = ([], []) ↔
      ∀ k v, (k, v) ∈ e.entries → MarshalIndent v = MarshalIndent (a.index k) :=
  compareMaps_nil_iff he ha

/-- C19, at `{"X": null, "Y": "1"}` and `{"Y": "1"}`: the key `X`, null in the expected map and
missing from the actual one, is not a divergence. -/
theorem comparator_characterisation_witness :
    compareMaps (F := NumberText) (some fieldsXY) (some fieldsY) = ([], []) :=
  (comparator_characterisation (some fieldsXY) (some fieldsY)
    (by simp [fieldsXY, Record.toJVal, JVal.WF, JVal.WFFields, keysOf])
    (by simp [fieldsY, Record.toJVal, JVal.WF, JVal.WFFields, keysOf])).2
    (by
      intro k v hmem
      simp only [fieldsXY, Record.entries, List.mem_cons, Prod.mk.injEq, List.mem_singleton,
        List.not_mem_nil, or_false] at hmem
      rcases hmem with ⟨hk, hv⟩ | ⟨hk, hv⟩ <;> subst hk hv <;> rfl)

end ClaimsCharacterisation

section ClaimsTraversalOrder

variable {F : Type} [Float64Model F]

omit [Float64Model F] in
theorem index_equiv {a b : Record F} (h : RecEq a b) (k : Bytes) :
    JEquiv (a.index k) (b.index k) := by
  cases a with
  | none =>
    cases b with
    | none => exact JEquiv.refl _
    | some bc => cases h
  | some ac =>
    cases b with
    | none => cases h
    | some bc =>
      have h1 : JEquiv (JVal.obj ac) (JVal.obj bc) := h
      rw [Record.index_eq, Record.index_eq]
      simp only [Record.entries]
      cases hl : lookupKey k ac with
      | some v =>
        obtain ⟨w, hw, hvw⟩ := lookup_equiv h1 hl
        rw [hw]; exact hvw
      | none =>
        cases hl1 : lookupKey k bc with
        | none => exact JEquiv.null
        | some w =>
          obtain ⟨v, hv, _⟩ := lookup_equiv h1.symm hl1
          rw [hl] at hv
          cases hv

omit [Float64Model F] in
theorem entries_equiv {e e1 : Record F} (h : RecEq e e1) {k : Bytes} {v : JVal F}
    (hmem : (k, v) ∈ e1.entries) (hw : JVal.WF e1.toJVal) :
    ∃ w, (k, w) ∈ e.entries ∧ JEquiv w v := by
  cases e1 with
  | none => exact absurd hmem (List.not_mem_nil _)
  | some kvs1 =>
    cases e with
    | none => cases h
    | some kvs =>
      have h1 : JEquiv (JVal.obj kvs) (JVal.obj kvs1) := h
      simp only [Record.toJVal, JVal.WF] at hw
      obtain ⟨w, hl, hvw⟩ := lookup_equiv h1.symm (lookupKey_of_mem hw.1 hmem)
      exact ⟨w, lookupKey_mem hl, hvw.symm⟩

/-- Whether the walk finds a divergence does not depend on how the maps are arranged. -/
theorem compareMaps_nil_of_equiv [LawfulFloat64 F] {e e1 a a1 : Record F}
    (he : JVal.WF e.toJVal) (he1 : JVal.WF e1.toJVal) (ha : JVal.WF a.toJVal)
    (ha1 : JVal.WF a1.toJVal) (hee : RecEq e e1) (haa : RecEq a a1)
    (h : compareMaps e a = ([], [])) : compareMaps e1 a1 = ([], []) := by
  rw [compareMaps_nil_iff he1 ha1]
  rw [compareMaps_nil_iff he ha] at h
  intro k v hmem
  obtain ⟨w, hw, hwv⟩ := entries_equiv hee hmem he1
  have hwfw : JVal.WF w := by
    have := record_entries_wf he
    simp only [JVal.WF] at this
    exact wf_of_mem this.2 hw
  have hwfv : JVal.WF v := by
    have := record_entries_wf he1
    simp only [JVal.WF] at this
    exact wf_of_mem this.2 hmem
  calc MarshalIndent v = MarshalIndent w := (marshal_equiv hwv hwfw hwfv 0).symm
    _ = MarshalIndent (a.index k) := h k w hw
    _ = MarshalIndent (a1.index k) :=
      marshal_equiv (index_equiv haa k) (index_wf ha k) (index_wf ha1 k) 0

/-- The canonicalizer under another iteration order: the same outcome, the same bytes, the same
Record up to the order of its maps. -/
theorem FormatJSON_order (ord1 ord2 : MapOrder F) (src : Bytes) :
    (∀ err, FormatJSON ord1 src = Except.error err → FormatJSON ord2 src = Except.error err) ∧
    (∀ r c, FormatJSON ord1 src = Except.ok (r, c) →
      ∃ r1, FormatJSON ord2 src = Except.ok (r1, c) ∧ RecEq r1 r) := by
  constructor
  · intro err h
    simp only [FormatJSON] at h ⊢
    cases hd : decodeJSON (F := F) src with
    | error e1 => rw [hd] at h; simpa using h
    | ok v =>
      rw [hd] at h
      simp only at h ⊢
      have hwf := (decodeJSON_sound hd).1
      have h1 := ord1.arrange_equiv v hwf
      have h2 := ord2.arrange_equiv v hwf
      cases hr : asRecord (ord1.arrange v) with
      | ok r => rw [hr] at h; cases h
      | error e1 =>
        rw [hr] at h
        cases h2r : asRecord (ord2.arrange v) with
        | error e2 =>
          simp only at h ⊢
          have e1w : e1 = DecodeError.wrongType := by
            cases hv1 : ord1.arrange v <;> rw [hv1] at hr <;> simp [asRecord] at hr <;>
              exact hr.symm
          have e2w : e2 = DecodeError.wrongType := by
            cases hv2 : ord2.arrange v <;> rw [hv2] at h2r <;> simp [asRecord] at h2r <;>
              exact h2r.symm
          rw [← h, e1w, e2w]
        | ok r2 =>
          exfalso
          have h3 := asRecord_toJVal h2r
          have h12 : JEquiv (ord1.arrange v) r2.toJVal := by
            rw [h3]; exact h1.trans h2.symm
          obtain ⟨r1, hr1⟩ := record_shape h12
          rw [← hr1, asRecord_of_toJVal] at hr
          cases hr
  · intro r c h
    obtain ⟨v, hv, hm, hc⟩ := FormatJSON_ok h
    have hwf := (decodeJSON_sound hv).1
    have h12 : JEquiv (ord2.arrange v) r.toJVal := by
      rw [hm]; exact (ord2.arrange_equiv v hwf).trans (ord1.arrange_equiv v hwf).symm
    obtain ⟨r1, hr1⟩ := record_shape h12
    refine ⟨r1, ?_, by show JEquiv r1.toJVal r.toJVal; rw [hr1]; exact h12⟩
    have := FormatJSON_of_decode ord2 hv hr1
    rw [this, hc]
    congr 2
    rw [hr1]
    exact marshal_equiv h12 (ord2.arrange_wf v hwf) (FormatJSON_wf h) 0

/-- The equal flag and the error of `IsEquivalent` do not depend on the iteration orders. -/
theorem IsEquivalent_flags_order (ordE ordA ordE1 ordA1 : MapOrder F) (expected actual : Bytes) :
    (IsEquivalent ordE ordA expected actual).same
        = (IsEquivalent ordE1 ordA1 expected actual).same ∧
      (IsEquivalent ordE ordA expected actual).err
        = (IsEquivalent ordE1 ordA1 expected actual).err := by
  rcases failed_or_ok (FormatJSON ordE expected) with ⟨e, he⟩ | ⟨⟨em, ef⟩, he⟩
  · rw [IsEquivalent_err_expected actual he,
      IsEquivalent_err_expected actual ((FormatJSON_order ordE ordE1 expected).1 e he)]
    exact ⟨rfl, rfl⟩
  · obtain ⟨em1, he1, _⟩ := (FormatJSON_order ordE ordE1 expected).2 em ef he
    rcases failed_or_ok (FormatJSON ordA actual) with ⟨e, ha⟩ | ⟨⟨am, af⟩, ha⟩
    · rw [IsEquivalent_err_actual he ha,
        IsEquivalent_err_actual he1 ((FormatJSON_order ordA ordA1 actual).1 e ha)]
      exact ⟨rfl, rfl⟩
    · obtain ⟨am1, ha1, _⟩ := (FormatJSON_order ordA ordA1 actual).2 am af ha
      rw [IsEquivalent_ok he ha, IsEquivalent_ok he1 ha1]
      split_ifs <;> exact ⟨rfl, rfl⟩

/-- C18. Divergence detection does not depend on traversal order: whether `compareMaps(e, a)`
returns two empty strings is the same however the maps of `e` and `a` are arranged, at every
nesting level, and the equal flag and the error of `IsEquivalent` are the same for every
iteration order. -/
theorem detection_order_independent [LawfulFloat64 F] (e e1 a a1 : Record F)
    (he : JVal.WF e.toJVal) (he1 : JVal.WF e1.toJVal) (ha : JVal.WF a.toJVal)
    (ha1 : JVal.WF a1.toJVal) (hee : RecEq e e1) (haa : RecEq a a1)
    (ordE ordA ordE1 ordA1 : MapOrder F) (expected actual : Bytes) :
    (compareMaps e a = ([], []) ↔ compareMaps e1 a1 = ([], [])) ∧
      (IsEquivalent ordE ordA expected actual).same
        = (IsEquivalent ordE1 ordA1 expected actual).same ∧
      (IsEquivalent ordE ordA expected actual).err
        = (IsEquivalent ordE1 ordA1 expected actual).err :=
  ⟨⟨compareMaps_nil_of_equiv he he1 ha ha1 hee haa,
      compareMaps_nil_of_equiv he1 he ha1 ha (recEq_symm hee) (recEq_symm haa)⟩,
    IsEquivalent_flags_order ordE ordA ordE1 ordA1 expected actual⟩

/-- C18, at the maps `{"A": "1", "B": "2"}` and `{"B": "2", "A": "1"}` on both sides, and at the
documents `{"B": 2, "A": {"x": 1}}` and `{"B": 1, "A": {"x": 2}}` read in insertion order and in
sorted order. -/
theorem detection_order_independent_witness :
    (compareMaps recAB recAB = ([], []) ↔ compareMaps recBA recBA = ([], [])) ∧
      (IsEquivalent (F := NumberText) MapOrder.insertion MapOrder.insertion
          docTwoDiffsExpected docTwoDiffsActual).same
        = (IsEquivalent (F := NumberText) MapOrder.sorted MapOrder.sorted
          docTwoDiffsExpected docTwoDiffsActual).same ∧
      (IsEquivalent (F := NumberText) MapOrder.insertion MapOrder.insertion
          docTwoDiffsExpected docTwoDiffsActual).err
        = (IsEquivalent (F := NumberText) MapOrder.sorted MapOrder.sorted
          docTwoDiffsExpected docTwoDiffsActual).err :=
  detection_order_independent recAB recBA recAB recBA recAB_wf recBA_wf recAB_wf recBA_wf
    recAB_equiv_recBA recAB_equiv_recBA MapOrder.insertion MapOrder.insertion MapOrder.sorted
    MapOrder.sorted docTwoDiffsExpected docTwoDiffsActual

/-- Which divergence is rendered does depend on the order: when `B` is visited first the two
whole documents are returned, when `A` is visited first the two nested objects. -/
theorem rendered_divergence_varies :
    (IsEquivalent (F := NumberText) MapOrder.insertion MapOrder.insertion
        docTwoDiffsExpected docTwoDiffsActual).expectedVersion
      = "\x7b\n\t\"A\": \x7b\n\t\t\"x\": 1\n\t\x7d,\n\t\"B\": 2\n\x7d".toList ∧
    (IsEquivalent (F := NumberText) MapOrder.sorted MapOrder.sorted
        docTwoDiffsExpected docTwoDiffsActual).expectedVersion
      = "\x7b\n\t\"x\": 1\n\x7d".toList :=
  ⟨by decide, by decide⟩

end ClaimsTraversalOrder

section ClaimsVisibleDifference

variable {F : Type} [Float64Model F]

/-- The renderings of two maps differ when some entry of the first has another rendering than
the value the second holds at that key. -/
theorem whole_maps_differ [LawfulFloat64 F] {eAll : Fields F} {a : Record F} {k : Bytes}
    {ev : JVal F} (he : JVal.WF (JVal.obj eAll)) (ha : JVal.WF a.toJVal)
    (hmem : (k, ev) ∈ eAll) (hne : MarshalIndent ev ≠ MarshalIndent (a.index k)) :
    MarshalIndent (JVal.obj eAll) ≠ MarshalIndent a.toJVal := by
  intro h
  have heq : RecEq (some eAll) a := marshalVal_injective he ha h
  have hidx := index_equiv heq k
  have hl : Record.index (some eAll) k = ev := by
    simp only [JVal.WF] at he
    rw [Record.index_eq]
    simp only [Record.entries, lookupKey_of_mem he.1 hmem, Option.getD_some]
  rw [hl] at hidx
  simp only [JVal.WF] at he
  exact hne (marshal_equiv hidx (wf_of_mem he.2 hmem) (index_wf ha k) 0)

/-- What makes an entry return the two whole maps is a difference of renderings. -/
theorem compareEntry_whole [LawfulFloat64 F] {eAll : Fields F} {a : Record F} {av ev : JVal F}
    (hev : JVal.WF ev) (hav : JVal.WF av) {out : Bytes × Bytes}
    (h : compareEntry eAll a av ev = some out) :
    (∃ ec ac, ev = JVal.obj ec ∧ av = JVal.obj ac ∧ out = compareMaps (some ec) (some ac)
        ∧ out ≠ ([], []))
      ∨ (out = (MarshalIndent (JVal.obj eAll), MarshalIndent a.toJVal)
        ∧ MarshalIndent ev ≠ MarshalIndent av) := by
  have hno : MarshalIndent ev ≠ MarshalIndent av ∨ MarshalIndent ev = MarshalIndent av :=
    (em _).symm
  rcases hno with hne | heq
  · cases ev with
    | obj ec =>
      cases av with
      | obj ac =>
        simp only [compareEntry] at h
        split_ifs at h with h1
        · injection h with h
          left
          refine ⟨ec, ac, rfl, rfl, h.symm, ?_⟩
          intro h0
          rw [h, h0] at h1
          simp at h1
        · injection h with h
          exact Or.inr ⟨h.symm, hne⟩
      | null => simp only [compareEntry] at h; injection h with h; exact Or.inr ⟨h.symm, hne⟩
      | bool b => simp only [compareEntry] at h; injection h with h; exact Or.inr ⟨h.symm, hne⟩
      | num n => simp only [compareEntry] at h; injection h with h; exact Or.inr ⟨h.symm, hne⟩
      | str s => simp only [compareEntry] at h; injection h with h; exact Or.inr ⟨h.symm, hne⟩
      | arr xs => simp only [compareEntry] at h; injection h with h; exact Or.inr ⟨h.symm, hne⟩
    | null =>
      simp only [compareEntry] at h
      split_ifs at h
      injection h with h; exact Or.inr ⟨h.symm, hne⟩
    | bool b =>
      simp only [compareEntry] at h
      split_ifs at h
      injection h with h; exact Or.inr ⟨h.symm, hne⟩
    | num n =>
      simp only [compareEntry] at h
      split_ifs at h
      injection h with h; exact Or.inr ⟨h.symm, hne⟩
    | str s =>
      simp only [compareEntry] at h
      split_ifs at h
      injection h with h; exact Or.inr ⟨h.symm, hne⟩
    | arr xs =>
      simp only [compareEntry] at h
      split_ifs at h
      injection h with h; exact Or.inr ⟨h.symm, hne⟩
  · rw [(compareEntry_none_iff_bytes eAll a hev hav).2 heq] at h
    cases h

/-- The renderings of the two whole maps, returned for an entry with another rendering on the
actual side, are non-empty and differ. -/
theorem whole_maps_visible [LawfulFloat64 F] {eAll : Fields F} {a : Record F} {k : Bytes}
    {ev : JVal F} (he : JVal.WF (JVal.obj eAll)) (ha : JVal.WF a.toJVal)
    (hmem : (k, ev) ∈ eAll) (hne : MarshalIndent ev ≠ MarshalIndent (a.index k)) :
    MarshalIndent (JVal.obj eAll) ≠ [] ∧ MarshalIndent a.toJVal ≠ [] ∧
      MarshalIndent (JVal.obj eAll) ≠ MarshalIndent a.toJVal :=
  ⟨marshal_record_ne_nil (some eAll), marshal_record_ne_nil a, whole_maps_differ he ha hmem hne⟩

mutual
/-- What an entry returns shows a difference: two non-empty renderings that are not the
same. -/
theorem compareEntry_visible [LawfulFloat64 F] : ∀ (ev : JVal F) (eAll : Fields F)
    (a : Record F) (k : Bytes) (out : Bytes × Bytes), JVal.WF (JVal.obj eAll) →
    JVal.WF a.toJVal → (k, ev) ∈ eAll → compareEntry eAll a (a.index k) ev = some out →
    out.1 ≠ [] ∧ out.2 ≠ [] ∧ out.1 ≠ out.2
  | JVal.obj ec, eAll, a, k, out, he, ha, hmem, h => by
    have hev : JVal.WF (JVal.obj ec) := by
      simp only [JVal.WF] at he
      exact wf_of_mem he.2 hmem
    rcases compareEntry_whole hev (index_wf ha k) h with ⟨ec1, ac, h1, h2, h3, h4⟩ | ⟨h1, h2⟩
    · injection h1 with h1
      subst h1
      have hac : JVal.WF (JVal.obj ac) := by rw [← h2]; exact index_wf ha k
      exact compareFields_visible ec ec (some ac) out hev hac (fun _ hm => hm) h3.symm h4
    · rw [h1]; exact whole_maps_visible he ha hmem h2
  | JVal.null, eAll, a, k, out, he, ha, hmem, h => by
    have hev : JVal.WF (JVal.null : JVal F) := trivial
    rcases compareEntry_whole hev (index_wf ha k) h with ⟨ec1, ac, h1, _⟩ | ⟨h1, h2⟩
    · cases h1
    · rw [h1]; exact whole_maps_visible he ha hmem h2
  | JVal.bool b, eAll, a, k, out, he, ha, hmem, h => by
    have hev : JVal.WF (JVal.bool b : JVal F) := trivial
    rcases compareEntry_whole hev (index_wf ha k) h with ⟨ec1, ac, h1, _⟩ | ⟨h1, h2⟩
    · cases h1
    · rw [h1]; exact whole_maps_visible he ha hmem h2
  | JVal.num x, eAll, a, k, out, he, ha, hmem, h => by
    have hev : JVal.WF (JVal.num x : JVal F) := trivial
    rcases compareEntry_whole hev (index_wf ha k) h with ⟨ec1, ac, h1, _⟩ | ⟨h1, h2⟩
    · cases h1
    · rw [h1]; exact whole_maps_visible he ha hmem h2
  | JVal.str s, eAll, a, k, out, he, ha, hmem, h => by
    have hev : JVal.WF (JVal.str s : JVal F) := trivial
    rcases compareEntry_whole hev (index_wf ha k) h with ⟨ec1, ac, h1, _⟩ | ⟨h1, h2⟩
    · cases h1
    · rw [h1]; exact whole_maps_visible he ha hmem h2
  | JVal.arr xs, eAll, a, k, out, he, ha, hmem, h => by
    have hev : JVal.WF (JVal.arr xs) := by
      simp only [JVal.WF] at he
      exact wf_of_mem he.2 hmem
    rcases compareEntry_whole hev (index_wf ha k) h with ⟨ec1, ac, h1, _⟩ | ⟨h1, h2⟩
    · cases h1
    · rw [h1]; exact whole_maps_visible he ha hmem h2
/-- A divergence returned by the loop shows a difference. -/
theorem compareFields_visible [LawfulFloat64 F] : ∀ (todo eAll : List (Bytes × JVal F))
    (a : Record F) (out : Bytes × Bytes), JVal.WF (JVal.obj eAll) → JVal.WF a.toJVal →
    (∀ entry ∈ todo, entry ∈ eAll) → compareLoop eAll a todo = out → out ≠ ([], []) →
    out.1 ≠ [] ∧ out.2 ≠ [] ∧ out.1 ≠ out.2
  | [], _, _, out, _, _, _, h, hne => absurd h.symm hne
  | (k, v) :: rest, eAll, a, out, he, ha, hsub, h, hne => by
    cases hc : compareEntry eAll a (a.index k) v with
    | some o =>
      simp only [compareLoop, hc] at h
      subst h
      exact compareEntry_visible v eAll a k _ he ha (hsub (k, v) (List.mem_cons_self _ _)) hc
    | none =>
      simp only [compareLoop, hc] at h
      exact compareFields_visible rest eAll a out he ha
        (fun e hm => hsub e (List.mem_cons_of_mem _ hm)) h hne
end

/-- A divergence returned by `compareMaps` shows a difference. -/
theorem compareMaps_visible [LawfulFloat64 F] {e a : Record F} (he : JVal.WF e.toJVal)
    (ha : JVal.WF a.toJVal) (hne : compareMaps e a ≠ ([], [])) :
    (compareMaps e a).1 ≠ [] ∧ (compareMaps e a).2 ≠ [] ∧
      (compareMaps e a).1 ≠ (compareMaps e a).2 := by
  cases e with
  | none => exact absurd rfl hne
  | some kvs => exact compareFields_visible kvs kvs a _ he ha (fun _ hm => hm) rfl hne

/-- C20. A reported inequality always shows a visible difference: whenever `IsEquivalent`
returns `equal = false` with a nil error, both renderings are non-empty and the expected
rendering differs from the actual one; the `assert.Equal` that `IsEquivalentTest` then runs on
them fails. -/
theorem inequality_shows_difference [LawfulFloat64 F] (ordE ordA : MapOrder F)
    (expected actual : Bytes)
    (hs : (IsEquivalent ordE ordA expected actual).same = false)
    (hn : (IsEquivalent ordE ordA expected actual).err = none) :
    (IsEquivalent ordE ordA expected actual).expectedVersion ≠ [] ∧
      (IsEquivalent ordE ordA expected actual).actualVersion ≠ [] ∧
      (IsEquivalent ordE ordA expected actual).expectedVersion
        ≠ (IsEquivalent ordE ordA expected actual).actualVersion ∧
      IsEquivalentTest ordE ordA expected actual = ⟨false, some false⟩ := by
  have hvis : (IsEquivalent ordE ordA expected actual).expectedVersion ≠ [] ∧
      (IsEquivalent ordE ordA expected actual).actualVersion ≠ [] ∧
      (IsEquivalent ordE ordA expected actual).expectedVersion
        ≠ (IsEquivalent ordE ordA expected actual).actualVersion := by
    rcases failed_or_ok (FormatJSON ordE expected) with ⟨e, he⟩ | ⟨⟨em, ef⟩, he⟩
    · rw [IsEquivalent_err_expected actual he] at hn
      cases hn
    · rcases failed_or_ok (FormatJSON ordA actual) with ⟨e, ha⟩ | ⟨⟨am, af⟩, ha⟩
      · rw [IsEquivalent_err_actual he ha] at hn
        cases hn
      · rw [IsEquivalent_ok he ha] at hs ⊢
        by_cases hb : ef = af
        · rw [if_pos hb] at hs
          cases hs
        · rw [if_neg hb]
          by_cases hd : (compareMaps em am).1.length + (compareMaps em am).2.length > 0
          · rw [if_pos hd]
            have hne : compareMaps em am ≠ ([], []) := by
              intro h0
              rw [h0] at hd
              simp at hd
            exact compareMaps_visible (FormatJSON_wf he) (FormatJSON_wf ha) hne
          · rw [if_neg hd]
            refine ⟨?_, ?_, hb⟩
            · rw [FormatJSON_formatted he]; exact marshal_record_ne_nil em
            · rw [FormatJSON_formatted ha]; exact marshal_record_ne_nil am
  refine ⟨hvis.1, hvis.2.1, hvis.2.2, ?_⟩
  simp only [IsEquivalentTest, hn, hs, Option.isSome_none, Bool.false_eq_true, if_false,
    if_true, decide_eq_false hvis.2.2]

/-- C20, at the documents of the test "item missing", `{"A": "1", "B": "2", "C": "3"}` and
`{"B": "2", "A": "1"}`. -/
theorem inequality_shows_difference_witness :
    (IsEquivalent (F := NumberText) MapOrder.insertion MapOrder.sorted
        docABC docBA).expectedVersion ≠ [] ∧
      (IsEquivalent (F := NumberText) MapOrder.insertion MapOrder.sorted
        docABC docBA).actualVersion ≠ [] ∧
      (IsEquivalent (F := NumberText) MapOrder.insertion MapOrder.sorted
        docABC docBA).expectedVersion
        ≠ (IsEquivalent (F := NumberText) MapOrder.insertion MapOrder.sorted
          docABC docBA).actualVersion ∧
      IsEquivalentTest (F := NumberText) MapOrder.insertion MapOrder.sorted docABC docBA
        = ⟨false, some false⟩ :=
  inequality_shows_difference MapOrder.insertion MapOrder.sorted docABC docBA rfl rfl

end ClaimsVisibleDifference

section ClaimsExtraKeys

variable {F : Type} [Float64Model F]

omit [Float64Model F] in
theorem recEq_keys {e a : Record F} (h : RecEq e a) (z : Bytes) :
    z ∈ keysOf a.entries → z ∈ keysOf e.entries := by
  cases e with
  | none =>
    cases a with
    | none => exact id
    | some ac => cases h
  | some ec =>
    cases a with
    | none => cases h
    | some ac =>
      have h1 : JEquiv (JVal.obj ec) (JVal.obj ac) := h
      cases h1 with
      | obj hk _ => exact (hk z).2

/-- C13 (as amended). Extra keys in actual: when every key of `e` is present in `a` with a
structurally equal value and `a` has at least one more top-level key, `IsEquivalent` on
documents decoded to `(e, a)` returns `equal = false` with a nil error; the structural
comparator finds no divergence, and the renderings are the canonical bytes of the two whole
documents. -/
theorem extra_top_level_keys [LawfulFloat64 F] (ordE ordA : MapOrder F) (expected actual : Bytes)
    (e a : Record F) (ef af : Bytes)
    (he : FormatJSON ordE expected = Except.ok (e, ef))
    (ha : FormatJSON ordA actual = Except.ok (a, af))
    (hsub : ∀ k v, (k, v) ∈ e.entries → ∃ w, lookupKey k a.entries = some w ∧ JEquiv v w)
    (hextra : ∃ z, z ∈ keysOf a.entries ∧ z ∉ keysOf e.entries) :
    compareMaps e a = ([], []) ∧
      IsEquivalent ordE ordA expected actual = ⟨ef, af, false, none⟩ := by
  have hwalk := compareMaps_present (FormatJSON_wf he) (FormatJSON_wf ha) hsub
  refine ⟨hwalk, ?_⟩
  have hne : ef ≠ af := by
    intro h
    obtain ⟨z, hz1, hz2⟩ := hextra
    exact hz2 (recEq_keys (FormatJSON_bytes_inj he ha h) z hz1)
  rw [IsEquivalent_ok he ha, if_neg hne, hwalk]
  simp

/-- C13, at the documents `{"A":1}` and `{"A":1,"Z":99}`. -/
theorem extra_top_level_keys_witness :
    compareMaps (F := NumberText) (some fieldsOnlyA) (some fieldsExtraZ) = ([], []) ∧
      IsEquivalent (F := NumberText) MapOrder.insertion MapOrder.insertion docOnlyA docExtraZ
        = ⟨MarshalIndent (JVal.obj fieldsOnlyA), MarshalIndent (JVal.obj fieldsExtraZ),
            false, none⟩ :=
  extra_top_level_keys MapOrder.insertion MapOrder.insertion docOnlyA docExtraZ
    (some fieldsOnlyA) (some fieldsExtraZ) _ _
    (show FormatJSON MapOrder.insertion docOnlyA = _ from rfl)
    (show FormatJSON MapOrder.insertion docExtraZ = _ from rfl)
    (by
      intro k v hmem
      simp only [fieldsOnlyA, Record.entries, List.mem_singleton, Prod.mk.injEq] at hmem
      obtain ⟨hk, hv⟩ := hmem
      subst hk hv
      exact ⟨_, rfl, JEquiv.refl _⟩)
    ⟨['Z'], by decide, by decide⟩

/-- C13 as stated fails: on expected `{"A":1}` and actual `{"A":1,"Z":99}` `IsEquivalent`
reports `equal = false`, with the two whole documents as renderings. -/
theorem extra_key_not_equal :
    IsEquivalent (F := NumberText) MapOrder.insertion MapOrder.insertion docOnlyA docExtraZ
      = ⟨"\x7b\n\t\"A\": 1\n\x7d".toList, "\x7b\n\t\"A\": 1,\n\t\"Z\": 99\n\x7d".toList,
          false, none⟩ :=
  by decide

end ClaimsExtraKeys

section ClaimsWrongShape

variable {F : Type} [Float64Model F]

omit [Float64Model F] in
theorem equiv_arr_mem : ∀ (ys xs : List (JVal F)), JEquiv (JVal.arr ys) (JVal.arr xs) →
    ∀ x ∈ xs, ∃ y ∈ ys, JEquiv y x
  | [], xs, h, x, hx => by cases h; exact absurd hx (List.not_mem_nil _)
  | y :: ys, xs, h, x, hx => by
    cases h with
    | arrCons h1 h2 =>
      rcases List.mem_cons.1 hx with h3 | h3
      · subst h3; exact ⟨y, List.mem_cons_self _ _, h1⟩
      · obtain ⟨y1, hy1, he⟩ := equiv_arr_mem ys _ h2 x h3
        exact ⟨y1, List.mem_cons_of_mem _ hy1, he⟩

/-- The canonicalizer of objects succeeds only on the documents `null` and objects. -/
theorem FormatJSON_shape {ord : MapOrder F} {src : Bytes} {r : Record F} {c : Bytes}
    (h : FormatJSON ord src = Except.ok (r, c)) :
    ∃ v, decodeJSON (F := F) src = Except.ok v ∧
      (v = JVal.null ∨ ∃ kvs, v = JVal.obj kvs) := by
  obtain ⟨v, hv, hm, _⟩ := FormatJSON_ok h
  refine ⟨v, hv, ?_⟩
  have he : JEquiv r.toJVal v := by
    rw [hm]; exact ord.arrange_equiv v (decodeJSON_sound hv).1
  cases r with
  | none => left; cases he; rfl
  | some kvs => right; cases he; exact ⟨_, rfl⟩

/-- The canonicalizer of arrays succeeds, on a non-empty input, only on the document `null`
and on arrays whose elements are objects or `null`. -/
theorem FormatArrayJSON_shape {ord : MapOrder F} {src : Bytes} {s : RecordSeq F} {c : Bytes}
    (hne : src ≠ []) (h : FormatArrayJSON ord src = Except.ok (s, c)) :
    ∃ v, decodeJSON (F := F) src = Except.ok v ∧
      (v = JVal.null ∨ ∃ xs, v = JVal.arr xs ∧
        ∀ x ∈ xs, x = JVal.null ∨ ∃ kvs, x = JVal.obj kvs) := by
  obtain ⟨v, hv, hm, _⟩ := FormatArrayJSON_ok hne h
  refine ⟨v, hv, ?_⟩
  have he : JEquiv s.toJVal v := by
    rw [hm]; exact ord.arrange_equiv v (decodeJSON_sound hv).1
  cases s with
  | none => left; cases he; rfl
  | some rs =>
    right
    have he1 : JEquiv (JVal.arr (rs.map Record.toJVal)) v := he
    cases v with
    | arr xs =>
      refine ⟨xs, rfl, fun x hx => ?_⟩
      obtain ⟨y, hy, hyx⟩ := equiv_arr_mem _ _ he1 x hx
      obtain ⟨r, _, hr⟩ := List.mem_map.1 hy
      subst hr
      cases r with
      | none => left; cases hyx; rfl
      | some kvs => right; cases hyx; exact ⟨_, rfl⟩
    | null => generalize rs.map Record.toJVal = ys at he1; cases he1
    | bool b => generalize rs.map Record.toJVal = ys at he1; cases he1
    | num n => generalize rs.map Record.toJVal = ys at he1; cases he1
    | str t => generalize rs.map Record.toJVal = ys at he1; cases he1
    | obj kvs => generalize rs.map Record.toJVal = ys at he1; cases he1

/-- C14 (as amended). Wrong top-level shape is a decode error: `FormatJSON` fails on every
input that is not a valid JSON document and on every valid document whose top-level value is
an array, a string, a number or a boolean; `FormatArrayJSON` fails on every non-empty input
that is not a valid JSON document and on every valid document that is neither `null` nor an
array whose elements are all objects or `null`. -/
theorem wrong_shape_is_error (ord : MapOrder F) (src : Bytes) :
    (failed (decodeJSON (F := F) src) → failed (FormatJSON ord src)) ∧
    (∀ v : JVal F, decodeJSON src = Except.ok v → v ≠ JVal.null →
      (∀ kvs, v ≠ JVal.obj kvs) → failed (FormatJSON ord src)) ∧
    (src ≠ [] → failed (decodeJSON (F := F) src) → failed (FormatArrayJSON ord src)) ∧
    (src ≠ [] → ∀ v : JVal F, decodeJSON src = Except.ok v → v ≠ JVal.null →
      (∀ xs, v = JVal.arr xs → ∃ x ∈ xs, x ≠ JVal.null ∧ ∀ kvs, x ≠ JVal.obj kvs) →
      failed (FormatArrayJSON ord src)) := by
  refine ⟨?_, ?_, ?_, ?_⟩
  · rintro ⟨e, he⟩
    rcases failed_or_ok (FormatJSON ord src) with h | ⟨⟨r, c⟩, h⟩
    · exact h
    · obtain ⟨v, hv, _⟩ := FormatJSON_shape h
      rw [he] at hv; cases hv
  · intro v hv hnull hobj
    rcases failed_or_ok (FormatJSON ord src) with h | ⟨⟨r, c⟩, h⟩
    · exact h
    · obtain ⟨v1, hv1, hs⟩ := FormatJSON_shape h
      rw [hv] at hv1
      injection hv1 with hv1
      subst hv1
      rcases hs with hs | ⟨kvs, hs⟩
      · exact absurd hs hnull
      · exact absurd hs (hobj kvs)
  · rintro hne ⟨e, he⟩
    rcases failed_or_ok (FormatArrayJSON ord src) with h | ⟨⟨s, c⟩, h⟩
    · exact h
    · obtain ⟨v, hv, _⟩ := FormatArrayJSON_shape hne h
      rw [he] at hv; cases hv
  · intro hne v hv hnull hbad
    rcases failed_or_ok (FormatArrayJSON ord src) with h | ⟨⟨s, c⟩, h⟩
    · exact h
    · obtain ⟨v1, hv1, hs⟩ := FormatArrayJSON_shape hne h
      rw [hv] at hv1
      injection hv1 with hv1
      subst hv1
      rcases hs with hs | ⟨xs, hs, hall⟩
      · exact absurd hs hnull
      · obtain ⟨x, hx, hxn, hxo⟩ := hbad xs hs
        rcases hall x hx with h1 | ⟨kvs, h1⟩
        · exact absurd h1 hxn
        · exact absurd h1 (hxo kvs)

/-- C14, at the input `something invalid` and the document `[]` for `FormatJSON`, and at the
document `[1]` for `FormatArrayJSON`. -/
theorem wrong_shape_is_error_witness :
    failed (FormatJSON (F := NumberText) MapOrder.insertion docInvalid) ∧
      failed (FormatJSON (F := NumberText) MapOrder.insertion docEmptyArray) ∧
      failed (FormatArrayJSON (F := NumberText) MapOrder.insertion docNumberElement) :=
  ⟨(wrong_shape_is_error MapOrder.insertion docInvalid).1 ⟨DecodeError.malformed, rfl⟩,
    (wrong_shape_is_error MapOrder.insertion docEmptyArray).2.1 (JVal.arr []) rfl
      (fun h => JVal.noConfusion h) (fun _ h => JVal.noConfusion h),
    (wrong_shape_is_error MapOrder.insertion docNumberElement).2.2.2 (by decide)
      (JVal.arr [JVal.num num1]) rfl (fun h => JVal.noConfusion h)
      (fun xs h => ⟨JVal.num num1, by cases h; exact List.mem_singleton.2 rfl,
        fun h1 => JVal.noConfusion h1, fun _ h1 => JVal.noConfusion h1⟩)⟩

/-- C14 as stated fails: the document `null` is valid JSON whose top-level value is not an
object, and `FormatJSON` returns the nil map with the bytes `null` and no error; the non-empty
inputs `null` and `[null]` are not arrays of objects, and `FormatArrayJSON` returns the nil
slice, respectively a slice holding one nil map, and no error. -/
theorem null_document_is_accepted :
    decodeJSON (F := NumberText) docNull = Except.ok JVal.null ∧
      FormatJSON (F := NumberText) MapOrder.insertion docNull = Except.ok (none, docNull) ∧
      FormatArrayJSON (F := NumberText) MapOrder.insertion docNull
        = Except.ok (none, docNull) ∧
      FormatArrayJSON (F := NumberText) MapOrder.insertion docNullElement
        = Except.ok (some [none], "[\n\tnull\n]".toList) :=
  ⟨rfl, rfl, rfl, rfl⟩

end ClaimsWrongShape

section AscendingKeys

variable {F : Type}

theorem ascendingFields_of_forall : ∀ {kvs : Fields F},
    (∀ e ∈ kvs, JVal.Ascending e.2) → JVal.AscendingFields kvs
  | [], _ => trivial
  | (k, v) :: rest, h => by
    simp only [JVal.AscendingFields]
    exact ⟨h (k, v) (List.mem_cons_self _ _),
      ascendingFields_of_forall (fun e he => h e (List.mem_cons_of_mem _ he))⟩

/-- Entries sorted by key, with no key repeated, list their keys in ascending order. -/
theorem keys_ascending_of_sorted {α : Type} {l : List (Bytes × α)} (hs : l.Sorted byKey)
    (hn : (l.map Prod.fst).Nodup) : (l.map Prod.fst).Pairwise keyLt := by
  rw [List.pairwise_map]
  have h1 : l.Pairwise (fun a b => a.1 ≠ b.1) := List.pairwise_map.1 hn
  exact (List.Pairwise.and hs h1).imp (fun h => ⟨h.1, h.2⟩)

theorem sorted_of_keys_ascending {α : Type} {l : List (Bytes × α)}
    (h : (l.map Prod.fst).Pairwise keyLt) : l.Sorted byKey :=
  (List.pairwise_map.1 h).imp (fun h1 => h1.1)

mutual
/-- The canonical arrangement lists the keys of every object in ascending order. -/
theorem canon_ascending : ∀ v : JVal F, JVal.WF v → JVal.Ascending (canon v)
  | JVal.null, _ => trivial
  | JVal.bool _, _ => trivial
  | JVal.num _, _ => trivial
  | JVal.str _, _ => trivial
  | JVal.arr xs, hw => by
    simp only [JVal.WF] at hw
    simp only [canon, JVal.Ascending]
    exact canonList_ascending xs hw
  | JVal.obj kvs, hw => by
    simp only [JVal.WF] at hw
    have h := canonFields_ascending kvs hw.2
    have hperm : (sortFields (canonFields kvs)).Perm (canonFields kvs) := sortFields_perm _
    have hnd : (keysOf (sortFields (canonFields kvs))).Nodup :=
      keysOf_sortFields_nodup (by rw [keysOf_canonFields]; exact hw.1)
    simp only [canon, JVal.Ascending]
    refine ⟨keys_ascending_of_sorted (List.sorted_insertionSort byKey _) hnd,
      ascendingFields_of_forall (fun e he => ?_)⟩
    obtain ⟨v, hv, he2⟩ := mem_canonFields (hperm.subset he)
    rw [he2]; exact h e.1 v hv
theorem canonList_ascending : ∀ xs : List (JVal F), JVal.WFList xs →
    JVal.AscendingList (canonList xs)
  | [], _ => trivial
  | x :: xs, hw => by
    simp only [JVal.WFList] at hw
    simp only [canonList, JVal.AscendingList]
    exact ⟨canon_ascending x hw.1, canonList_ascending xs hw.2⟩
theorem canonFields_ascending : ∀ kvs : List (Bytes × JVal F), JVal.WFFields kvs →
    ∀ k v, (k, v) ∈ kvs → JVal.Ascending (canon v)
  | [], _, _, _, h => absurd h (List.not_mem_nil _)
  | (k1, v1) :: rest, hw, k, v, h => by
    simp only [JVal.WFFields] at hw
    rcases List.mem_cons.1 h with h1 | h1
    · injection h1 with _ h2
      subst h2
      exact canon_ascending v hw.1
    · exact canonFields_ascending rest hw.2 k v h1
end

end AscendingKeys

section SortedOutput

variable {F : Type} [Float64Model F]

mutual
/-- On a value that lists its keys in ascending order the encoder prints the members in the
order in which they are held. -/
theorem marshalVal_eq_printVal : ∀ (v : JVal F) (d : Nat), JVal.Ascending v →
    marshalVal d v = printVal d v
  | JVal.null, _, _ => rfl
  | JVal.bool true, _, _ => rfl
  | JVal.bool false, _, _ => rfl
  | JVal.num _, _, _ => rfl
  | JVal.str _, _, _ => rfl
  | JVal.arr xs, d, h => by
    simp only [JVal.Ascending] at h
    simp only [marshalVal, printVal, marshalElems_eq_printElems xs (d + 1) h]
  | JVal.obj kvs, d, h => by
    simp only [JVal.Ascending] at h
    have hm := marshalMembers_eq_printMembers kvs (d + 1) h.2
    have hs : (marshalMembers (d + 1) kvs).Sorted byKey := by
      apply sorted_of_keys_ascending
      rw [marshalMembers_eq_map, List.map_map]
      exact h.1
    simp only [marshalVal, printVal, sortMembers, hm]
    rw [hm] at hs
    rw [List.Sorted.insertionSort_eq hs]
theorem marshalElems_eq_printElems : ∀ (xs : List (JVal F)) (d : Nat),
    JVal.AscendingList xs → marshalElems d xs = printElems d xs
  | [], _, _ => rfl
  | x :: xs, d, h => by
    simp only [JVal.AscendingList] at h
    simp only [marshalElems, printElems, marshalVal_eq_printVal x d h.1,
      marshalElems_eq_printElems xs d h.2]
theorem marshalMembers_eq_printMembers : ∀ (kvs : List (Bytes × JVal F)) (d : Nat),
    JVal.AscendingFields kvs → marshalMembers d kvs = printMembers d kvs
  | [], _, _ => rfl
  | (k, v) :: kvs, d, h => by
    simp only [JVal.AscendingFields] at h
    simp only [marshalMembers, printMembers, marshalVal_eq_printVal v d h.1,
      marshalMembers_eq_printMembers kvs d h.2]
end

end SortedOutput

section ClaimsSortedOutput

variable {F : Type} [Float64Model F]

/-- C15. Sorted canonical output: when `FormatJSON` succeeds, the canonical bytes are the
tab-indented text of the decoded Record arranged so that, at every nesting level, the keys of
an object are in ascending lexicographic order: the arranged value is structurally equal to the
decoded Record, lists its keys in ascending order, and printing its members as they are listed
gives the canonical bytes. -/
theorem sorted_canonical_output (ord : MapOrder F) (src : Bytes) (r : Record F) (c : Bytes)
    (h : FormatJSON ord src = Except.ok (r, c)) :
    JEquiv (canon r.toJVal) r.toJVal ∧ JVal.Ascending (canon r.toJVal) ∧
      c = printVal 0 (canon r.toJVal) := by
  have hw := FormatJSON_wf h
  refine ⟨(canon_spec _ hw).2, canon_ascending _ hw, ?_⟩
  rw [FormatJSON_formatted h, ← marshalVal_eq_printVal _ 0 (canon_ascending _ hw)]
  exact (marshalVal_canon 0 hw).symm

/-- C15, at the input and the expected output of the test `TestFormatJSON`. -/
theorem sorted_canonical_output_witness :
    JEquiv (JVal.obj fieldsFormatSorted) (JVal.obj fieldsFormatInput) ∧
      JVal.Ascending (JVal.obj fieldsFormatSorted) ∧
      docFormatOutput = printVal 0 (JVal.obj fieldsFormatSorted) :=
  sorted_canonical_output MapOrder.insertion docFormatInput (some fieldsFormatInput)
    docFormatOutput rfl

end ClaimsSortedOutput

end GoCompare
